import Mathlib

/-!
# CodeForge `setup.js`: a shallow embedding

The installer reconciles a *package* tree (shipped defaults, read only) with a
*destination* tree (the user's `.devcontainer`).  The embedding follows
`src/setup.js` function by function.

## Data model

* The package tree is an `Entries` value: the listing that
  `fs.readdirSync(dir, { withFileTypes: true })` returns for a directory, in the
  order it returns it, every directory entry carrying its own listing.  Only
  directories and regular files are modelled.
* The destination tree is an `FS`: a map from a path (the list of components
  below the destination root, `[]` being the root itself) to the object found
  there.  A real tree is `FS.WF`: whatever exists has directories for ancestors.
* The package and the destination are two separate trees: writes to the
  destination never change what the walk reads from the package.
* A file's content is its text (`String`).
* A call that throws leaves the destination as it was before that call, with one
  exception: `fs.copyFileSync` opens (and creates) its target before it reads its
  source, and unlinks the target when the copy then fails, which is what happens when
  the source is a directory.  What was written by earlier calls stays (there is no
  rollback).  An `Outcome` therefore always carries the destination tree, and the
  returned value only on success.
-/

namespace CodeForge

/-! ## The destination filesystem -/

/-- An object of the destination tree: a regular file with its text, or a directory. -/
inductive Obj where
  | file (content : String)
  | dir
  deriving DecidableEq, Repr

/-- A path below the destination root, as its list of components. -/
abbrev Path := List String

/-- The destination tree: what is found at each path, if anything. -/
abbrev FS := Path → Option Obj

/-- Error codes of the Node.js `fs` calls used by `setup.js`. -/
inductive Errno where
  | ENOENT
  | ENOTDIR
  | EISDIR
  | EEXIST
  deriving DecidableEq, Repr

deriving instance DecidableEq for Except

/-- The destination tree after a call, and what the call returned or threw. -/
structure Outcome (α : Type) where
  fs : FS
  result : Except Errno α

/-- The tree in which nothing exists (not even the destination root). -/
def FS.empty : FS := fun _ => none

/-- A tree given by a finite table of its objects (first binding wins). -/
def FS.ofList (l : List (Path × Obj)) : FS := fun q => l.lookup q

/-- Well-formed trees: every proper ancestor of an existing object is a directory. -/
def FS.WF (fs : FS) : Prop :=
  ∀ (p : Path) (name : String), fs (p ++ [name]) ≠ none → fs p = some Obj.dir

/-- The tree with a regular file holding `content` at `p`, all else as in `fs`. -/
def FS.write (fs : FS) (p : Path) (content : String) : FS :=
  fun q => if q = p then some (Obj.file content) else fs q

/-- The tree with directories at `p` and at all its ancestors, all else as in `fs`. -/
def FS.mkdirp (fs : FS) (p : Path) : FS :=
  fun q => if q.isPrefixOf p then some Obj.dir else fs q

/-- Model of `fs.existsSync(path)`. -/
def existsSync (fs : FS) (p : Path) : Bool := (fs p).isSome

/-- Whether a regular file is found. -/
def Obj.isFile : Option Obj → Bool
  | some (Obj.file _) => true
  | _ => false

/-- Model of `fs.mkdirSync(path, { recursive: true })`: every missing ancestor and the
path itself become directories; a regular file on the way is an error. -/
def mkdirSync (fs : FS) (p : Path) : Except Errno FS :=
  if Obj.isFile (fs p) then .error .EEXIST
  else if p.inits.any (fun q => Obj.isFile (fs q)) then .error .ENOTDIR
  else .ok (fs.mkdirp p)

/-- Model of `fs.copyFileSync(srcPath, destPath)` with `srcPath` a regular file of the
package holding `content`: the parent of `destPath` must be a directory and `destPath`
must not be one; the file is created or overwritten. -/
def copyFromPackage (fs : FS) (destPath : Path) (content : String) : Except Errno FS :=
  match fs destPath.dropLast with
  | none => .error .ENOENT
  | some (Obj.file _) => .error .ENOTDIR
  | some Obj.dir =>
    match fs destPath with
    | some Obj.dir => .error .EISDIR
    | _ => .ok (fs.write destPath content)

/-- The tree without the object at `p`, all else as in `fs`. -/
def FS.remove (fs : FS) (p : Path) : FS :=
  fun q => if q = p then none else fs q

/-- Model of `fs.copyFileSync(a, b)` with both paths in the destination tree.  The call
opens `a`, then opens `b` for writing (creating or truncating it), then copies, and
unlinks `b` when the copy fails after `b` was opened.  A missing `a` fails at the first
open and a `b` that cannot be opened (no parent directory, or `b` a directory) at the
second, both with the tree as it was.  A directory at `a` can be opened but not read: the
call throws `EISDIR` and `b`, a regular file or nothing before, is gone. -/
def copyFileSync (fs : FS) (a b : Path) : Outcome Unit :=
  match fs a with
  | none => ⟨fs, .error .ENOENT⟩
  | some Obj.dir =>
    match fs b.dropLast with
    | none => ⟨fs, .error .ENOENT⟩
    | some (Obj.file _) => ⟨fs, .error .ENOTDIR⟩
    | some Obj.dir =>
      match fs b with
      | some Obj.dir => ⟨fs, .error .EISDIR⟩
      | _ => ⟨fs.remove b, .error .EISDIR⟩
  | some (Obj.file content) =>
    match copyFromPackage fs b content with
    | .error e => ⟨fs, .error e⟩
    | .ok fs1 => ⟨fs1, .ok ()⟩

/-- Model of `fs.rmSync(path, { recursive: true, force: true })`. -/
def rmSync (fs : FS) (p : Path) : FS :=
  fun q => if p.isPrefixOf q then none else fs q

/-! ## The package tree -/

/-- A directory listing of the package tree, in `readdirSync` order. -/
inductive Entries where
  | nil
  | file (name : String) (content : String) (rest : Entries)
  | dir (name : String) (children : Entries) (rest : Entries)
  deriving DecidableEq, Repr

/-! ## `DEFAULT_PRESERVE` and `loadPreserveList` (lines 6-54) -/

/-- The built-in preserve list (lines 9-15). -/
def DEFAULT_PRESERVE : List String :=
  [ "config/defaults/settings.json",
    "config/defaults/main-system-prompt.md",
    "config/defaults/keybindings.json",
    "config/file-manifest.json",
    ".codeforge-preserve" ]

/-- The characters `String.prototype.trim` strips: ECMAScript WhiteSpace and
LineTerminator code points. -/
def isJsWhiteSpace (c : Char) : Bool :=
  let n := c.toNat
  n == 0x09 || n == 0x0A || n == 0x0B || n == 0x0C || n == 0x0D || n == 0x20 ||
  n == 0xA0 || n == 0x1680 || (0x2000 ≤ n && n ≤ 0x200A) || n == 0x2028 ||
  n == 0x2029 || n == 0x202F || n == 0x205F || n == 0x3000 || n == 0xFEFF

/-- Model of `line.trim()`. -/
def trim (line : List Char) : List Char :=
  ((line.dropWhile isJsWhiteSpace).reverse.dropWhile isJsWhiteSpace).reverse

/-- The filter of line 50: `line && !line.startsWith("#")`. -/
def keepLine (line : List Char) : Bool :=
  !line.isEmpty && line.head? != some '#'

/-- Lines 46-50: the custom entries read from the text of `.codeforge-preserve`. -/
def customEntries (text : String) : List String :=
  (((text.data.splitOn '\n').map trim).filter keepLine).map String.mk

/-- Model of `new Set(xs)`: the distinct elements of `xs` in insertion order. -/
def newSet : List String → List String
  | [] => []
  | x :: xs => x :: (newSet xs).filter (fun y => y != x)

/-- Model of `loadPreserveList(devcontainerDest)` (lines 41-54); the destination root is
the root of `fs`.  Reading a directory throws. -/
def loadPreserveList (fs : FS) : Except Errno (List String) :=
  match fs [".codeforge-preserve"] with
  | none => .ok (newSet (DEFAULT_PRESERVE ++ []))
  | some (Obj.file text) => .ok (newSet (DEFAULT_PRESERVE ++ customEntries text))
  | some Obj.dir => .error .EISDIR

/-! ## `copyDirectory` (lines 19-36) -/

/-- Lines 20-22 and 72-74: `if (!fs.existsSync(dir)) fs.mkdirSync(dir, { recursive: true })`. -/
def ensureDir (fs : FS) (dir : Path) : Except Errno FS :=
  if existsSync fs dir then .ok fs else mkdirSync fs dir

/-- The `for` loop of `copyDirectory` (lines 26-35) over the listing of `src`.  The
recursive call of line 31 is unfolded in place: it first runs lines 20-22 on the
sub-directory (`ensureDir`), then the loop over its listing. -/
def copyLoop : Entries → Path → FS → Outcome Unit
  | .nil, _, fs => ⟨fs, .ok ()⟩
  | .file name content rest, dest, fs =>
    match copyFromPackage fs (dest ++ [name]) content with
    | .error e => ⟨fs, .error e⟩
    | .ok fs1 => copyLoop rest dest fs1
  | .dir name children rest, dest, fs =>
    match ensureDir fs (dest ++ [name]) with
    | .error e => ⟨fs, .error e⟩
    | .ok fs1 =>
      match copyLoop children (dest ++ [name]) fs1 with
      | ⟨fs2, .error e⟩ => ⟨fs2, .error e⟩
      | ⟨fs2, .ok ()⟩ => copyLoop rest dest fs2

/-- Model of `copyDirectory(src, dest)`: `src` is the package listing, `dest` a path of
the destination tree. -/
def copyDirectory (src : Entries) (dest : Path) (fs : FS) : Outcome Unit :=
  match ensureDir fs dest with
  | .error e => ⟨fs, .error e⟩
  | .ok fs1 => copyLoop src dest fs1

/-! ## `syncDirectory` (lines 62-120) -/

/-- The statistics object of lines 63-69. -/
structure Stats where
  updated : Nat
  preserved : Nat
  added : Nat
  backedUp : Nat
  preservedFiles : List String
  deriving DecidableEq, Repr

/-- The initial statistics. -/
def Stats.zero : Stats := ⟨0, 0, 0, 0, []⟩

/-- Lines 81-83: `relativeBase ? relativeBase + "/" + entry.name : entry.name`. -/
def relativePath (relativeBase name : String) : String :=
  if relativeBase = "" then name else relativeBase ++ "/" ++ name

/-- The per-file policy of `walk` (lines 90-114) for a package file holding `content`,
with `destPath = path.join(destDir, name)`. -/
def walkFile (preserveSet : List String) (content : String) (destDir : Path)
    (name rel : String) (fs : FS) (stats : Stats) : Outcome Stats :=
  if rel = "devcontainer.json" ∧ existsSync fs (destDir ++ [name]) = true then
    match copyFileSync fs (destDir ++ [name]) (destDir ++ [name ++ ".bak"]) with
    | ⟨fs1, .error e⟩ => ⟨fs1, .error e⟩
    | ⟨fs1, .ok ()⟩ =>
      match copyFromPackage fs1 (destDir ++ [name]) content with
      | .error e => ⟨fs1, .error e⟩
      | .ok fs2 =>
        ⟨fs2, .ok { stats with backedUp := stats.backedUp + 1, updated := stats.updated + 1 }⟩
  else if rel ∈ preserveSet ∧ existsSync fs (destDir ++ [name]) = true then
    match copyFromPackage fs (destDir ++ [name ++ ".codeforge-new"]) content with
    | .error e => ⟨fs, .error e⟩
    | .ok fs1 =>
      ⟨fs1, .ok { stats with preserved := stats.preserved + 1,
                             preservedFiles := stats.preservedFiles ++ [rel] }⟩
  else
    let isNew := !existsSync fs (destDir ++ [name])
    match copyFromPackage fs (destDir ++ [name]) content with
    | .error e => ⟨fs, .error e⟩
    | .ok fs1 =>
      if isNew then ⟨fs1, .ok { stats with added := stats.added + 1 }⟩
      else ⟨fs1, .ok { stats with updated := stats.updated + 1 }⟩

/-- The `for` loop of `walk` (lines 78-115) over the listing of `srcDir`.  The recursive
call of line 86 is unfolded in place: lines 72-74 on the sub-directory (`ensureDir`),
then the loop over its listing. -/
def walkLoop (preserveSet : List String) :
    Entries → Path → String → FS → Stats → Outcome Stats
  | .nil, _, _, fs, stats => ⟨fs, .ok stats⟩
  | .file name content rest, destDir, relativeBase, fs, stats =>
    match walkFile preserveSet content destDir name (relativePath relativeBase name) fs stats with
    | ⟨fs1, .error e⟩ => ⟨fs1, .error e⟩
    | ⟨fs1, .ok stats1⟩ => walkLoop preserveSet rest destDir relativeBase fs1 stats1
  | .dir name children rest, destDir, relativeBase, fs, stats =>
    match ensureDir fs (destDir ++ [name]) with
    | .error e => ⟨fs, .error e⟩
    | .ok fs1 =>
      match walkLoop preserveSet children (destDir ++ [name]) (relativePath relativeBase name)
          fs1 stats with
      | ⟨fs2, .error e⟩ => ⟨fs2, .error e⟩
      | ⟨fs2, .ok stats2⟩ => walkLoop preserveSet rest destDir relativeBase fs2 stats2

/-- Model of `walk(srcDir, destDir, relativeBase)` (lines 71-116). -/
def walk (preserveSet : List String) (srcDir : Entries) (destDir : Path)
    (relativeBase : String) (fs : FS) (stats : Stats) : Outcome Stats :=
  match ensureDir fs destDir with
  | .error e => ⟨fs, .error e⟩
  | .ok fs1 => walkLoop preserveSet srcDir destDir relativeBase fs1 stats

/-- Model of `syncDirectory(src, dest, preserveSet)` with `dest` the root of `fs`. -/
def syncDirectory (src : Entries) (fs : FS) (preserveSet : List String) : Outcome Stats :=
  walk preserveSet src [] "" fs Stats.zero

/-! ## The walk as a sequence of steps

`walk` visits the package tree depth first.  `steps` lists, in the order of the walk,
what it does below the root: the directories it makes sure exist and the files it
applies the policy to.  `walkLoop_eq_runSteps` shows that running the list is running
the walk. -/

/-- A regular file of the package as the walk sees it: the destination directory
`destDir`, the entry name, the relative path `rel` computed by lines 81-83, and the
content of the package version. -/
structure PkgFile where
  destDir : Path
  name : String
  rel : String
  content : String
  deriving DecidableEq, Repr

/-- `destPath = path.join(destDir, entry.name)`. -/
def PkgFile.destPath (f : PkgFile) : Path := f.destDir ++ [f.name]

/-- The side-car `destPath + ".bak"`. -/
def PkgFile.bakPath (f : PkgFile) : Path := f.destDir ++ [f.name ++ ".bak"]

/-- The side-car `destPath + ".codeforge-new"`. -/
def PkgFile.newPath (f : PkgFile) : Path := f.destDir ++ [f.name ++ ".codeforge-new"]

/-- One action of the walk. -/
inductive Step where
  | mkdir (destDir : Path)
  | visit (f : PkgFile)
  deriving DecidableEq, Repr

/-- The actions of the loop over a listing, in order. -/
def steps : Entries → Path → String → List Step
  | .nil, _, _ => []
  | .file name content rest, destDir, relativeBase =>
    Step.visit ⟨destDir, name, relativePath relativeBase name, content⟩ ::
      steps rest destDir relativeBase
  | .dir name children rest, destDir, relativeBase =>
    Step.mkdir (destDir ++ [name]) ::
      (steps children (destDir ++ [name]) (relativePath relativeBase name) ++
        steps rest destDir relativeBase)

/-- The regular files among a list of steps. -/
def visited : List Step → List PkgFile
  | [] => []
  | Step.mkdir _ :: rest => visited rest
  | Step.visit f :: rest => f :: visited rest

/-- The directories among a list of steps. -/
def madeDirs : List Step → List Path
  | [] => []
  | Step.mkdir d :: rest => d :: madeDirs rest
  | Step.visit _ :: rest => madeDirs rest

/-- The regular files of the package tree (every non-directory entry), in the order
`syncDirectory` visits them. -/
def files (src : Entries) : List PkgFile := visited (steps src [] "")

/-- The directories of the package tree below its root, as destination paths. -/
def dirs (src : Entries) : List Path := madeDirs (steps src [] "")

/-- The destination path a step is about. -/
def Step.path : Step → Path
  | Step.mkdir d => d
  | Step.visit f => f.destPath

/-- The paths of all entries of the package tree. -/
def entryPaths (src : Entries) : List Path := (steps src [] "").map Step.path

/-- The names listed in a directory. -/
def Entries.names : Entries → List String
  | .nil => []
  | .file name _ rest => name :: rest.names
  | .dir name _ rest => name :: rest.names

/-- A package tree is a directory tree: names are unique within each directory. -/
def UniqueNames : Entries → Prop
  | .nil => True
  | .file name _ rest => name ∉ rest.names ∧ UniqueNames rest
  | .dir name children rest => name ∉ rest.names ∧ UniqueNames children ∧ UniqueNames rest

instance UniqueNames.decidable : (src : Entries) → Decidable (UniqueNames src)
  | .nil => isTrue trivial
  | .file name _ rest =>
    have := UniqueNames.decidable rest
    inferInstanceAs (Decidable (name ∉ rest.names ∧ UniqueNames rest))
  | .dir name children rest =>
    have := UniqueNames.decidable children
    have := UniqueNames.decidable rest
    inferInstanceAs (Decidable (name ∉ rest.names ∧ UniqueNames children ∧ UniqueNames rest))

/-- The package tree as a path map: the object found at a path below the package root
(the first entry of a name counts). -/
def Entries.toFS : Entries → FS
  | _, [] => some Obj.dir
  | .nil, _ :: _ => none
  | .file name content rest, x :: xs =>
    if x = name then (if xs = [] then some (Obj.file content) else none)
    else rest.toFS (x :: xs)
  | .dir name children rest, x :: xs =>
    if x = name then children.toFS xs else rest.toFS (x :: xs)

/-- One step of `syncDirectory`. -/
def runStep (preserveSet : List String) : Step → FS → Stats → Outcome Stats
  | Step.mkdir d, fs, stats =>
    match ensureDir fs d with
    | .error e => ⟨fs, .error e⟩
    | .ok fs1 => ⟨fs1, .ok stats⟩
  | Step.visit f, fs, stats => walkFile preserveSet f.content f.destDir f.name f.rel fs stats

/-- A list of steps run in order, stopping at the first that throws. -/
def runSteps (preserveSet : List String) : List Step → FS → Stats → Outcome Stats
  | [], fs, stats => ⟨fs, .ok stats⟩
  | s :: rest, fs, stats =>
    match runStep preserveSet s fs stats with
    | ⟨fs1, .error e⟩ => ⟨fs1, .error e⟩
    | ⟨fs1, .ok stats1⟩ => runSteps preserveSet rest fs1 stats1

/-! ## `main` (lines 123-232) -/

/-- Lines 176-181 of `main`, the force update: `loadPreserveList` on the destination,
then `syncDirectory` with the set it returns. -/
def update (src : Entries) (fs : FS) : Outcome Stats :=
  match loadPreserveList fs with
  | .error e => ⟨fs, .error e⟩
  | .ok preserveSet => syncDirectory src fs preserveSet

/-- What an invocation of `main` leaves: the exit code of the process, the destination
tree, and the statistics a force update surfaced.  Console output is not modelled. -/
structure MainResult where
  exitCode : Nat
  fs : FS
  stats : Option Stats

/-- Model of `main()` (lines 123-232).  `args` is `process.argv.slice(2)`; `pkg` is the
package's `.devcontainer` tree, `none` when it does not exist (line 154); `fs` is the
destination `.devcontainer`, whose root is the path `[]`.  An exception that escapes
`main` ends the process with exit code 1, like `process.exit(1)`. -/
def main (args : List String) (pkg : Option Entries) (fs : FS) : MainResult :=
  let force := decide ("--force" ∈ args ∨ "-f" ∈ args)
  let reset := decide ("--reset" ∈ args)
  if "--help" ∈ args ∨ "-h" ∈ args then ⟨0, fs, none⟩
  else
    match pkg with
    | none => ⟨1, fs, none⟩
    | some src =>
      if existsSync fs [] then
        if reset then
          match copyDirectory src [] (rmSync fs []) with
          | ⟨fs1, .error _⟩ => ⟨1, fs1, none⟩
          | ⟨fs1, .ok ()⟩ => ⟨0, fs1, none⟩
        else if force then
          match update src fs with
          | ⟨fs1, .error _⟩ => ⟨1, fs1, none⟩
          | ⟨fs1, .ok stats⟩ => ⟨0, fs1, some stats⟩
        else ⟨1, fs, none⟩
      else
        match copyDirectory src [] fs with
        | ⟨fs1, .error _⟩ => ⟨1, fs1, none⟩
        | ⟨fs1, .ok ()⟩ => ⟨0, fs1, none⟩

/-! ## Notions used to state the claims -/

/-- The paths a step may create, change or (the `.bak` side-car, when the back-up
throws) remove, given the preserve set: for a file its destination path and its two
side-cars (each only when its rule can apply); a directory step only ever creates
directories where nothing existed. -/
def Step.writes (S : List String) : Step → Path → Prop
  | Step.mkdir _, _ => False
  | Step.visit f, q =>
    q = f.destPath ∨ (f.rel ∈ S ∧ q = f.newPath) ∨ (f.rel = "devcontainer.json" ∧ q = f.bakPath)

/-- The paths a step may create or change: for a directory step the ancestors of the
directory (and itself), for a file what `Step.writes` lists. -/
def Step.touches (S : List String) : Step → Path → Prop
  | Step.mkdir d, q => q <+: d
  | Step.visit f, q => Step.writes S (Step.visit f) q

/-- The four outcomes of the per-file policy (the four places where `walk` counts). -/
inductive Tag where
  | Overwritten
  | Added
  | Preserved
  | BackedUp
  deriving DecidableEq, Repr

/-- What `walk` adds to the statistics for a file of relative path `rel` under each
outcome: lines 94-95 (back-up rule), 102-103 (preserve rule), 111 and 113 (default
rule). -/
def Stats.tally (stats : Stats) (rel : String) : Tag → Stats
  | Tag.BackedUp => { stats with backedUp := stats.backedUp + 1, updated := stats.updated + 1 }
  | Tag.Preserved => { stats with preserved := stats.preserved + 1,
                                  preservedFiles := stats.preservedFiles ++ [rel] }
  | Tag.Added => { stats with added := stats.added + 1 }
  | Tag.Overwritten => { stats with updated := stats.updated + 1 }

/-- `Visit src dest S f fs0 stats0 fs1 stats1`: in the run of
`syncDirectory(src, dest, S)` the walk reaches the package file `f` with destination
tree `fs0` and statistics `stats0`, and the per-file policy for `f` completes, leaving
the tree `fs1` and the statistics `stats1`. -/
def Visit (src : Entries) (dest : FS) (S : List String) (f : PkgFile)
    (fs0 : FS) (stats0 : Stats) (fs1 : FS) (stats1 : Stats) : Prop :=
  ∃ pre post, Step.mkdir [] :: steps src [] "" = pre ++ Step.visit f :: post ∧
    runSteps S pre dest Stats.zero = ⟨fs0, .ok stats0⟩ ∧
    walkFile S f.content f.destDir f.name f.rel fs0 stats0 = ⟨fs1, .ok stats1⟩

/-! ## Example trees -/

/-- The package of the example scenario: `a.txt = "X"`, `secret.json = "Y"`. -/
def exampleSrc : Entries := .file "a.txt" "X" (.file "secret.json" "Y" .nil)

/-- The destination of the example scenario: `a.txt = "old"`, `secret.json = "mine"`, and
an exclusion file listing `secret.json`. -/
def exampleDest : FS :=
  FS.ofList [([], Obj.dir), (["a.txt"], Obj.file "old"), (["secret.json"], Obj.file "mine"),
    ([".codeforge-preserve"], Obj.file "secret.json")]

/-- A package with a single file `a.txt`. -/
def oneFileSrc : Entries := .file "a.txt" "X" .nil

/-- A destination whose exclusion file lists the user's own `notes.md`. -/
def notesDest : FS :=
  FS.ofList [([], Obj.dir), ([".codeforge-preserve"], Obj.file "notes.md\n"),
    (["notes.md"], Obj.file "mine")]

/-- A package with only the top-level `devcontainer.json`. -/
def containerSrc : Entries := .file "devcontainer.json" "P" .nil

/-- A destination with the user's `devcontainer.json` and an earlier
`devcontainer.json.bak`. -/
def backedUpDest : FS :=
  FS.ofList [([], Obj.dir), (["devcontainer.json"], Obj.file "U"),
    (["devcontainer.json.bak"], Obj.file "first backup")]

/-- A package that ships, next to `devcontainer.json`, a file named
`devcontainer.json.bak`. -/
def shipsBakSrc : Entries :=
  .file "devcontainer.json" "P" (.file "devcontainer.json.bak" "Q" .nil)

/-- A destination with the user's `devcontainer.json` only. -/
def containerDest : FS :=
  FS.ofList [([], Obj.dir), (["devcontainer.json"], Obj.file "U")]

/-- A destination whose exclusion file lists `devcontainer.json`. -/
def listedContainerDest : FS :=
  FS.ofList [([], Obj.dir), (["devcontainer.json"], Obj.file "U"),
    ([".codeforge-preserve"], Obj.file "devcontainer.json")]

/-- A package with the preserved `config/file-manifest.json`, a framework script and
`devcontainer.json`. -/
def manifestSrc : Entries :=
  .dir "config" (.file "file-manifest.json" "M" .nil)
    (.file "devcontainer.json" "P" (.file "setup.sh" "S" .nil))

/-- A destination that is an empty directory. -/
def emptyDirDest : FS := FS.ofList [([], Obj.dir)]

/-- The exit code of a process whose last call ended with this outcome: 0 when the call
returned, 1 when it threw. -/
def Outcome.exitCode {α : Type} (o : Outcome α) : Nat :=
  match o.result with
  | .ok _ => 0
  | .error _ => 1

/-- An entry name as a filesystem gives it: not empty and without a `/`. -/
def ValidName (n : String) : Prop := n ≠ "" ∧ '/' ∉ n.data

instance (n : String) : Decidable (ValidName n) := by
  unfold ValidName; infer_instance

/-- A package tree whose entry names are all valid. -/
def ValidNames : Entries → Prop
  | .nil => True
  | .file name _ rest => ValidName name ∧ ValidNames rest
  | .dir name children rest => ValidName name ∧ ValidNames children ∧ ValidNames rest

instance ValidNames.decidable : (src : Entries) → Decidable (ValidNames src)
  | .nil => isTrue trivial
  | .file name _ rest =>
    have := ValidNames.decidable rest
    inferInstanceAs (Decidable (ValidName name ∧ ValidNames rest))
  | .dir name children rest =>
    have := ValidNames.decidable children
    have := ValidNames.decidable rest
    inferInstanceAs (Decidable (ValidName name ∧ ValidNames children ∧ ValidNames rest))

/-- A package with `devcontainer.json` at the top level and another one in the
subdirectory `sub`. -/
def nestedContainerSrc : Entries :=
  .file "devcontainer.json" "P" (.dir "sub" (.file "devcontainer.json" "N" .nil) .nil)

/-- A destination that has both files of `nestedContainerSrc` already. -/
def nestedContainerDest : FS :=
  FS.ofList [([], Obj.dir), (["devcontainer.json"], Obj.file "U"), (["sub"], Obj.dir),
    (["sub", "devcontainer.json"], Obj.file "V")]

/-- A package with `config/custom.json`. -/
def customSrc : Entries := .dir "config" (.file "custom.json" "P" .nil) .nil

/-- A destination with the user's `config/custom.json` and an exclusion file whose one
line spells that path with a backslash. -/
def backslashDest : FS :=
  FS.ofList [([], Obj.dir), (["config"], Obj.dir), (["config", "custom.json"], Obj.file "mine"),
    ([".codeforge-preserve"], Obj.file "config\\custom.json")]

/-- An object with its content forgotten. -/
def Obj.shape : Obj → Obj
  | Obj.file _ => Obj.file ""
  | Obj.dir => Obj.dir

/-- A destination tree with all contents forgotten: which paths exist, and whether each
is a regular file or a directory. -/
def FS.shape (fs : FS) : FS := fun q => (fs q).map Obj.shape

/-- A package tree with all contents forgotten: its directory and file paths, in the
order the directories list them. -/
def Entries.shape : Entries → Entries
  | .nil => .nil
  | .file name _ rest => .file name "" rest.shape
  | .dir name children rest => .dir name children.shape rest.shape

/-- The package of the example scenario with other contents. -/
def exampleSrc2 : Entries := .file "a.txt" "X" (.file "secret.json" "changed" .nil)

/-- A destination of the same shape as `exampleDest` with other contents; `a.txt`
already equals the package version. -/
def exampleDest2 : FS :=
  FS.ofList [([], Obj.dir), (["a.txt"], Obj.file "X"), (["secret.json"], Obj.file "theirs"),
    ([".codeforge-preserve"], Obj.file "# nothing")]

/-- The relative path lines 81-83 build for the components `t` below a directory whose
relative path is `rb`. -/
def relOf (rb : String) (t : Path) : String := t.foldl relativePath rb

/-- The characters that follow the first component in a relative path: each further
component preceded by `/`. -/
def slashed (t : Path) : List Char := (t.map fun n => '/' :: n.data).flatten

/-- The destination path of the package file `f` is a side-car path of the run: it is
`destPath + ".codeforge-new"` of a package file of the preserve set, or
`destPath + ".bak"` of the package's `devcontainer.json`. -/
def AtSideCar (src : Entries) (S : List String) (f : PkgFile) : Prop :=
  ∃ g ∈ files src, (g.rel ∈ S ∧ g.newPath = f.destPath) ∨
    (g.rel = "devcontainer.json" ∧ g.bakPath = f.destPath)

instance (src : Entries) (S : List String) (f : PkgFile) : Decidable (AtSideCar src S f) := by
  unfold AtSideCar; infer_instance

/-- A destination with the user's `devcontainer.json` and an exclusion file that lists
`devcontainer.json.bak`. -/
def listedBakDest : FS :=
  FS.ofList [([], Obj.dir), (["devcontainer.json"], Obj.file "U"),
    ([".codeforge-preserve"], Obj.file "devcontainer.json.bak")]

/-- A package with the file `.codeforge-preserve` and, next to it, a directory named
`.codeforge-preserve.codeforge-new` holding one file. -/
def stagedDirSrc : Entries :=
  .file ".codeforge-preserve" "P"
    (.dir ".codeforge-preserve.codeforge-new" (.file "y" "Y" .nil) .nil)

/-- A destination with an empty exclusion file only. -/
def stagedDirDest : FS :=
  FS.ofList [([], Obj.dir), ([".codeforge-preserve"], Obj.file "")]

/-- A package with a file two directories deep and an empty directory. -/
def deepSrc : Entries :=
  .dir "a" (.dir "b" (.file "c.txt" "C" .nil) .nil) (.dir "empty" .nil .nil)

/-- A destination where `devcontainer.json` is a directory, next to an earlier
`devcontainer.json.bak`. -/
def dirContainerDest : FS :=
  FS.ofList [([], Obj.dir), (["devcontainer.json"], Obj.dir),
    (["devcontainer.json.bak"], Obj.file "first backup")]

/-! ## Basic facts about the filesystem calls -/

theorem copyFromPackage_ok {fs fs1 : FS} {p : Path} {c : String}
    (h : copyFromPackage fs p c = .ok fs1) :
    fs1 = fs.write p c ∧ fs p.dropLast = some Obj.dir ∧ fs p ≠ some Obj.dir := by
  unfold copyFromPackage at h
  split at h
  · cases h
  · cases h
  · split at h
    · cases h
    · rename_i hd _ hnd
      injection h with h
      exact ⟨h.symm, hd, fun hh => hnd hh⟩

theorem copyFromPackage_error {fs : FS} {p : Path} {c : String} {e : Errno}
    (h : copyFromPackage fs p c = .error e) :
    fs p.dropLast ≠ some Obj.dir ∨ fs p = some Obj.dir := by
  unfold copyFromPackage at h
  split at h
  · rename_i hd; left; rw [hd]; simp
  · rename_i hd; left; rw [hd]; simp
  · split at h
    · rename_i hd; right; exact hd
    · cases h

theorem copyFromPackage_succeeds {fs : FS} {p : Path} (c : String)
    (hd : fs p.dropLast = some Obj.dir) (hp : fs p ≠ some Obj.dir) :
    copyFromPackage fs p c = .ok (fs.write p c) := by
  unfold copyFromPackage
  rw [hd]
  cases hfp : fs p with
  | none => rfl
  | some o =>
    cases o with
    | dir => exact absurd hfp hp
    | file c0 => rfl

theorem copyFileSync_ok {fs fs1 : FS} {a b : Path}
    (h : copyFileSync fs a b = ⟨fs1, .ok ()⟩) :
    ∃ c, fs a = some (Obj.file c) ∧ copyFromPackage fs b c = .ok fs1 := by
  unfold copyFileSync at h
  split at h
  · simp at h
  · split at h
    · simp at h
    · simp at h
    · split at h <;> simp at h
  · rename_i c hc
    cases hc1 : copyFromPackage fs b c with
    | error e => rw [hc1] at h; simp at h
    | ok fs2 =>
      rw [hc1] at h
      injection h with h1 _
      subst h1
      exact ⟨c, hc, hc1⟩

/-- A throwing `copyFileSync` leaves the tree as it was, unless its source is a
directory and its target could be opened: then the target is gone. -/
theorem copyFileSync_error {fs fs1 : FS} {a b : Path} {e : Errno}
    (h : copyFileSync fs a b = ⟨fs1, .error e⟩) :
    fs1 = fs ∨ (fs a = some Obj.dir ∧ e = .EISDIR ∧ fs1 = fs.remove b) := by
  unfold copyFileSync at h
  split at h
  · injection h with h1 _; exact Or.inl h1.symm
  · rename_i ha
    split at h
    · injection h with h1 _; exact Or.inl h1.symm
    · injection h with h1 _; exact Or.inl h1.symm
    · split at h
      · injection h with h1 _; exact Or.inl h1.symm
      · injection h with h1 h2
        injection h2 with h2
        exact Or.inr ⟨ha, h2.symm, h1.symm⟩
  · rename_i c hc
    cases hc1 : copyFromPackage fs b c with
    | error e1 =>
      rw [hc1] at h
      injection h with h1 _
      exact Or.inl h1.symm
    | ok fs2 => rw [hc1] at h; simp at h

theorem mkdirSync_ok {fs fs1 : FS} {d : Path} (h : mkdirSync fs d = .ok fs1) :
    fs1 = (fun q => if q.isPrefixOf d then some Obj.dir else fs q) ∧
      ∀ q, q <+: d → Obj.isFile (fs q) = false := by
  unfold mkdirSync at h
  split at h
  · cases h
  · split at h
    · cases h
    · rename_i _ hany
      injection h with h
      refine ⟨h.symm, fun q hq => ?_⟩
      simp only [List.any_eq_true, not_exists, not_and, Bool.not_eq_true] at hany
      exact hany q ((List.mem_inits q d).2 hq)

theorem ensureDir_ok {fs fs1 : FS} {d : Path} (h : ensureDir fs d = .ok fs1) :
    (∀ q, fs q ≠ none → fs1 q = fs q) ∧ (∀ q, ¬ q <+: d → fs1 q = fs q) ∧
      (∀ q, fs1 q = fs q ∨ (fs q = none ∧ fs1 q = some Obj.dir)) ∧ fs1 d ≠ none := by
  unfold ensureDir at h
  split at h
  · rename_i hex
    injection h with h
    subst h
    refine ⟨fun _ _ => rfl, fun _ _ => rfl, fun _ => Or.inl rfl, ?_⟩
    simpa [existsSync, Option.isSome_iff_ne_none] using hex
  · obtain ⟨h1, h2⟩ := mkdirSync_ok h
    subst h1
    have key : ∀ q, q.isPrefixOf d = true → fs q ≠ none → fs q = some Obj.dir := by
      intro q hq hne
      have := h2 q (List.isPrefixOf_iff_prefix.1 hq)
      cases hfq : fs q with
      | none => exact absurd hfq hne
      | some o =>
        cases o with
        | dir => rfl
        | file c => rw [hfq] at this; simp [Obj.isFile] at this
    refine ⟨fun q hne => ?_, fun q hq => ?_, fun q => ?_, ?_⟩
    · by_cases hq : q.isPrefixOf d = true
      · simp only [hq, if_true]; exact (key q hq hne).symm
      · simp [hq]
    · have : ¬ q.isPrefixOf d = true := fun hh => hq (List.isPrefixOf_iff_prefix.1 hh)
      simp [this]
    · by_cases hq : q.isPrefixOf d = true
      · simp only [hq, if_true]
        cases hfq : fs q with
        | none => right; simp
        | some o => left; rw [← hfq]; exact (key q hq (by rw [hfq]; simp)).symm
      · left; simp [hq]
    · simp

/-! ## Running the steps is running the walk -/

theorem runSteps_append (S : List String) (a b : List Step) (fs : FS) (stats : Stats) :
    runSteps S (a ++ b) fs stats =
      match runSteps S a fs stats with
      | ⟨fs1, .error e⟩ => ⟨fs1, .error e⟩
      | ⟨fs1, .ok stats1⟩ => runSteps S b fs1 stats1 := by
  induction a generalizing fs stats with
  | nil => simp [runSteps]
  | cons s rest ih =>
    simp only [List.cons_append, runSteps]
    cases h : runStep S s fs stats with
    | mk fs1 r =>
      cases r with
      | error e => rfl
      | ok stats1 => exact ih fs1 stats1

theorem walkLoop_eq_runSteps (S : List String) (src : Entries) (destDir : Path)
    (relativeBase : String) (fs : FS) (stats : Stats) :
    walkLoop S src destDir relativeBase fs stats =
      runSteps S (steps src destDir relativeBase) fs stats := by
  induction src generalizing destDir relativeBase fs stats with
  | nil => rfl
  | file name content rest ih =>
    simp only [walkLoop, steps, runSteps, runStep]
    cases h : walkFile S content destDir name (relativePath relativeBase name) fs stats with
    | mk fs1 r =>
      cases r with
      | error e => rfl
      | ok stats1 => exact ih destDir relativeBase fs1 stats1
  | dir name children rest ihc ihr =>
    simp only [walkLoop, steps, runSteps, runStep]
    cases h : ensureDir fs (destDir ++ [name]) with
    | error e => rfl
    | ok fs1 =>
      simp only [runSteps_append, ihc]
      cases h2 : runSteps S (steps children (destDir ++ [name])
          (relativePath relativeBase name)) fs1 stats with
      | mk fs2 r =>
        cases r with
        | error e => rfl
        | ok stats2 => exact ihr destDir relativeBase fs2 stats2

theorem syncDirectory_eq_runSteps (src : Entries) (fs : FS) (S : List String) :
    syncDirectory src fs S = runSteps S (Step.mkdir [] :: steps src [] "") fs Stats.zero := by
  simp only [syncDirectory, walk, runSteps, runStep]
  cases h : ensureDir fs [] with
  | error e => rfl
  | ok fs1 => exact walkLoop_eq_runSteps S src [] "" fs1 Stats.zero

/-- Splitting a completed run at a step. -/
theorem runSteps_split {S : List String} {a : List Step} {s : Step} {b : List Step}
    {fs fs3 : FS} {stats stats3 : Stats}
    (h : runSteps S (a ++ s :: b) fs stats = ⟨fs3, .ok stats3⟩) :
    ∃ fs1 stats1 fs2 stats2, runSteps S a fs stats = ⟨fs1, .ok stats1⟩ ∧
      runStep S s fs1 stats1 = ⟨fs2, .ok stats2⟩ ∧
      runSteps S b fs2 stats2 = ⟨fs3, .ok stats3⟩ := by
  rw [runSteps_append] at h
  cases h1 : runSteps S a fs stats with
  | mk fs1 r =>
    rw [h1] at h
    cases r with
    | error e => simp at h
    | ok stats1 =>
      simp only [runSteps] at h
      cases h2 : runStep S s fs1 stats1 with
      | mk fs2 r2 =>
        rw [h2] at h
        cases r2 with
        | error e => simp at h
        | ok stats2 => exact ⟨fs1, stats1, fs2, stats2, rfl, h2, h⟩

/-! ## What one step writes -/

@[simp] theorem FS.write_same (fs : FS) (p : Path) (c : String) :
    fs.write p c p = some (Obj.file c) := by
  simp [FS.write]

theorem FS.write_ne (fs : FS) {p q : Path} (c : String) (h : q ≠ p) :
    fs.write p c q = fs q := by
  simp [FS.write, h]

theorem FS.remove_ne (fs : FS) {p q : Path} (h : q ≠ p) : fs.remove p q = fs q := by
  simp [FS.remove, h]

theorem FS.remove_same (fs : FS) (p : Path) : fs.remove p p = none := by
  simp [FS.remove]

theorem existsSync_iff (fs : FS) (p : Path) : existsSync fs p = true ↔ fs p ≠ none := by
  simp [existsSync, Option.isSome_iff_ne_none]

/-- The eight ways the per-file policy can end: the back-up rule (failing at the
back-up with the tree as it was, failing at the back-up of a directory with the `.bak`
path unlinked, failing at the overwrite, or done), the preserve rule (failing or done)
and the default rule (failing or done). -/
theorem walkFile_cases (S : List String) (f : PkgFile) (fs : FS) (stats : Stats) :
    (f.rel = "devcontainer.json" ∧ fs f.destPath ≠ none ∧
      ((∃ e, walkFile S f.content f.destDir f.name f.rel fs stats = ⟨fs, .error e⟩) ∨
       (fs f.destPath = some Obj.dir ∧
          walkFile S f.content f.destDir f.name f.rel fs stats =
            ⟨fs.remove f.bakPath, .error .EISDIR⟩) ∨
       (∃ u e, fs f.destPath = some (Obj.file u) ∧
          walkFile S f.content f.destDir f.name f.rel fs stats =
            ⟨fs.write f.bakPath u, .error e⟩) ∨
       (∃ u, fs f.destPath = some (Obj.file u) ∧
          walkFile S f.content f.destDir f.name f.rel fs stats =
            ⟨(fs.write f.bakPath u).write f.destPath f.content,
              .ok { stats with backedUp := stats.backedUp + 1,
                               updated := stats.updated + 1 }⟩))) ∨
    (¬ (f.rel = "devcontainer.json" ∧ fs f.destPath ≠ none) ∧
      f.rel ∈ S ∧ fs f.destPath ≠ none ∧
      ((∃ e, walkFile S f.content f.destDir f.name f.rel fs stats = ⟨fs, .error e⟩) ∨
       (walkFile S f.content f.destDir f.name f.rel fs stats =
          ⟨fs.write f.newPath f.content,
            .ok { stats with preserved := stats.preserved + 1,
                             preservedFiles := stats.preservedFiles ++ [f.rel] }⟩))) ∨
    (¬ (f.rel = "devcontainer.json" ∧ fs f.destPath ≠ none) ∧
      ¬ (f.rel ∈ S ∧ fs f.destPath ≠ none) ∧
      ((∃ e, walkFile S f.content f.destDir f.name f.rel fs stats = ⟨fs, .error e⟩) ∨
       (walkFile S f.content f.destDir f.name f.rel fs stats =
          ⟨fs.write f.destPath f.content,
            .ok (if fs f.destPath = none then { stats with added := stats.added + 1 }
                 else { stats with updated := stats.updated + 1 })⟩))) := by
  unfold walkFile
  simp only [existsSync_iff, PkgFile.destPath, PkgFile.bakPath, PkgFile.newPath]
  by_cases hA : f.rel = "devcontainer.json" ∧ fs (f.destDir ++ [f.name]) ≠ none
  · left
    refine ⟨hA.1, hA.2, ?_⟩
    rw [if_pos hA]
    cases h0 : copyFileSync fs (f.destDir ++ [f.name]) (f.destDir ++ [f.name ++ ".bak"]) with
    | mk fs1 r =>
      cases r with
      | error e =>
        rcases copyFileSync_error h0 with h | ⟨hd, he, h⟩
        · subst h
          exact Or.inl ⟨e, rfl⟩
        · subst h he
          exact Or.inr (Or.inl ⟨hd, rfl⟩)
      | ok x =>
        cases x
        obtain ⟨u, hu, h1⟩ := copyFileSync_ok h0
        have e1 := (copyFromPackage_ok h1).1
        subst e1
        dsimp only
        cases h2 : copyFromPackage (fs.write (f.destDir ++ [f.name ++ ".bak"]) u)
            (f.destDir ++ [f.name]) f.content with
        | error e => exact Or.inr (Or.inr (Or.inl ⟨u, e, hu, rfl⟩))
        | ok fs2 =>
          have e2 := (copyFromPackage_ok h2).1
          subst e2
          exact Or.inr (Or.inr (Or.inr ⟨u, hu, rfl⟩))
  · right
    rw [if_neg hA]
    by_cases hB : f.rel ∈ S ∧ fs (f.destDir ++ [f.name]) ≠ none
    · left
      refine ⟨hA, hB.1, hB.2, ?_⟩
      rw [if_pos hB]
      cases h1 : copyFromPackage fs (f.destDir ++ [f.name ++ ".codeforge-new"]) f.content with
      | error e => exact Or.inl ⟨e, rfl⟩
      | ok fs1 =>
        have e1 := (copyFromPackage_ok h1).1
        subst e1
        exact Or.inr rfl
    · right
      refine ⟨hA, hB, ?_⟩
      rw [if_neg hB]
      cases h1 : copyFromPackage fs (f.destDir ++ [f.name]) f.content with
      | error e => exact Or.inl ⟨e, rfl⟩
      | ok fs1 =>
        have e1 := (copyFromPackage_ok h1).1
        subst e1
        right
        dsimp only
        by_cases hn : fs (f.destDir ++ [f.name]) = none
        · simp [hn, existsSync]
        · have : (fs (f.destDir ++ [f.name])).isSome = true := by
            simpa [Option.isSome_iff_ne_none] using hn
          simp [hn, existsSync, this]

theorem walkFile_frame (S : List String) (f : PkgFile) (fs : FS) (stats : Stats) (q : Path)
    (hq : ¬ Step.writes S (Step.visit f) q) :
    (walkFile S f.content f.destDir f.name f.rel fs stats).fs q = fs q := by
  simp only [Step.writes, not_or, not_and] at hq
  obtain ⟨hq1, hq2, hq3⟩ := hq
  rcases walkFile_cases S f fs stats with
    ⟨hr, _, ⟨e, h⟩ | ⟨_, h⟩ | ⟨u, e, _, h⟩ | ⟨u, _, h⟩⟩ | ⟨_, hr, _, ⟨e, h⟩ | h⟩ |
      ⟨_, _, ⟨e, h⟩ | h⟩
  · rw [h]
  · rw [h]; exact FS.remove_ne _ (hq3 hr)
  · rw [h]; exact FS.write_ne _ _ (hq3 hr)
  · rw [h]; simp only; rw [FS.write_ne _ _ hq1, FS.write_ne _ _ (hq3 hr)]
  · rw [h]
  · rw [h]; exact FS.write_ne _ _ (hq2 hr)
  · rw [h]
  · rw [h]; exact FS.write_ne _ _ hq1

theorem runStep_frame (S : List String) (s : Step) (fs : FS) (stats : Stats) (q : Path)
    (hex : fs q ≠ none) (hq : ¬ Step.writes S s q) :
    (runStep S s fs stats).fs q = fs q := by
  cases s with
  | mkdir d =>
    simp only [runStep]
    cases h : ensureDir fs d with
    | error e => rfl
    | ok fs1 => exact (ensureDir_ok h).1 q hex
  | visit f => exact walkFile_frame S f fs stats q hq

/-- Frame rule for a whole run, completed or not: an existing object at a path that no
step writes is still there, unchanged, at the end. -/
theorem runSteps_frame (S : List String) (l : List Step) (fs : FS) (stats : Stats) (q : Path)
    (hex : fs q ≠ none) (hq : ∀ s ∈ l, ¬ Step.writes S s q) :
    (runSteps S l fs stats).fs q = fs q := by
  induction l generalizing fs stats with
  | nil => rfl
  | cons s rest ih =>
    have h1 := runStep_frame S s fs stats q hex (hq s (List.mem_cons_self _ _))
    simp only [runSteps]
    cases h : runStep S s fs stats with
    | mk fs1 r =>
      rw [h] at h1
      simp only at h1
      cases r with
      | error e => exact h1
      | ok stats1 =>
        have := ih fs1 stats1 (by rw [h1]; exact hex)
          (fun s hs => hq s (List.mem_cons_of_mem _ hs))
        simp only [this, h1]

/-! ## Names and side-car paths -/

theorem string_append_right_cancel {a b s : String} (h : a ++ s = b ++ s) : a = b := by
  have := congrArg String.data h
  simp only [String.data_append, List.append_left_inj] at this
  exact String.ext this

theorem bak_ne_new (a b : String) : a ++ ".bak" ≠ b ++ ".codeforge-new" := by
  intro h
  have := congrArg (fun s => s.data.getLast?) h
  simp [String.data_append] at this

theorem append_new_ne_self (a : String) : a ++ ".codeforge-new" ≠ a := by
  intro h
  have := congrArg (fun s => s.data.length) h
  simp [String.data_append] at this

theorem append_bak_ne_self (a : String) : a ++ ".bak" ≠ a := by
  intro h
  have := congrArg (fun s => s.data.length) h
  simp [String.data_append] at this

theorem new_ne_devcontainer (a : String) : a ++ ".codeforge-new" ≠ "devcontainer.json" := by
  intro h
  have := congrArg (fun s => s.data.getLast?) h
  simp [String.data_append] at this

theorem bak_ne_devcontainer (a : String) : a ++ ".bak" ≠ "devcontainer.json" := by
  intro h
  have := congrArg (fun s => s.data.getLast?) h
  simp [String.data_append] at this

theorem snoc_inj {d1 d2 : Path} {x y : String} (h : d1 ++ [x] = d2 ++ [y]) :
    d1 = d2 ∧ x = y := by
  have := List.append_inj' h rfl
  simpa using this

theorem PkgFile.newPath_ne_destPath (f : PkgFile) : f.newPath ≠ f.destPath := fun h =>
  append_new_ne_self f.name (snoc_inj h).2

theorem PkgFile.bakPath_ne_destPath (f : PkgFile) : f.bakPath ≠ f.destPath := fun h =>
  append_bak_ne_self f.name (snoc_inj h).2

theorem PkgFile.bakPath_ne_newPath (f g : PkgFile) : f.bakPath ≠ g.newPath := fun h =>
  bak_ne_new f.name g.name (snoc_inj h).2

theorem PkgFile.destPath_eq_of_newPath_eq {f g : PkgFile} (h : f.newPath = g.newPath) :
    f.destPath = g.destPath := by
  obtain ⟨h1, h2⟩ := snoc_inj h
  simp [PkgFile.destPath, h1, string_append_right_cancel h2]

theorem PkgFile.destPath_eq_of_bakPath_eq {f g : PkgFile} (h : f.bakPath = g.bakPath) :
    f.destPath = g.destPath := by
  obtain ⟨h1, h2⟩ := snoc_inj h
  simp [PkgFile.destPath, h1, string_append_right_cancel h2]

/-! ## The files among the steps -/

theorem visited_append (a b : List Step) : visited (a ++ b) = visited a ++ visited b := by
  induction a with
  | nil => rfl
  | cons s rest ih => cases s <;> simp [visited, ih]

theorem mem_visited {f : PkgFile} {l : List Step} : f ∈ visited l ↔ Step.visit f ∈ l := by
  induction l with
  | nil => simp [visited]
  | cons s rest ih => cases s <;> simp [visited, ih]

theorem visited_destPath_sublist (l : List Step) :
    ((visited l).map PkgFile.destPath).Sublist (l.map Step.path) := by
  induction l with
  | nil => simp [visited]
  | cons s rest ih =>
    cases s with
    | mkdir d => simpa [visited] using ih.cons _
    | visit f => simpa [visited, Step.path] using ih.cons₂ f.destPath

/-! ## The shape of the step list -/

theorem madeDirs_append (a b : List Step) : madeDirs (a ++ b) = madeDirs a ++ madeDirs b := by
  induction a with
  | nil => rfl
  | cons s rest ih => cases s <;> simp [madeDirs, ih]

theorem mem_madeDirs {d : Path} {l : List Step} : d ∈ madeDirs l ↔ Step.mkdir d ∈ l := by
  induction l with
  | nil => simp [madeDirs]
  | cons s rest ih => cases s <;> simp [madeDirs, ih]

/-- Every step of the loop over a listing is about a path strictly below the directory
the loop runs in. -/
theorem steps_under (src : Entries) (base : Path) (rb : String) :
    ∀ s ∈ steps src base rb, ∃ t, t ≠ [] ∧ s.path = base ++ t := by
  induction src generalizing base rb with
  | nil => simp [steps]
  | file name content rest ih =>
    intro s hs
    simp only [steps, List.mem_cons] at hs
    rcases hs with rfl | hs
    · exact ⟨[name], by simp, rfl⟩
    · exact ih base rb s hs
  | dir name children rest ihc ihr =>
    intro s hs
    simp only [steps, List.mem_cons, List.mem_append] at hs
    rcases hs with rfl | hs | hs
    · exact ⟨[name], by simp, rfl⟩
    · obtain ⟨t, _, ht⟩ := ihc (base ++ [name]) _ s hs
      exact ⟨name :: t, by simp, by simp [ht]⟩
    · exact ihr base rb s hs

/-- Every step of the loop over a listing is about a path that starts, below the
directory the loop runs in, with a name of the listing. -/
theorem steps_path_form (src : Entries) (base : Path) (rb : String) :
    ∀ s ∈ steps src base rb, ∃ n t, n ∈ src.names ∧ s.path = base ++ n :: t := by
  induction src generalizing base rb with
  | nil => simp [steps]
  | file name content rest ih =>
    intro s hs
    simp only [steps, List.mem_cons] at hs
    rcases hs with rfl | hs
    · exact ⟨name, [], by simp [Entries.names], rfl⟩
    · obtain ⟨n, t, hn, ht⟩ := ih base rb s hs
      exact ⟨n, t, by simp [Entries.names, hn], ht⟩
  | dir name children rest ihc ihr =>
    intro s hs
    simp only [steps, List.mem_cons, List.mem_append] at hs
    rcases hs with rfl | hs | hs
    · exact ⟨name, [], by simp [Entries.names], rfl⟩
    · obtain ⟨t, _, ht⟩ := steps_under children (base ++ [name]) _ s hs
      exact ⟨name, t, by simp [Entries.names], by simp [ht]⟩
    · obtain ⟨n, t, hn, ht⟩ := ihr base rb s hs
      exact ⟨n, t, by simp [Entries.names, hn], ht⟩

/-- With unique names, no two steps of the walk are about the same path. -/
theorem steps_nodup (src : Entries) (base : Path) (rb : String) (hu : UniqueNames src) :
    ((steps src base rb).map Step.path).Nodup := by
  induction src generalizing base rb with
  | nil => simp [steps]
  | file name content rest ih =>
    simp only [steps, List.map_cons, List.nodup_cons, Step.path, PkgFile.destPath]
    refine ⟨?_, ih base rb hu.2⟩
    intro hmem
    obtain ⟨s, hs, hp⟩ := List.mem_map.1 hmem
    obtain ⟨n, t, hn, ht⟩ := steps_path_form rest base rb s hs
    rw [ht] at hp
    have := List.append_cancel_left hp
    simp only [List.cons.injEq] at this
    exact hu.1 (this.1 ▸ hn)
  | dir name children rest ihc ihr =>
    simp only [steps, List.map_cons, List.map_append, List.nodup_cons, Step.path,
      List.mem_append, not_or]
    refine ⟨⟨?_, ?_⟩, List.nodup_append.2 ⟨ihc _ _ hu.2.1, ihr base rb hu.2.2, ?_⟩⟩
    · intro hmem
      obtain ⟨s, hs, hp⟩ := List.mem_map.1 hmem
      obtain ⟨t, ht0, ht⟩ := steps_under children (base ++ [name]) _ s hs
      rw [ht] at hp
      exact ht0 (List.append_right_eq_self.1 hp)
    · intro hmem
      obtain ⟨s, hs, hp⟩ := List.mem_map.1 hmem
      obtain ⟨n, t, hn, ht⟩ := steps_path_form rest base rb s hs
      rw [ht] at hp
      have := List.append_cancel_left hp
      simp only [List.cons.injEq] at this
      exact hu.1 (this.1 ▸ hn)
    · intro p hp1 hp2
      obtain ⟨s1, hs1, he1⟩ := List.mem_map.1 hp1
      obtain ⟨s2, hs2, he2⟩ := List.mem_map.1 hp2
      obtain ⟨t, _, ht⟩ := steps_under children (base ++ [name]) _ s1 hs1
      obtain ⟨n, t2, hn, ht2⟩ := steps_path_form rest base rb s2 hs2
      rw [← he2, ht, List.append_assoc] at he1
      rw [← he1] at ht2
      have := List.append_cancel_left ht2
      simp only [List.singleton_append, List.cons.injEq] at this
      exact hu.1 (this.1 ▸ hn)

theorem entryPaths_nodup {src : Entries} (hu : UniqueNames src) : (entryPaths src).Nodup :=
  steps_nodup src [] "" hu

theorem files_destPath_nodup {src : Entries} (h : UniqueNames src) :
    ((files src).map PkgFile.destPath).Nodup :=
  (entryPaths_nodup h).sublist (visited_destPath_sublist _)

/-- The directories the walk makes are closed under taking ancestors, up to the
directory the loop runs in. -/
theorem madeDirs_ancestors (src : Entries) (base : Path) (rb : String) :
    ∀ d ∈ madeDirs (steps src base rb), ∀ t1 t2 : Path, d = base ++ t1 ++ t2 → t1 ≠ [] →
      base ++ t1 ∈ madeDirs (steps src base rb) := by
  induction src generalizing base rb with
  | nil => simp [steps, madeDirs]
  | file name content rest ih =>
    intro d hd t1 t2 hdt ht1
    simp only [steps, madeDirs] at hd ⊢
    exact ih base rb d hd t1 t2 hdt ht1
  | dir name children rest ihc ihr =>
    intro d hd t1 t2 hdt ht1
    simp only [steps, madeDirs, madeDirs_append, List.mem_cons, List.mem_append] at hd ⊢
    have key : ∀ t : Path, d = base ++ [name] ++ t →
        base ++ t1 = base ++ [name] ∨
          ∃ t1', t1' ≠ [] ∧ t1 = name :: t1' ∧ d = (base ++ [name]) ++ t1' ++ t2 := by
      intro t ht
      rw [ht, List.append_assoc, List.append_assoc, List.append_cancel_left_eq] at hdt
      cases t1 with
      | nil => exact absurd rfl ht1
      | cons x t1' =>
        simp only [List.cons_append, List.singleton_append, List.cons.injEq] at hdt
        obtain ⟨hx, ht'⟩ := hdt
        subst hx
        cases t1' with
        | nil => left; rfl
        | cons y t1'' =>
          right
          refine ⟨y :: t1'', by simp, rfl, ?_⟩
          rw [ht, List.append_assoc (base ++ [name])]
          congr 1
    rcases hd with rfl | hd | hd
    · rcases key [] (by simp) with h | ⟨t1', h1, _, h⟩
      · left; exact h
      · rw [List.append_assoc (base ++ [name])] at h
        have := List.self_eq_append_right.1 h
        exact absurd (List.append_eq_nil.1 this).1 h1
    · obtain ⟨t, _, ht⟩ := steps_under children (base ++ [name]) _ _ (mem_madeDirs.1 hd)
      rcases key t ht with h | ⟨t1', h1, h2, h3⟩
      · left; exact h
      · right; left
        have := ihc (base ++ [name]) _ d hd t1' t2 h3 h1
        simpa [h2] using this
    · right; right
      exact ihr base rb d hd t1 t2 hdt ht1

/-- A non-root ancestor of a package directory is a package directory. -/
theorem mem_dirs_of_prefix {src : Entries} {d q : Path} (hd : d ∈ dirs src) (hq : q <+: d)
    (hne : q ≠ []) : q ∈ dirs src := by
  obtain ⟨t2, rfl⟩ := hq
  have := madeDirs_ancestors src [] "" _ hd q t2 (by simp) hne
  simpa [dirs] using this

theorem dirs_subset_entryPaths {src : Entries} {d : Path} (hd : d ∈ dirs src) :
    d ∈ entryPaths src :=
  List.mem_map.2 ⟨Step.mkdir d, mem_madeDirs.1 hd, rfl⟩

theorem files_subset_entryPaths {src : Entries} {f : PkgFile} (hf : f ∈ files src) :
    f.destPath ∈ entryPaths src :=
  List.mem_map.2 ⟨Step.visit f, mem_visited.1 hf, rfl⟩

/-- With unique names, no package file sits at the path of a package directory. -/
theorem file_not_dir {src : Entries} (hu : UniqueNames src) {f : PkgFile} (hf : f ∈ files src) :
    f.destPath ∉ dirs src := by
  intro hd
  have := List.inj_on_of_nodup_map (entryPaths_nodup hu) (mem_visited.1 hf)
    (mem_madeDirs.1 hd) rfl
  cases this

/-! ## Frame rule, including paths where nothing existed -/

theorem runStep_untouched (S : List String) (s : Step) (fs : FS) (stats : Stats) (q : Path)
    (hq : ¬ Step.touches S s q) : (runStep S s fs stats).fs q = fs q := by
  cases s with
  | mkdir d =>
    simp only [runStep]
    cases h : ensureDir fs d with
    | error e => rfl
    | ok fs1 => exact (ensureDir_ok h).2.1 q hq
  | visit f => exact walkFile_frame S f fs stats q hq

theorem runSteps_untouched (S : List String) (l : List Step) (fs : FS) (stats : Stats)
    (q : Path) (hq : ∀ s ∈ l, ¬ Step.touches S s q) :
    (runSteps S l fs stats).fs q = fs q := by
  induction l generalizing fs stats with
  | nil => rfl
  | cons s rest ih =>
    have h1 := runStep_untouched S s fs stats q (hq s (List.mem_cons_self _ _))
    simp only [runSteps]
    cases h : runStep S s fs stats with
    | mk fs1 r =>
      rw [h] at h1
      simp only at h1
      cases r with
      | error e => exact h1
      | ok stats1 =>
        have := ih fs1 stats1 (fun s hs => hq s (List.mem_cons_of_mem _ hs))
        simp only [this, h1]

/-- What a cut of the step list at the visit of `f` tells about the other steps: they
visit package files at other paths, and the directories they make have only package
directories for non-root ancestors. -/
theorem split_facts {src : Entries} (hu : UniqueNames src) {pre post : List Step}
    {f : PkgFile} (hsplit : Step.mkdir [] :: steps src [] "" = pre ++ Step.visit f :: post) :
    f ∈ files src ∧
      (∀ g, Step.visit g ∈ pre ++ post → g ∈ files src ∧ g.destPath ≠ f.destPath) ∧
      (∀ d, Step.mkdir d ∈ pre ++ post → ∀ q : Path, q ≠ [] → q <+: d → q ∈ dirs src) := by
  have hvis : visited (pre ++ Step.visit f :: post) = files src := by
    rw [← hsplit]; rfl
  have hall : ∀ s, s ∈ pre ++ post → s ∈ Step.mkdir [] :: steps src [] "" := by
    intro s hs
    rw [hsplit]
    rcases List.mem_append.1 hs with h | h
    · exact List.mem_append_left _ h
    · exact List.mem_append_right _ (List.mem_cons_of_mem _ h)
  refine ⟨by rw [← hvis]; exact mem_visited.2 (by simp), fun g hg => ⟨?_, ?_⟩, ?_⟩
  · rcases List.mem_cons.1 (hall _ hg) with h | h
    · cases h
    · exact mem_visited.2 h
  · intro heq
    have hnd := files_destPath_nodup hu
    rw [← hvis, visited_append, visited, List.map_append, List.map_cons] at hnd
    have h1 := List.nodup_append.1 hnd
    have h2 := List.nodup_cons.1 h1.2.1
    rcases List.mem_append.1 hg with h | h
    · exact h1.2.2 (List.mem_map_of_mem _ (mem_visited.2 h))
        (heq ▸ List.mem_cons_self _ _)
    · exact h2.1 (heq ▸ List.mem_map_of_mem _ (mem_visited.2 h))
  · intro d hd q hq hpre
    rcases List.mem_cons.1 (hall _ hd) with h | h
    · injection h with h
      subst h
      exact absurd (List.prefix_nil.1 hpre) hq
    · exact mem_dirs_of_prefix (mem_madeDirs.2 h) hpre hq

/-- With unique names, the destination path of a package file is touched by no other
step of `syncDirectory`, unless it is a side-car path of another package file. -/
theorem others_spare_destPath {S : List String} {src : Entries} (hu : UniqueNames src)
    {pre post : List Step} {f : PkgFile}
    (hsplit : Step.mkdir [] :: steps src [] "" = pre ++ Step.visit f :: post)
    (hside : ∀ g ∈ files src, (g.rel ∈ S → g.newPath ≠ f.destPath) ∧
      (g.rel = "devcontainer.json" → g.bakPath ≠ f.destPath))
    (s : Step) (hs : s ∈ pre ++ post) : ¬ Step.touches S s f.destPath := by
  obtain ⟨hf, hvisit, hmk⟩ := split_facts hu hsplit
  cases s with
  | visit g =>
    obtain ⟨hg, hne⟩ := hvisit g hs
    simp only [Step.touches, Step.writes, not_or, not_and]
    exact ⟨fun h => hne h.symm, fun hr h => (hside g hg).1 hr h.symm,
      fun hr h => (hside g hg).2 hr h.symm⟩
  | mkdir d =>
    intro h
    exact file_not_dir hu hf (hmk d hs _ (by simp [PkgFile.destPath]) h)

/-- With unique names, the side-car `destPath + ".codeforge-new"` of a package file is
touched by no other step of `syncDirectory`, unless the package has an entry there. -/
theorem others_spare_newPath {S : List String} {src : Entries} (hu : UniqueNames src)
    {pre post : List Step} {f : PkgFile}
    (hsplit : Step.mkdir [] :: steps src [] "" = pre ++ Step.visit f :: post)
    (hnew : f.newPath ∉ entryPaths src)
    (s : Step) (hs : s ∈ pre ++ post) : ¬ Step.touches S s f.newPath := by
  obtain ⟨_, hvisit, hmk⟩ := split_facts hu hsplit
  cases s with
  | visit g =>
    obtain ⟨hg, hne⟩ := hvisit g hs
    simp only [Step.touches, Step.writes, not_or, not_and]
    exact ⟨fun h => hnew (h ▸ files_subset_entryPaths hg),
      fun _ h => hne (PkgFile.destPath_eq_of_newPath_eq h).symm,
      fun _ h => PkgFile.bakPath_ne_newPath g f h.symm⟩
  | mkdir d =>
    intro h
    exact hnew (dirs_subset_entryPaths (hmk d hs _ (by simp [PkgFile.newPath]) h))

/-- With unique names, the side-car `destPath + ".bak"` of a package file is touched by
no other step of `syncDirectory`, unless the package has an entry there. -/
theorem others_spare_bakPath {S : List String} {src : Entries} (hu : UniqueNames src)
    {pre post : List Step} {f : PkgFile}
    (hsplit : Step.mkdir [] :: steps src [] "" = pre ++ Step.visit f :: post)
    (hbak : f.bakPath ∉ entryPaths src)
    (s : Step) (hs : s ∈ pre ++ post) : ¬ Step.touches S s f.bakPath := by
  obtain ⟨_, hvisit, hmk⟩ := split_facts hu hsplit
  cases s with
  | visit g =>
    obtain ⟨hg, hne⟩ := hvisit g hs
    simp only [Step.touches, Step.writes, not_or, not_and]
    exact ⟨fun h => hbak (h ▸ files_subset_entryPaths hg),
      fun _ h => PkgFile.bakPath_ne_newPath f g h,
      fun _ h => hne (PkgFile.destPath_eq_of_bakPath_eq h).symm⟩
  | mkdir d =>
    intro h
    exact hbak (dirs_subset_entryPaths (hmk d hs _ (by simp [PkgFile.bakPath]) h))

/-- A completed run of `syncDirectory`, cut at the visit of a package file `f`: the
steps before it lead from `dest` to a tree `fs0`, the policy for `f` from `fs0` to `fs1`,
the steps after it from `fs1` to the final tree; a path that the steps before (after)
do not touch is in `fs0` as in `dest` (in the final tree as in `fs1`). -/
theorem sync_reaches {src : Entries} {dest fs2 : FS} {S : List String} {stats : Stats}
    {f : PkgFile} (hf : f ∈ files src)
    (hrun : syncDirectory src dest S = ⟨fs2, .ok stats⟩) :
    ∃ pre post fs0 stats0 fs1 stats1,
      Step.mkdir [] :: steps src [] "" = pre ++ Step.visit f :: post ∧
      runSteps S pre dest Stats.zero = ⟨fs0, .ok stats0⟩ ∧
      walkFile S f.content f.destDir f.name f.rel fs0 stats0 = ⟨fs1, .ok stats1⟩ ∧
      runSteps S post fs1 stats1 = ⟨fs2, .ok stats⟩ ∧
      (∀ q, (∀ s ∈ pre, ¬ Step.touches S s q) → fs0 q = dest q) ∧
      (∀ q, (∀ s ∈ post, ¬ Step.touches S s q) → fs2 q = fs1 q) := by
  have hmem : Step.visit f ∈ Step.mkdir [] :: steps src [] "" :=
    List.mem_cons_of_mem _ (mem_visited.1 hf)
  obtain ⟨pre, post, hsplit⟩ := List.append_of_mem hmem
  rw [syncDirectory_eq_runSteps, hsplit] at hrun
  obtain ⟨fs0, stats0, fs1, stats1, h0, h1, h2⟩ := runSteps_split hrun
  refine ⟨pre, post, fs0, stats0, fs1, stats1, hsplit, h0, h1, h2, fun q hq => ?_,
    fun q hq => ?_⟩
  · have := runSteps_untouched S pre dest Stats.zero q hq
    rw [h0] at this
    exact this
  · have := runSteps_untouched S post fs1 stats1 q hq
    rw [h2] at this
    exact this

theorem Outcome.eq_of_result {α : Type} {o : Outcome α} {a : α} (h : o.result = .ok a) :
    o = ⟨o.fs, .ok a⟩ := by
  cases o
  simp only at h
  simp [h]

/-! ## Frame rule for `copyDirectory` -/

/-- An existing object at a path where the package has no file is left as it is by the
copy loop, completed or not. -/
theorem copyLoop_frame (src : Entries) (base : Path) (rb : String) (fs : FS) (q : Path)
    (hex : fs q ≠ none) (hq : ∀ f ∈ visited (steps src base rb), f.destPath ≠ q) :
    (copyLoop src base fs).fs q = fs q := by
  induction src generalizing base rb fs with
  | nil => rfl
  | file name content rest ih =>
    simp only [steps, visited, List.mem_cons, forall_eq_or_imp, PkgFile.destPath] at hq
    simp only [copyLoop]
    cases h : copyFromPackage fs (base ++ [name]) content with
    | error e => rfl
    | ok fs1 =>
      have e1 := (copyFromPackage_ok h).1
      have hq1 : fs1 q = fs q := by rw [e1]; exact FS.write_ne _ _ (Ne.symm hq.1)
      have := ih base rb fs1 (by rw [hq1]; exact hex) hq.2
      simp only [this, hq1]
  | dir name children rest ihc ihr =>
    simp only [steps, visited, visited_append, List.mem_append] at hq
    simp only [copyLoop]
    cases h : ensureDir fs (base ++ [name]) with
    | error e => rfl
    | ok fs1 =>
      have hq1 : fs1 q = fs q := (ensureDir_ok h).1 q hex
      have h2 := ihc (base ++ [name]) (relativePath rb name) fs1 (by rw [hq1]; exact hex)
        (fun f hf => hq f (Or.inl hf))
      simp only
      cases hc : copyLoop children (base ++ [name]) fs1 with
      | mk fs2 r =>
        rw [hc] at h2
        simp only at h2
        cases r with
        | error e => simp only [h2, hq1]
        | ok u =>
          have h3 := ihr base rb fs2 (by rw [h2, hq1]; exact hex) (fun f hf => hq f (Or.inr hf))
          simp only [h3, h2, hq1]

theorem copyDirectory_frame (src : Entries) (fs : FS) (q : Path)
    (hex : fs q ≠ none) (hq : ∀ f ∈ files src, f.destPath ≠ q) :
    (copyDirectory src [] fs).fs q = fs q := by
  simp only [copyDirectory]
  cases h : ensureDir fs [] with
  | error e => rfl
  | ok fs1 =>
    have hq1 : fs1 q = fs q := (ensureDir_ok h).1 q hex
    have := copyLoop_frame src [] "" fs1 q (by rw [hq1]; exact hex) hq
    simp only [this, hq1]

/-! ## C1: preserve correctness -/

/-- C1, as stated, fails: `notes.md` is in the loaded preserve set and exists at the
destination, but the package has no file at that path, so the walk never visits it and
no `notes.md.codeforge-new` exists after the run. -/
theorem C1_counterexample :
    loadPreserveList notesDest = .ok (DEFAULT_PRESERVE ++ ["notes.md"]) ∧
      "notes.md" ∈ DEFAULT_PRESERVE ++ ["notes.md"] ∧
      notesDest ["notes.md"] = some (Obj.file "mine") ∧
      (syncDirectory oneFileSrc notesDest (DEFAULT_PRESERVE ++ ["notes.md"])).result =
        .ok ⟨0, 0, 1, 0, []⟩ ∧
      (syncDirectory oneFileSrc notesDest (DEFAULT_PRESERVE ++ ["notes.md"])).fs
        ["notes.md.codeforge-new"] = none := by
  decide

/-- C1 (amended): let the package be a directory tree (unique names) and
`S = loadPreserveList(dest)`.  For every file `f` of the package whose relative path is
in `S`, is not `devcontainer.json`, and which exists as a regular file at the destination
before the run, such that the package has no entry at `destPath + ".codeforge-new"` and
`destPath` is not itself a side-car path of another package file: if
`syncDirectory(src, dest, S)` completes, the destination file still has its pre-run
content and `destPath + ".codeforge-new"` holds the package version. -/
theorem C1_preserve_correct (src : Entries) (dest : FS) (S : List String) (f : PkgFile)
    (c0 : String) (fs2 : FS) (stats : Stats)
    (hu : UniqueNames src)
    (_hS : loadPreserveList dest = .ok S)
    (hf : f ∈ files src) (hrel : f.rel ∈ S) (hdc : f.rel ≠ "devcontainer.json")
    (hdest : dest f.destPath = some (Obj.file c0))
    (hnew : f.newPath ∉ entryPaths src)
    (hside : ∀ g ∈ files src, (g.rel ∈ S → g.newPath ≠ f.destPath) ∧
      (g.rel = "devcontainer.json" → g.bakPath ≠ f.destPath))
    (hrun : syncDirectory src dest S = ⟨fs2, .ok stats⟩) :
    fs2 f.destPath = some (Obj.file c0) ∧ fs2 f.newPath = some (Obj.file f.content) := by
  obtain ⟨pre, post, fs0, stats0, fs1, stats1, hsplit, _, hw, _, hbefore, hafter⟩ :=
    sync_reaches hf hrun
  have hd := others_spare_destPath (S := S) hu hsplit hside
  have hn := others_spare_newPath (S := S) hu hsplit hnew
  have h0d : fs0 f.destPath = dest f.destPath :=
    hbefore _ fun s hs => hd s (List.mem_append_left _ hs)
  have h2d : fs2 f.destPath = fs1 f.destPath :=
    hafter _ fun s hs => hd s (List.mem_append_right _ hs)
  have h2n : fs2 f.newPath = fs1 f.newPath :=
    hafter _ fun s hs => hn s (List.mem_append_right _ hs)
  have hex : fs0 f.destPath ≠ none := by rw [h0d, hdest]; simp
  rcases walkFile_cases S f fs0 stats0 with
    ⟨hr, _⟩ | ⟨_, _, _, ⟨e, h⟩ | h⟩ | ⟨_, hB, _⟩
  · exact absurd hr hdc
  · simp [h] at hw
  · rw [h] at hw
    injection hw with hfs _
    subst hfs
    rw [h2d, h2n]
    exact ⟨by rw [FS.write_ne _ _ f.newPath_ne_destPath.symm, h0d, hdest], FS.write_same _ _ _⟩
  · exact absurd ⟨hrel, hex⟩ hB

/-- C1 (amended) at the example scenario: `secret.json` keeps `"mine"` and
`secret.json.codeforge-new` holds `"Y"`. -/
theorem C1_preserve_correct_witness :
    (syncDirectory exampleSrc exampleDest (DEFAULT_PRESERVE ++ ["secret.json"])).fs
        ["secret.json"] = some (Obj.file "mine") ∧
      (syncDirectory exampleSrc exampleDest (DEFAULT_PRESERVE ++ ["secret.json"])).fs
        ["secret.json.codeforge-new"] = some (Obj.file "Y") :=
  C1_preserve_correct exampleSrc exampleDest (DEFAULT_PRESERVE ++ ["secret.json"])
    ⟨[], "secret.json", "secret.json", "Y"⟩ "mine" _ ⟨1, 1, 0, 0, ["secret.json"]⟩
    (by decide) (by decide) (by decide) (by decide) (by decide) (by decide) (by decide)
    (by decide) (Outcome.eq_of_result (by decide))

/-! ## C2: non-interference -/

/-- C2, as stated, fails: the destination file `devcontainer.json.bak` is at a path where
the package has no file, yet the update run replaces its content by the user's current
`devcontainer.json`. -/
theorem C2_counterexample :
    backedUpDest ["devcontainer.json.bak"] = some (Obj.file "first backup") ∧
      (∀ f ∈ files containerSrc, f.destPath ≠ ["devcontainer.json.bak"]) ∧
      (syncDirectory containerSrc backedUpDest DEFAULT_PRESERVE).result =
        .ok ⟨1, 0, 0, 1, []⟩ ∧
      (syncDirectory containerSrc backedUpDest DEFAULT_PRESERVE).fs
        ["devcontainer.json.bak"] = some (Obj.file "U") := by
  decide

/-- C2 (amended): a destination file at a path where the package tree has no file keeps
its content through a fresh-install run (`copyDirectory`), and through an update run
(`syncDirectory`) provided its path is not a side-car path of the run: not
`p + ".codeforge-new"` for a package file `p` of the preserve set and not
`devcontainer.json.bak` next to the package's top-level `devcontainer.json`.  This holds
for the tree the run leaves behind whether it completes or throws. -/
theorem C2_non_interference (src : Entries) (dest : FS) (S : List String) (q : Path)
    (c0 : String) (hq : dest q = some (Obj.file c0))
    (hpkg : ∀ f ∈ files src, f.destPath ≠ q) :
    (copyDirectory src [] dest).fs q = some (Obj.file c0) ∧
      ((∀ f ∈ files src, (f.rel ∈ S → f.newPath ≠ q) ∧
          (f.rel = "devcontainer.json" → f.bakPath ≠ q)) →
        (syncDirectory src dest S).fs q = some (Obj.file c0)) := by
  have hex : dest q ≠ none := by rw [hq]; simp
  refine ⟨by rw [copyDirectory_frame src dest q hex hpkg, hq], fun hside => ?_⟩
  rw [syncDirectory_eq_runSteps, runSteps_frame S _ dest Stats.zero q hex, hq]
  intro s hs
  cases s with
  | mkdir d => simp [Step.writes]
  | visit f =>
    have hf : f ∈ files src := by
      rcases List.mem_cons.1 hs with h | h
      · cases h
      · exact mem_visited.2 h
    simp only [Step.writes, not_or, not_and]
    exact ⟨fun h => hpkg f hf h.symm, fun hr h => (hside f hf).1 hr h.symm,
      fun hr h => (hside f hf).2 hr h.symm⟩

/-- C2 (amended) at the example scenario: the exclusion file, which the package does not
ship, is unchanged by a fresh-install copy and by an update. -/
theorem C2_non_interference_witness :
    (copyDirectory exampleSrc [] exampleDest).fs [".codeforge-preserve"] =
        some (Obj.file "secret.json") ∧
      (syncDirectory exampleSrc exampleDest (DEFAULT_PRESERVE ++ ["secret.json"])).fs
        [".codeforge-preserve"] = some (Obj.file "secret.json") :=
  have h := C2_non_interference exampleSrc exampleDest (DEFAULT_PRESERVE ++ ["secret.json"])
    [".codeforge-preserve"] "secret.json" (by decide) (by decide)
  ⟨h.1, h.2 (by decide)⟩

/-! ## C3: special-file backup -/

/-- C3, as stated, fails: the package has a top-level `devcontainer.json`, the
destination has one holding `"U"`, the run completes, and `devcontainer.json.bak` ends
up holding the package's own `devcontainer.json.bak` (visited after the back-up was
made), not the pre-run `"U"`. -/
theorem C3_counterexample :
    (⟨[], "devcontainer.json", "devcontainer.json", "P"⟩ : PkgFile) ∈ files shipsBakSrc ∧
      UniqueNames shipsBakSrc ∧
      containerDest ["devcontainer.json"] = some (Obj.file "U") ∧
      (syncDirectory shipsBakSrc containerDest DEFAULT_PRESERVE).result =
        .ok ⟨2, 0, 0, 1, []⟩ ∧
      (syncDirectory shipsBakSrc containerDest DEFAULT_PRESERVE).fs
        ["devcontainer.json.bak"] = some (Obj.file "Q") := by
  decide

/-- C3 (amended): for every package tree (unique names) with a top-level
`devcontainer.json` and no entry `devcontainer.json.bak` next to it, every preserve set
and every destination in which `devcontainer.json` is a regular file before the run: if
`syncDirectory` completes, `devcontainer.json.bak` holds the pre-run content of the
destination's `devcontainer.json`, and `devcontainer.json` holds the package version. -/
theorem C3_special_file_backup (src : Entries) (dest : FS) (S : List String) (c u : String)
    (fs2 : FS) (stats : Stats)
    (hu : UniqueNames src)
    (hf : (⟨[], "devcontainer.json", "devcontainer.json", c⟩ : PkgFile) ∈ files src)
    (hdest : dest ["devcontainer.json"] = some (Obj.file u))
    (hbak : ["devcontainer.json.bak"] ∉ entryPaths src)
    (hrun : syncDirectory src dest S = ⟨fs2, .ok stats⟩) :
    fs2 ["devcontainer.json.bak"] = some (Obj.file u) ∧
      fs2 ["devcontainer.json"] = some (Obj.file c) := by
  obtain ⟨pre, post, fs0, stats0, fs1, stats1, hsplit, _, hw, _, hbefore, hafter⟩ :=
    sync_reaches hf hrun
  have hside : ∀ g ∈ files src,
      (g.rel ∈ S → g.newPath ≠ PkgFile.destPath ⟨[], "devcontainer.json", "devcontainer.json", c⟩) ∧
      (g.rel = "devcontainer.json" →
        g.bakPath ≠ PkgFile.destPath ⟨[], "devcontainer.json", "devcontainer.json", c⟩) := by
    intro g _
    refine ⟨fun _ h => ?_, fun _ h => ?_⟩
    · exact new_ne_devcontainer g.name (@snoc_inj g.destDir [] _ _ h).2
    · exact bak_ne_devcontainer g.name (@snoc_inj g.destDir [] _ _ h).2
  have hd := others_spare_destPath (S := S) hu hsplit hside
  have hb := others_spare_bakPath (S := S) hu hsplit hbak
  have h0d : fs0 ["devcontainer.json"] = dest ["devcontainer.json"] :=
    hbefore _ fun s hs => hd s (List.mem_append_left _ hs)
  have h2d : fs2 ["devcontainer.json"] = fs1 ["devcontainer.json"] :=
    hafter _ fun s hs => hd s (List.mem_append_right _ hs)
  have h2b : fs2 ["devcontainer.json.bak"] = fs1 ["devcontainer.json.bak"] :=
    hafter _ fun s hs => hb s (List.mem_append_right _ hs)
  have hex : fs0 ["devcontainer.json"] ≠ none := by rw [h0d, hdest]; simp
  rcases walkFile_cases S ⟨[], "devcontainer.json", "devcontainer.json", c⟩ fs0 stats0 with
    ⟨_, _, ⟨e, h⟩ | ⟨_, h⟩ | ⟨v, e, _, h⟩ | ⟨v, hv, h⟩⟩ | ⟨hA, _⟩ | ⟨hA, _⟩
  · simp [h] at hw
  · simp [h] at hw
  · simp [h] at hw
  · rw [h] at hw
    injection hw with hfs _
    subst hfs
    have hv' : fs0 ["devcontainer.json"] = some (Obj.file v) := hv
    rw [h0d, hdest] at hv'
    injection hv' with hv'
    injection hv' with hv'
    subst hv'
    rw [h2d, h2b]
    have key : ∀ (g : PkgFile) (fs : FS) (x y : String),
        (fs.write g.bakPath x).write g.destPath y g.bakPath = some (Obj.file x) := by
      intro g fs x y
      rw [FS.write_ne _ _ g.bakPath_ne_destPath]
      exact FS.write_same _ _ _
    exact ⟨key ⟨[], "devcontainer.json", "devcontainer.json", c⟩ fs0 u c,
      FS.write_same _ _ _⟩
  · exact absurd ⟨rfl, hex⟩ hA
  · exact absurd ⟨rfl, hex⟩ hA

/-- C3 (amended) at a concrete update: the user's `"U"` is saved as
`devcontainer.json.bak` and `devcontainer.json` becomes the package's `"P"`. -/
theorem C3_special_file_backup_witness :
    (syncDirectory containerSrc containerDest DEFAULT_PRESERVE).fs
        ["devcontainer.json.bak"] = some (Obj.file "U") ∧
      (syncDirectory containerSrc containerDest DEFAULT_PRESERVE).fs
        ["devcontainer.json"] = some (Obj.file "P") :=
  C3_special_file_backup containerSrc containerDest DEFAULT_PRESERVE "P" "U" _
    ⟨1, 0, 0, 1, []⟩ (by decide) (by decide) (by decide) (by decide)
    (Outcome.eq_of_result (by decide))

/-! ## C4: disjointness of the outcomes -/

/-- C4, as stated, fails: in this run a single file is visited and it is tallied under
two counters of the returned statistics, `updated` and `backedUp`. -/
theorem C4_counterexample :
    (files containerSrc).length = 1 ∧
      (syncDirectory containerSrc containerDest DEFAULT_PRESERVE).result =
        .ok ⟨1, 0, 0, 1, []⟩ := by
  decide

/-- C4 (amended): whenever the per-file policy of `walk` completes for a visited file,
exactly one of the four outcomes Overwritten, Added, Preserved, BackedUp describes what
it added to the statistics; the file is counted under exactly one of the three counters
`updated`, `added`, `preserved`, and `backedUp` goes up only together with `updated`
(a backed-up file is tallied under both). -/
theorem C4_disjointness (S : List String) (f : PkgFile) (fs fs1 : FS) (stats stats1 : Stats)
    (h : walkFile S f.content f.destDir f.name f.rel fs stats = ⟨fs1, .ok stats1⟩) :
    (∃! t : Tag, stats1 = stats.tally f.rel t) ∧
      stats1.updated + stats1.added + stats1.preserved =
        stats.updated + stats.added + stats.preserved + 1 ∧
      (stats1.backedUp = stats.backedUp ∨
        (stats1.backedUp = stats.backedUp + 1 ∧ stats1.updated = stats.updated + 1)) := by
  have huniq : ∀ t u : Tag, stats.tally f.rel t = stats.tally f.rel u → t = u := by
    intro t u htu
    have h1 := congrArg Stats.updated htu
    have h2 := congrArg Stats.added htu
    have h3 := congrArg Stats.preserved htu
    have h4 := congrArg Stats.backedUp htu
    cases t <;> cases u <;> simp [Stats.tally] at h1 h2 h3 h4 ⊢
  have hmain : ∀ t : Tag, stats1 = stats.tally f.rel t →
      (∃! t : Tag, stats1 = stats.tally f.rel t) ∧
      stats1.updated + stats1.added + stats1.preserved =
        stats.updated + stats.added + stats.preserved + 1 ∧
      (stats1.backedUp = stats.backedUp ∨
        (stats1.backedUp = stats.backedUp + 1 ∧ stats1.updated = stats.updated + 1)) := by
    intro t ht
    refine ⟨⟨t, ht, fun u hu => huniq u t (hu ▸ ht)⟩, ?_, ?_⟩
    · subst ht; cases t <;> simp [Stats.tally] <;> omega
    · subst ht; cases t <;> simp [Stats.tally]
  rcases walkFile_cases S f fs stats with
    ⟨_, _, ⟨e, h'⟩ | ⟨_, h'⟩ | ⟨u, e, _, h'⟩ | ⟨u, _, h'⟩⟩ | ⟨_, _, _, ⟨e, h'⟩ | h'⟩ |
      ⟨_, _, ⟨e, h'⟩ | h'⟩
  · simp [h'] at h
  · simp [h'] at h
  · simp [h'] at h
  · rw [h'] at h
    injection h with _ hs
    injection hs with hs
    exact hmain Tag.BackedUp hs.symm
  · simp [h'] at h
  · rw [h'] at h
    injection h with _ hs
    injection hs with hs
    exact hmain Tag.Preserved hs.symm
  · simp [h'] at h
  · rw [h'] at h
    injection h with _ hs
    injection hs with hs
    by_cases hn : fs f.destPath = none
    · rw [if_pos hn] at hs
      exact hmain Tag.Added hs.symm
    · rw [if_neg hn] at hs
      exact hmain Tag.Overwritten hs.symm

/-- C4 (amended) at a concrete visit: `a.txt`, already at the destination and not in the
preserve set, is counted once, under `updated`. -/
theorem C4_disjointness_witness :
    (∃! t : Tag, (⟨1, 0, 0, 0, []⟩ : Stats) = Stats.zero.tally "a.txt" t) ∧
      (1 + 0 + 0 = Stats.zero.updated + Stats.zero.added + Stats.zero.preserved + 1) ∧
      ((0 = Stats.zero.backedUp) ∨
        (0 = Stats.zero.backedUp + 1 ∧ 1 = Stats.zero.updated + 1)) :=
  C4_disjointness DEFAULT_PRESERVE ⟨[], "a.txt", "a.txt", "X"⟩ exampleDest _ Stats.zero
    ⟨1, 0, 0, 0, []⟩ (Outcome.eq_of_result (by decide))

/-! ## C5: the default overwrite/create rule -/

/-- C5, as stated, fails: the package file `devcontainer.json.bak` is neither
`devcontainer.json` nor in the preserve set and does not exist at the destination before
the run, yet the run counts no file as added: the back-up of `devcontainer.json` created
the path before the walk reached it, so it is counted in `updated`. -/
theorem C5_counterexample :
    (⟨[], "devcontainer.json.bak", "devcontainer.json.bak", "Q"⟩ : PkgFile) ∈
        files shipsBakSrc ∧
      "devcontainer.json.bak" ∉ DEFAULT_PRESERVE ∧
      containerDest ["devcontainer.json.bak"] = none ∧
      (syncDirectory shipsBakSrc containerDest DEFAULT_PRESERVE).result =
        .ok ⟨2, 0, 0, 1, []⟩ := by
  decide

/-- C5 (amended): let the package be a directory tree (unique names) and `f` a package
file that is neither (`devcontainer.json` existing at the destination) nor (in the
preserve set and existing at the destination), and whose path is not a side-car path
of another package file.  If `syncDirectory` completes, then the destination file has
the package content; when the walk visits `f` the policy writes that file and nothing
else (no `.codeforge-new`) and adds one to `added` if the file did not exist before the
run and one to `updated` otherwise, leaving the other statistics as they are; and
`destPath + ".codeforge-new"` is after the run as it was before, unless the package
has an entry at that path. -/
theorem C5_default_rule (src : Entries) (dest : FS) (S : List String) (f : PkgFile)
    (fs2 : FS) (stats : Stats)
    (hu : UniqueNames src) (hf : f ∈ files src)
    (hA : ¬ (f.rel = "devcontainer.json" ∧ dest f.destPath ≠ none))
    (hB : ¬ (f.rel ∈ S ∧ dest f.destPath ≠ none))
    (hside : ∀ g ∈ files src, (g.rel ∈ S → g.newPath ≠ f.destPath) ∧
      (g.rel = "devcontainer.json" → g.bakPath ≠ f.destPath))
    (hrun : syncDirectory src dest S = ⟨fs2, .ok stats⟩) :
    fs2 f.destPath = some (Obj.file f.content) ∧
      (f.newPath ∉ entryPaths src → fs2 f.newPath = dest f.newPath) ∧
      ∃ fs0 stats0 fs1 stats1, Visit src dest S f fs0 stats0 fs1 stats1 ∧
        fs1 = fs0.write f.destPath f.content ∧
        stats1 = (if dest f.destPath = none then { stats0 with added := stats0.added + 1 }
                  else { stats0 with updated := stats0.updated + 1 }) := by
  obtain ⟨pre, post, fs0, stats0, fs1, stats1, hsplit, hpre, hw, _, hbefore, hafter⟩ :=
    sync_reaches hf hrun
  have hd := others_spare_destPath (S := S) hu hsplit hside
  have h0d : fs0 f.destPath = dest f.destPath :=
    hbefore _ fun s hs => hd s (List.mem_append_left _ hs)
  have h2d : fs2 f.destPath = fs1 f.destPath :=
    hafter _ fun s hs => hd s (List.mem_append_right _ hs)
  rcases walkFile_cases S f fs0 stats0 with
    ⟨hr, hex, _⟩ | ⟨_, hr, hex, _⟩ | ⟨_, _, ⟨e, h⟩ | h⟩
  · exact absurd ⟨hr, h0d ▸ hex⟩ hA
  · exact absurd ⟨hr, h0d ▸ hex⟩ hB
  · simp [h] at hw
  · have hw' := hw
    rw [h] at hw'
    injection hw' with hfs hst
    injection hst with hst
    refine ⟨by rw [h2d, ← hfs]; exact FS.write_same _ _ _, fun hnew => ?_,
      fs0, stats0, fs1, stats1, ⟨pre, post, hsplit, hpre, hw⟩, hfs.symm, ?_⟩
    · have hn := others_spare_newPath (S := S) hu hsplit hnew
      rw [hafter _ fun s hs => hn s (List.mem_append_right _ hs), ← hfs,
        FS.write_ne _ _ f.newPath_ne_destPath]
      exact hbefore _ fun s hs => hn s (List.mem_append_left _ hs)
    · rw [← hst, h0d]

/-- C5 (amended) at the example scenario: `a.txt` exists at the destination, is
overwritten with the package's `"X"` and counted in `updated`; no `a.txt.codeforge-new`
appears. -/
theorem C5_default_rule_witness :
    (syncDirectory exampleSrc exampleDest (DEFAULT_PRESERVE ++ ["secret.json"])).fs
        ["a.txt"] = some (Obj.file "X") ∧
      (syncDirectory exampleSrc exampleDest (DEFAULT_PRESERVE ++ ["secret.json"])).fs
        ["a.txt.codeforge-new"] = none ∧
      ∃ fs0 stats0 fs1 stats1,
        Visit exampleSrc exampleDest (DEFAULT_PRESERVE ++ ["secret.json"])
          ⟨[], "a.txt", "a.txt", "X"⟩ fs0 stats0 fs1 stats1 ∧
        fs1 = fs0.write ["a.txt"] "X" ∧
        stats1 = { stats0 with updated := stats0.updated + 1 } :=
  have h := C5_default_rule exampleSrc exampleDest (DEFAULT_PRESERVE ++ ["secret.json"])
    ⟨[], "a.txt", "a.txt", "X"⟩ _ ⟨1, 1, 0, 0, ["secret.json"]⟩
    (by decide) (by decide) (by decide) (by decide) (by decide)
    (Outcome.eq_of_result (by decide))
  ⟨h.1, h.2.1 (by decide), h.2.2⟩

/-! ## C6: policy precedence -/

/-- Invariants of a completed run: what every completed step keeps holds at the end. -/
theorem runSteps_invariant (S : List String) (P : FS → Stats → Prop) (l : List Step)
    (hstep : ∀ s ∈ l, ∀ fs stats fs1 stats1, P fs stats →
      runStep S s fs stats = ⟨fs1, .ok stats1⟩ → P fs1 stats1)
    (fs : FS) (stats : Stats) (fs2 : FS) (stats2 : Stats) (h0 : P fs stats)
    (hrun : runSteps S l fs stats = ⟨fs2, .ok stats2⟩) : P fs2 stats2 := by
  induction l generalizing fs stats with
  | nil =>
    simp only [runSteps] at hrun
    injection hrun with h1 h2
    injection h2 with h2
    subst h1 h2
    exact h0
  | cons s rest ih =>
    simp only [runSteps] at hrun
    cases h : runStep S s fs stats with
    | mk fs1 r =>
      rw [h] at hrun
      cases r with
      | error e => simp at hrun
      | ok stats1 =>
        exact ih (fun s hs => hstep s (List.mem_cons_of_mem _ hs)) fs1 stats1
          (hstep s (List.mem_cons_self _ _) fs stats fs1 stats1 h0 h) hrun

/-- What a completed directory step leaves: the statistics as they were. -/
theorem runStep_mkdir_ok {S : List String} {d : Path} {fs fs1 : FS} {stats stats1 : Stats}
    (h : runStep S (Step.mkdir d) fs stats = ⟨fs1, .ok stats1⟩) :
    ensureDir fs d = .ok fs1 ∧ stats1 = stats := by
  simp only [runStep] at h
  cases he : ensureDir fs d with
  | error e => rw [he] at h; simp at h
  | ok fs' =>
    rw [he] at h
    injection h with h1 h2
    injection h2 with h2
    subst h1 h2
    exact ⟨rfl, rfl⟩

/-- The file `devcontainer.json` is never listed among the preserved files. -/
theorem devcontainer_not_preserved (S : List String) (l : List Step) (fs : FS) (stats : Stats)
    (fs2 : FS) (stats2 : Stats) (h0 : "devcontainer.json" ∉ stats.preservedFiles)
    (hrun : runSteps S l fs stats = ⟨fs2, .ok stats2⟩) :
    "devcontainer.json" ∉ stats2.preservedFiles := by
  refine runSteps_invariant S (fun _ st => "devcontainer.json" ∉ st.preservedFiles) l ?_
    fs stats fs2 stats2 h0 hrun
  intro s _ fs stats fs1 stats1 hP hs
  cases s with
  | mkdir d => rw [(runStep_mkdir_ok hs).2]; exact hP
  | visit f =>
    simp only [runStep] at hs
    rcases walkFile_cases S f fs stats with
      ⟨_, _, ⟨e, h⟩ | ⟨_, h⟩ | ⟨u, e, _, h⟩ | ⟨u, _, h⟩⟩ | ⟨hA, _, hex, ⟨e, h⟩ | h⟩ |
        ⟨_, _, ⟨e, h⟩ | h⟩
    · simp [h] at hs
    · simp [h] at hs
    · simp [h] at hs
    · rw [h] at hs
      injection hs with _ hs
      injection hs with hs
      subst hs
      exact hP
    · simp [h] at hs
    · rw [h] at hs
      injection hs with _ hs
      injection hs with hs
      subst hs
      simp only [List.mem_append, List.mem_singleton, not_or]
      exact ⟨hP, fun heq => hA ⟨heq.symm, hex⟩⟩
    · simp [h] at hs
    · rw [h] at hs
      injection hs with _ hs
      injection hs with hs
      subst hs
      split <;> exact hP

/-- C6: when top-level `devcontainer.json` is in the preserve set, in the package
(a directory tree) and a regular file at the destination, a completed `syncDirectory`
applies the back-up rule to it and not the preserve rule: when the walk visits the file
it copies the pre-run destination content to `devcontainer.json.bak`, overwrites
`devcontainer.json` with the package version and writes nothing else (no
`devcontainer.json.codeforge-new`); it adds one to `backedUp` and one to `updated` and
leaves `preserved` and `preservedFiles` as they are; after the run `devcontainer.json`
holds the package version and is not listed in `preservedFiles`. -/
theorem C6_policy_precedence (src : Entries) (dest : FS) (S : List String) (c u : String)
    (fs2 : FS) (stats : Stats)
    (hu : UniqueNames src)
    (hf : (⟨[], "devcontainer.json", "devcontainer.json", c⟩ : PkgFile) ∈ files src)
    (_hS : "devcontainer.json" ∈ S)
    (hdest : dest ["devcontainer.json"] = some (Obj.file u))
    (hrun : syncDirectory src dest S = ⟨fs2, .ok stats⟩) :
    fs2 ["devcontainer.json"] = some (Obj.file c) ∧
      "devcontainer.json" ∉ stats.preservedFiles ∧
      ∃ fs0 stats0 fs1 stats1,
        Visit src dest S ⟨[], "devcontainer.json", "devcontainer.json", c⟩
          fs0 stats0 fs1 stats1 ∧
        fs1 = (fs0.write ["devcontainer.json.bak"] u).write ["devcontainer.json"] c ∧
        stats1 = { stats0 with backedUp := stats0.backedUp + 1,
                               updated := stats0.updated + 1 } := by
  have hnot : "devcontainer.json" ∉ stats.preservedFiles := by
    rw [syncDirectory_eq_runSteps] at hrun
    exact devcontainer_not_preserved S _ dest Stats.zero fs2 stats (by simp [Stats.zero]) hrun
  obtain ⟨pre, post, fs0, stats0, fs1, stats1, hsplit, hpre, hw, _, hbefore, hafter⟩ :=
    sync_reaches hf hrun
  have hside : ∀ g ∈ files src,
      (g.rel ∈ S → g.newPath ≠ PkgFile.destPath ⟨[], "devcontainer.json", "devcontainer.json", c⟩) ∧
      (g.rel = "devcontainer.json" →
        g.bakPath ≠ PkgFile.destPath ⟨[], "devcontainer.json", "devcontainer.json", c⟩) := by
    intro g _
    refine ⟨fun _ h => ?_, fun _ h => ?_⟩
    · exact new_ne_devcontainer g.name (@snoc_inj g.destDir [] _ _ h).2
    · exact bak_ne_devcontainer g.name (@snoc_inj g.destDir [] _ _ h).2
  have hd := others_spare_destPath (S := S) hu hsplit hside
  have h0d : fs0 ["devcontainer.json"] = dest ["devcontainer.json"] :=
    hbefore _ fun s hs => hd s (List.mem_append_left _ hs)
  have h2d : fs2 ["devcontainer.json"] = fs1 ["devcontainer.json"] :=
    hafter _ fun s hs => hd s (List.mem_append_right _ hs)
  have hex : fs0 ["devcontainer.json"] ≠ none := by rw [h0d, hdest]; simp
  rcases walkFile_cases S ⟨[], "devcontainer.json", "devcontainer.json", c⟩ fs0 stats0 with
    ⟨_, _, ⟨e, h⟩ | ⟨_, h⟩ | ⟨v, e, _, h⟩ | ⟨v, hv, h⟩⟩ | ⟨hA, _⟩ | ⟨hA, _⟩
  · simp [h] at hw
  · simp [h] at hw
  · simp [h] at hw
  · have hw' := hw
    rw [h] at hw'
    injection hw' with hfs hst
    injection hst with hst
    have hv' : fs0 ["devcontainer.json"] = some (Obj.file v) := hv
    rw [h0d, hdest] at hv'
    injection hv' with hv'
    injection hv' with hv'
    subst hv'
    refine ⟨?_, hnot, fs0, stats0, fs1, stats1, ⟨pre, post, hsplit, hpre, hw⟩, hfs.symm,
      hst.symm⟩
    rw [h2d, ← hfs]
    exact FS.write_same _ _ _
  · exact absurd ⟨rfl, hex⟩ hA
  · exact absurd ⟨rfl, hex⟩ hA

/-- C6 at a concrete update: the user lists `devcontainer.json` in `.codeforge-preserve`,
and it is still backed up and overwritten. -/
theorem C6_policy_precedence_witness :
    loadPreserveList listedContainerDest = .ok (DEFAULT_PRESERVE ++ ["devcontainer.json"]) ∧
      (syncDirectory containerSrc listedContainerDest
          (DEFAULT_PRESERVE ++ ["devcontainer.json"])).fs ["devcontainer.json"] =
        some (Obj.file "P") ∧
      "devcontainer.json" ∉ (⟨1, 0, 0, 1, []⟩ : Stats).preservedFiles ∧
      ∃ fs0 stats0 fs1 stats1,
        Visit containerSrc listedContainerDest (DEFAULT_PRESERVE ++ ["devcontainer.json"])
          ⟨[], "devcontainer.json", "devcontainer.json", "P"⟩ fs0 stats0 fs1 stats1 ∧
        fs1 = (fs0.write ["devcontainer.json.bak"] "U").write ["devcontainer.json"] "P" ∧
        stats1 = { stats0 with backedUp := stats0.backedUp + 1,
                               updated := stats0.updated + 1 } :=
  ⟨by decide,
    C6_policy_precedence containerSrc listedContainerDest
      (DEFAULT_PRESERVE ++ ["devcontainer.json"]) "P" "U" _ ⟨1, 0, 0, 1, []⟩
      (by decide) (by decide) (by decide) (by decide) (Outcome.eq_of_result (by decide))⟩

/-! ## C7: a second update adds nothing -/

theorem update_ok {src : Entries} {fs fs1 : FS} {stats1 : Stats}
    (h : update src fs = ⟨fs1, .ok stats1⟩) :
    ∃ S, loadPreserveList fs = .ok S ∧ syncDirectory src fs S = ⟨fs1, .ok stats1⟩ := by
  unfold update at h
  cases hl : loadPreserveList fs with
  | error e => rw [hl] at h; simp at h
  | ok S => rw [hl] at h; exact ⟨S, rfl, h⟩

/-- A step removes nothing, with one exception: the back-up of a `devcontainer.json`
that is a directory at the destination throws `EISDIR` and unlinks the `.bak` path. -/
theorem runStep_removes (S : List String) (s : Step) (fs : FS) (stats : Stats) (q : Path)
    (hex : fs q ≠ none) (hgone : (runStep S s fs stats).fs q = none) :
    ∃ f, s = Step.visit f ∧ f.rel = "devcontainer.json" ∧ fs f.destPath = some Obj.dir ∧
      q = f.bakPath ∧ (runStep S s fs stats).result = .error .EISDIR := by
  cases s with
  | mkdir d =>
    exfalso
    simp only [runStep] at hgone
    cases h : ensureDir fs d with
    | error e => rw [h] at hgone; exact hex hgone
    | ok fs1 =>
      rw [h] at hgone
      simp only at hgone
      rw [(ensureDir_ok h).1 q hex] at hgone
      exact hex hgone
  | visit f =>
    have hw : ∀ (g : FS) (p : Path) (c : String), g q ≠ none → g.write p c q ≠ none := by
      intro g p c hg
      unfold FS.write
      split
      · simp
      · exact hg
    simp only [runStep] at hgone ⊢
    rcases walkFile_cases S f fs stats with
      ⟨hr, _, ⟨e, h⟩ | ⟨hd, h⟩ | ⟨u, e, _, h⟩ | ⟨u, _, h⟩⟩ | ⟨_, _, _, ⟨e, h⟩ | h⟩ |
        ⟨_, _, ⟨e, h⟩ | h⟩
    · rw [h] at hgone; exact absurd hgone hex
    · refine ⟨f, rfl, hr, hd, ?_, by rw [h]⟩
      by_contra hne
      rw [h] at hgone
      simp only at hgone
      rw [FS.remove_ne _ hne] at hgone
      exact hex hgone
    · rw [h] at hgone; exact absurd hgone (hw _ _ _ hex)
    · rw [h] at hgone; exact absurd hgone (hw _ _ _ (hw _ _ _ hex))
    · rw [h] at hgone; exact absurd hgone hex
    · rw [h] at hgone; exact absurd hgone (hw _ _ _ hex)
    · rw [h] at hgone; exact absurd hgone hex
    · rw [h] at hgone; exact absurd hgone (hw _ _ _ hex)

/-- No completed step removes anything: what exists before the step exists after it. -/
theorem runStep_keeps (S : List String) (s : Step) (fs : FS) (stats : Stats) (q : Path)
    (hex : fs q ≠ none) {fs1 : FS} {stats1 : Stats}
    (h : runStep S s fs stats = ⟨fs1, .ok stats1⟩) : fs1 q ≠ none := by
  intro hn
  obtain ⟨_, _, _, _, _, hr⟩ := runStep_removes S s fs stats q hex (by rw [h]; exact hn)
  rw [h] at hr
  cases hr

/-- No completed run removes anything. -/
theorem runSteps_keeps (S : List String) (l : List Step) (fs : FS) (stats : Stats) (q : Path)
    (hex : fs q ≠ none) {fs2 : FS} {stats2 : Stats}
    (hrun : runSteps S l fs stats = ⟨fs2, .ok stats2⟩) : fs2 q ≠ none := by
  induction l generalizing fs stats with
  | nil =>
    simp only [runSteps] at hrun
    injection hrun with h1 _
    rw [← h1]
    exact hex
  | cons s rest ih =>
    simp only [runSteps] at hrun
    cases h : runStep S s fs stats with
    | mk fs1 r =>
      rw [h] at hrun
      cases r with
      | error e => simp at hrun
      | ok stats1 => exact ih fs1 stats1 (runStep_keeps S s fs stats q hex h) hrun

/-- After a completed visit the file exists at the destination. -/
theorem walkFile_exists {S : List String} {f : PkgFile} {fs fs1 : FS} {stats stats1 : Stats}
    (h : walkFile S f.content f.destDir f.name f.rel fs stats = ⟨fs1, .ok stats1⟩) :
    fs1 f.destPath ≠ none := by
  have hk := fun hex => runStep_keeps S (Step.visit f) fs stats f.destPath hex
    (show runStep S (Step.visit f) fs stats = ⟨fs1, .ok stats1⟩ from h)
  rcases walkFile_cases S f fs stats with
    ⟨_, hex, _⟩ | ⟨_, _, hex, _⟩ | ⟨_, _, ⟨e, h'⟩ | h'⟩
  · exact hk hex
  · exact hk hex
  · simp [h'] at h
  · rw [h'] at h
    injection h with hfs _
    rw [← hfs, FS.write_same]
    simp

/-- After a completed run every visited file exists at the destination. -/
theorem runSteps_all_exist (S : List String) (l : List Step) (fs : FS) (stats : Stats)
    (fs2 : FS) (stats2 : Stats) (hrun : runSteps S l fs stats = ⟨fs2, .ok stats2⟩) :
    ∀ f ∈ visited l, fs2 f.destPath ≠ none := by
  induction l generalizing fs stats with
  | nil => simp [visited]
  | cons s rest ih =>
    simp only [runSteps] at hrun
    cases h : runStep S s fs stats with
    | mk fs1 r =>
      rw [h] at hrun
      cases r with
      | error e => simp at hrun
      | ok stats1 =>
        simp only at hrun
        cases s with
        | mkdir d => exact ih fs1 stats1 hrun
        | visit g =>
          intro f hf
          simp only [visited, List.mem_cons] at hf
          rcases hf with rfl | hf
          · exact runSteps_keeps S rest fs1 stats1 f.destPath (walkFile_exists h) hrun
          · exact ih fs1 stats1 hrun f hf

/-- A completed run on a destination where every visited file already exists counts no
file as added. -/
theorem runSteps_none_added (S : List String) (l : List Step) (fs : FS) (stats : Stats)
    (fs2 : FS) (stats2 : Stats) (hall : ∀ f ∈ visited l, fs f.destPath ≠ none)
    (hrun : runSteps S l fs stats = ⟨fs2, .ok stats2⟩) : stats2.added = stats.added := by
  induction l generalizing fs stats with
  | nil =>
    simp only [runSteps] at hrun
    injection hrun with _ h2
    injection h2 with h2
    rw [h2]
  | cons s rest ih =>
    simp only [runSteps] at hrun
    cases h : runStep S s fs stats with
    | mk fs1 r =>
      rw [h] at hrun
      cases r with
      | error e => simp at hrun
      | ok stats1 =>
        simp only at hrun
        have hkeep : ∀ q, fs q ≠ none → fs1 q ≠ none := by
          intro q hq
          exact runStep_keeps S s fs stats q hq h
        cases s with
        | mkdir d =>
          rw [ih fs1 stats1 (fun f hf => hkeep _ (hall f hf)) hrun, (runStep_mkdir_ok h).2]
        | visit g =>
          have hrest := ih fs1 stats1
            (fun f hf => hkeep _ (hall f (List.mem_cons_of_mem _ hf))) hrun
          rw [hrest]
          have hg := hall g (List.mem_cons_self _ _)
          simp only [runStep] at h
          rcases walkFile_cases S g fs stats with
            ⟨_, _, ⟨e, h'⟩ | ⟨_, h'⟩ | ⟨u, e, _, h'⟩ | ⟨u, _, h'⟩⟩ | ⟨_, _, _, ⟨e, h'⟩ | h'⟩ |
              ⟨_, _, ⟨e, h'⟩ | h'⟩
          · simp [h'] at h
          · simp [h'] at h
          · simp [h'] at h
          · rw [h'] at h
            injection h with _ hs
            injection hs with hs
            rw [← hs]
          · simp [h'] at h
          · rw [h'] at h
            injection h with _ hs
            injection hs with hs
            rw [← hs]
          · simp [h'] at h
          · rw [h'] at h
            injection h with _ hs
            injection hs with hs
            rw [← hs, if_neg hg]

/-- C7: if the update (`loadPreserveList`, then `syncDirectory`) completes and is run
again on the tree it left, with the same package, the statistics the second run returns
have `added = 0`. -/
theorem C7_second_update_adds_nothing (src : Entries) (dest fs1 fs2 : FS)
    (stats1 stats2 : Stats)
    (h1 : update src dest = ⟨fs1, .ok stats1⟩)
    (h2 : update src fs1 = ⟨fs2, .ok stats2⟩) : stats2.added = 0 := by
  obtain ⟨S1, _, hr1⟩ := update_ok h1
  obtain ⟨S2, _, hr2⟩ := update_ok h2
  rw [syncDirectory_eq_runSteps] at hr1 hr2
  have hall := runSteps_all_exist S1 _ dest Stats.zero fs1 stats1 hr1
  exact runSteps_none_added S2 _ fs1 Stats.zero fs2 stats2 hall hr2

/-- C7 at a concrete pair of runs: the first update adds three files to an empty
destination, the second adds none. -/
theorem C7_second_update_adds_nothing_witness :
    (update manifestSrc emptyDirDest).result = .ok ⟨0, 0, 3, 0, []⟩ ∧
      (update manifestSrc (update manifestSrc emptyDirDest).fs).result =
        .ok ⟨2, 1, 0, 1, ["config/file-manifest.json"]⟩ ∧
      (⟨2, 1, 0, 1, ["config/file-manifest.json"]⟩ : Stats).added = 0 :=
  ⟨by decide, by decide,
    C7_second_update_adds_nothing manifestSrc emptyDirDest _ _ ⟨0, 0, 3, 0, []⟩
      ⟨2, 1, 0, 1, ["config/file-manifest.json"]⟩ (Outcome.eq_of_result (by decide))
      (Outcome.eq_of_result (by decide))⟩

/-! ## C8: classification on a second update -/

theorem mem_newSet (x : String) (l : List String) : x ∈ newSet l ↔ x ∈ l := by
  induction l with
  | nil => simp [newSet]
  | cons y ys ih =>
    simp only [newSet, List.mem_cons, List.mem_filter, ih, bne_iff_ne, ne_eq]
    constructor
    · rintro (h | ⟨h, _⟩)
      · exact Or.inl h
      · exact Or.inr h
    · intro h
      by_cases hxy : x = y
      · exact Or.inl hxy
      · rcases h with h | h
        · exact Or.inl h
        · exact Or.inr ⟨h, hxy⟩

/-- The built-in entries are in every loaded preserve set. -/
theorem default_mem_loaded {fs : FS} {S : List String} (h : loadPreserveList fs = .ok S)
    {x : String} (hx : x ∈ DEFAULT_PRESERVE) : x ∈ S := by
  unfold loadPreserveList at h
  split at h
  · injection h with h
    subst h
    exact (mem_newSet _ _).2 (List.mem_append_left _ hx)
  · injection h with h
    subst h
    exact (mem_newSet _ _).2 (List.mem_append_left _ hx)
  · cases h

/-- The loader reads nothing but the exclusion file. -/
theorem loadPreserveList_congr {fs fs1 : FS}
    (h : fs1 [".codeforge-preserve"] = fs [".codeforge-preserve"]) :
    loadPreserveList fs1 = loadPreserveList fs := by
  unfold loadPreserveList
  rw [h]

theorem new_ne_preserveFile (a : String) : a ++ ".codeforge-new" ≠ ".codeforge-preserve" := by
  intro h
  have := congrArg (fun s => s.data.getLast?) h
  simp [String.data_append] at this

theorem bak_ne_preserveFile (a : String) : a ++ ".bak" ≠ ".codeforge-preserve" := by
  intro h
  have := congrArg (fun s => s.data.getLast?) h
  simp [String.data_append] at this

/-- A file visited in the directory the loop runs in has the relative path of
lines 81-83 for that directory. -/
theorem steps_top_level (src : Entries) (base : Path) (rb : String) (g : PkgFile)
    (hg : Step.visit g ∈ steps src base rb) (hd : g.destDir = base) :
    g.rel = relativePath rb g.name := by
  induction src generalizing base rb with
  | nil => simp [steps] at hg
  | file name content rest ih =>
    simp only [steps, List.mem_cons] at hg
    rcases hg with h | h
    · injection h with h
      subst h
      rfl
    · exact ih base rb h hd
  | dir name children rest ihc ihr =>
    simp only [steps, List.mem_cons, List.mem_append] at hg
    rcases hg with h | h | h
    · cases h
    · obtain ⟨t, ht0, ht⟩ := steps_under children (base ++ [name]) _ _ h
      simp only [Step.path, PkgFile.destPath, hd, List.append_assoc,
        List.append_cancel_left_eq] at ht
      simp only [List.singleton_append, List.cons.injEq] at ht
      exact absurd ht.2.symm ht0
    · exact ihr base rb h hd

/-- A path the run protects: an existing object at `q` is unchanged by the run if every
package file at `q` is in the preserve set and is not `devcontainer.json`, and `q` is
no side-car path of the run. -/
theorem runSteps_protected (S : List String) (l : List Step) (fs : FS) (stats : Stats)
    (q : Path) (hex : fs q ≠ none)
    (hq : ∀ g, Step.visit g ∈ l →
      (g.destPath = q → g.rel ∈ S ∧ g.rel ≠ "devcontainer.json") ∧
      (g.rel ∈ S → g.newPath ≠ q) ∧ (g.rel = "devcontainer.json" → g.bakPath ≠ q)) :
    (runSteps S l fs stats).fs q = fs q := by
  induction l generalizing fs stats with
  | nil => rfl
  | cons s rest ih =>
    have h1 : (runStep S s fs stats).fs q = fs q := by
      cases s with
      | mkdir d => exact runStep_frame S _ fs stats q hex (by simp [Step.writes])
      | visit g =>
        obtain ⟨hg1, hg2, hg3⟩ := hq g (List.mem_cons_self _ _)
        by_cases hgq : g.destPath = q
        · obtain ⟨hrel, hdc⟩ := hg1 hgq
          have hnq : q ≠ g.newPath := hgq ▸ g.newPath_ne_destPath.symm
          simp only [runStep]
          rcases walkFile_cases S g fs stats with
            ⟨hr, _⟩ | ⟨_, _, _, ⟨e, h⟩ | h⟩ | ⟨_, hB, _⟩
          · exact absurd hr hdc
          · rw [h]
          · rw [h]; exact FS.write_ne _ _ hnq
          · exact absurd ⟨hrel, hgq ▸ hex⟩ hB
        · refine runStep_frame S _ fs stats q hex ?_
          simp only [Step.writes, not_or, not_and]
          exact ⟨fun h => hgq h.symm, fun hr h => hg2 hr h.symm, fun hr h => hg3 hr h.symm⟩
    simp only [runSteps]
    cases h : runStep S s fs stats with
    | mk fs1 r =>
      rw [h] at h1
      simp only at h1
      cases r with
      | error e => exact h1
      | ok stats1 =>
        have := ih fs1 stats1 (by rw [h1]; exact hex)
          (fun g hg => hq g (List.mem_cons_of_mem _ hg))
        simp only [this, h1]

/-- At a path where nothing exists and that no step of the run writes, the run leaves
nothing or a directory. -/
theorem runSteps_no_file (S : List String) (l : List Step) (fs : FS) (stats : Stats)
    (q : Path) (hq : ∀ s ∈ l, ¬ Step.writes S s q)
    (h0 : fs q = none ∨ fs q = some Obj.dir) :
    (runSteps S l fs stats).fs q = none ∨ (runSteps S l fs stats).fs q = some Obj.dir := by
  induction l generalizing fs stats with
  | nil => exact h0
  | cons s rest ih =>
    have h1 : (runStep S s fs stats).fs q = none ∨
        (runStep S s fs stats).fs q = some Obj.dir := by
      cases s with
      | mkdir d =>
        simp only [runStep]
        cases h : ensureDir fs d with
        | error e => exact h0
        | ok fs1 =>
          rcases (ensureDir_ok h).2.2.1 q with h' | ⟨_, h'⟩
          · simp only [h']; exact h0
          · exact Or.inr h'
      | visit g =>
        have := walkFile_frame S g fs stats q (hq _ (List.mem_cons_self _ _))
        simp only [runStep, this]
        exact h0
    simp only [runSteps]
    cases h : runStep S s fs stats with
    | mk fs1 r =>
      rw [h] at h1
      cases r with
      | error e => exact h1
      | ok stats1 => exact ih fs1 stats1 (fun s hs => hq s (List.mem_cons_of_mem _ hs)) h1

/-- When every visited file that is in the preserve set or is `devcontainer.json`
exists at the start, a completed run classifies by the relative path alone. -/
theorem runSteps_classified (S : List String) (l : List Step) (fs : FS) (stats : Stats)
    (fs2 : FS) (stats2 : Stats)
    (hall : ∀ f ∈ visited l, (f.rel ∈ S ∨ f.rel = "devcontainer.json") →
      fs f.destPath ≠ none)
    (hrun : runSteps S l fs stats = ⟨fs2, .ok stats2⟩) :
    stats2.preservedFiles = stats.preservedFiles ++
        ((visited l).filter
          (fun f => decide (f.rel ∈ S ∧ f.rel ≠ "devcontainer.json"))).map PkgFile.rel ∧
      stats2.preserved = stats.preserved +
        ((visited l).filter
          (fun f => decide (f.rel ∈ S ∧ f.rel ≠ "devcontainer.json"))).length ∧
      stats2.backedUp = stats.backedUp +
        ((visited l).filter (fun f => decide (f.rel = "devcontainer.json"))).length := by
  induction l generalizing fs stats with
  | nil =>
    simp only [runSteps] at hrun
    injection hrun with _ h2
    injection h2 with h2
    subst h2
    simp [visited]
  | cons s rest ih =>
    simp only [runSteps] at hrun
    cases h : runStep S s fs stats with
    | mk fs1 r =>
      rw [h] at hrun
      cases r with
      | error e => simp at hrun
      | ok stats1 =>
        simp only at hrun
        have hkeep : ∀ q, fs q ≠ none → fs1 q ≠ none := by
          intro q hq
          exact runStep_keeps S s fs stats q hq h
        cases s with
        | mkdir d =>
          have := ih fs1 stats1 (fun f hf hr => hkeep _ (hall f hf hr)) hrun
          rw [(runStep_mkdir_ok h).2] at this
          simpa [visited] using this
        | visit g =>
          obtain ⟨i1, i2, i3⟩ := ih fs1 stats1
            (fun f hf hr => hkeep _ (hall f (List.mem_cons_of_mem _ hf) hr)) hrun
          have hg := hall g (List.mem_cons_self _ _)
          simp only [runStep] at h
          rcases walkFile_cases S g fs stats with
            ⟨hr, _, ⟨e, h'⟩ | ⟨_, h'⟩ | ⟨u, e, _, h'⟩ | ⟨u, _, h'⟩⟩ |
              ⟨hA, hr, hex, ⟨e, h'⟩ | h'⟩ | ⟨hA, hB, ⟨e, h'⟩ | h'⟩
          · simp [h'] at h
          · simp [h'] at h
          · simp [h'] at h
          · rw [h'] at h
            injection h with _ hs
            injection hs with hs
            subst hs
            simp only at i1 i2 i3
            simp [visited, hr, i1, i2, i3]
            omega
          · simp [h'] at h
          · rw [h'] at h
            injection h with _ hs
            injection hs with hs
            subst hs
            have hdc : g.rel ≠ "devcontainer.json" := fun heq => hA ⟨heq, hex⟩
            simp only at i1 i2 i3
            simp [visited, hr, hdc, i1, i2, i3]
            omega
          · simp [h'] at h
          · rw [h'] at h
            injection h with _ hs
            injection hs with hs
            have hdc : g.rel ≠ "devcontainer.json" := fun heq => hA ⟨heq, hg (Or.inr heq)⟩
            have hnS : g.rel ∉ S := fun hin => hB ⟨hin, hg (Or.inl hin)⟩
            have e1 : stats1.preservedFiles = stats.preservedFiles := by
              rw [← hs]; split <;> rfl
            have e2 : stats1.preserved = stats.preserved := by
              rw [← hs]; split <;> rfl
            have e3 : stats1.backedUp = stats.backedUp := by
              rw [← hs]; split <;> rfl
            rw [e1] at i1
            rw [e2] at i2
            rw [e3] at i3
            simp [visited, hdc, hnS, i1, i2, i3]

/-- What the steps of `syncDirectory` can do to the exclusion file: a package file at
that path has the relative path `.codeforge-preserve`, and no side-car path is that
path. -/
theorem preserveFile_steps (src : Entries) (g : PkgFile)
    (hg : Step.visit g ∈ Step.mkdir [] :: steps src [] "") :
    (g.destPath = [".codeforge-preserve"] → g.rel = ".codeforge-preserve") ∧
      g.newPath ≠ [".codeforge-preserve"] ∧ g.bakPath ≠ [".codeforge-preserve"] := by
  have hg' : Step.visit g ∈ steps src [] "" := by
    rcases List.mem_cons.1 hg with h | h
    · cases h
    · exact h
  refine ⟨fun h => ?_, fun h => ?_, fun h => ?_⟩
  · obtain ⟨hd, hn⟩ := @snoc_inj g.destDir [] _ _ h
    rw [steps_top_level src [] "" g hg' hd, hn]
    rfl
  · exact new_ne_preserveFile g.name (@snoc_inj g.destDir [] _ _ h).2
  · exact bak_ne_preserveFile g.name (@snoc_inj g.destDir [] _ _ h).2

/-- C8, as stated, fails: on an empty destination the first update adds
`config/file-manifest.json` and `devcontainer.json` (nothing preserved, nothing backed
up); the second update finds them, preserves the first and backs up the second. -/
theorem C8_counterexample :
    (update manifestSrc emptyDirDest).result = .ok ⟨0, 0, 3, 0, []⟩ ∧
      (update manifestSrc (update manifestSrc emptyDirDest).fs).result =
        .ok ⟨2, 1, 0, 1, ["config/file-manifest.json"]⟩ := by
  decide

/-- C8 (amended): if every package file whose relative path is in the preserve set
loaded for the first run, or is `devcontainer.json`, already exists at the destination
before the first run, and the update (`loadPreserveList`, then `syncDirectory`) is run
twice in succession and both runs complete, then the second run returns the same
`preservedFiles`, `preserved` and `backedUp` as the first. -/
theorem C8_classification (src : Entries) (dest fs1 fs2 : FS) (stats1 stats2 : Stats)
    (h1 : update src dest = ⟨fs1, .ok stats1⟩)
    (h2 : update src fs1 = ⟨fs2, .ok stats2⟩)
    (hexist : ∀ S, loadPreserveList dest = .ok S → ∀ f ∈ files src,
      (f.rel ∈ S ∨ f.rel = "devcontainer.json") → dest f.destPath ≠ none) :
    stats2.preservedFiles = stats1.preservedFiles ∧ stats2.preserved = stats1.preserved ∧
      stats2.backedUp = stats1.backedUp := by
  obtain ⟨S1, hl1, hr1⟩ := update_ok h1
  obtain ⟨S2, hl2, hr2⟩ := update_ok h2
  rw [syncDirectory_eq_runSteps] at hr1 hr2
  have hvis : visited (Step.mkdir [] :: steps src [] "") = files src := rfl
  have hcp : ".codeforge-preserve" ∈ S1 := default_mem_loaded hl1 (by decide)
  have hsame : loadPreserveList fs1 = loadPreserveList dest := by
    apply loadPreserveList_congr
    have hfs1 : fs1 = (runSteps S1 (Step.mkdir [] :: steps src [] "") dest Stats.zero).fs := by
      rw [hr1]
    by_cases hex : dest [".codeforge-preserve"] = none
    · have hno : ∀ s ∈ Step.mkdir [] :: steps src [] "",
          ¬ Step.writes S1 s [".codeforge-preserve"] := by
        intro s hs
        cases s with
        | mkdir d => simp [Step.writes]
        | visit g =>
          obtain ⟨p1, p2, p3⟩ := preserveFile_steps src g hs
          simp only [Step.writes, not_or, not_and]
          refine ⟨fun h => ?_, fun _ h => p2 h.symm, fun _ h => p3 h.symm⟩
          have hrel := p1 h.symm
          have := hexist S1 hl1 g (by rw [← hvis]; exact mem_visited.2 hs)
            (Or.inl (hrel ▸ hcp))
          rw [← h] at this
          exact this hex
      rcases runSteps_no_file S1 _ dest Stats.zero _ hno (Or.inl hex) with h | h
      · rw [hfs1, h, hex]
      · rw [← hfs1] at h
        unfold loadPreserveList at hl2
        rw [h] at hl2
        cases hl2
    · rw [hfs1]
      refine runSteps_protected S1 _ dest Stats.zero _ hex fun g hg => ?_
      obtain ⟨p1, p2, p3⟩ := preserveFile_steps src g hg
      refine ⟨fun h => ?_, fun _ => p2, fun _ => p3⟩
      rw [p1 h]
      exact ⟨hcp, by decide⟩
  have hS : S2 = S1 := by
    rw [hsame, hl1] at hl2
    injection hl2 with hl2
    exact hl2.symm
  subst hS
  have c1 := runSteps_classified S2 (Step.mkdir [] :: steps src [] "") dest Stats.zero
    fs1 stats1 (fun f hf hr => hexist S2 hl1 f hf hr) hr1
  have c2 := runSteps_classified S2 (Step.mkdir [] :: steps src [] "") fs1 Stats.zero
    fs2 stats2
    (fun f hf _ => runSteps_all_exist S2 _ dest Stats.zero fs1 stats1 hr1 f hf) hr2
  exact ⟨c2.1.trans c1.1.symm, c2.2.1.trans c1.2.1.symm, c2.2.2.trans c1.2.2.symm⟩

/-- C8 (amended) at the example scenario, run twice: both runs preserve `secret.json`
and back up nothing. -/
theorem C8_classification_witness :
    (update exampleSrc exampleDest).result = .ok ⟨1, 1, 0, 0, ["secret.json"]⟩ ∧
      (update exampleSrc (update exampleSrc exampleDest).fs).result =
        .ok ⟨1, 1, 0, 0, ["secret.json"]⟩ ∧
      ((⟨1, 1, 0, 0, ["secret.json"]⟩ : Stats).preservedFiles = ["secret.json"] ∧
        (⟨1, 1, 0, 0, ["secret.json"]⟩ : Stats).preserved = 1 ∧
        (⟨1, 1, 0, 0, ["secret.json"]⟩ : Stats).backedUp = 0) :=
  ⟨by decide, by decide,
    C8_classification exampleSrc exampleDest _ _ ⟨1, 1, 0, 0, ["secret.json"]⟩
      ⟨1, 1, 0, 0, ["secret.json"]⟩ (Outcome.eq_of_result (by decide))
      (Outcome.eq_of_result (by decide))
      (fun S hS => by
        have : S = DEFAULT_PRESERVE ++ ["secret.json"] := by
          have h0 : loadPreserveList exampleDest = .ok (DEFAULT_PRESERVE ++ ["secret.json"]) := by
            decide
          rw [h0] at hS
          injection hS with hS
          exact hS.symm
        subst this
        decide)⟩

/-! ## C9: reset and verbatim copy -/

theorem toFS_root (src : Entries) : src.toFS [] = some Obj.dir := by
  cases src <;> rfl

theorem toFS_not_mem (src : Entries) (n : String) (t : Path) (h : n ∉ src.names) :
    src.toFS (n :: t) = none := by
  induction src with
  | nil => rfl
  | file name content rest ih =>
    simp only [Entries.names, List.mem_cons, not_or] at h
    simp only [Entries.toFS, if_neg h.1]
    exact ih h.2
  | dir name children rest _ ihr =>
    simp only [Entries.names, List.mem_cons, not_or] at h
    simp only [Entries.toFS, if_neg h.1]
    exact ihr h.2

/-- Lines 20-22 on a path where nothing exists and whose ancestors are directories. -/
theorem ensureDir_fresh {fs : FS} {d : Path} (hd : fs d = none)
    (hanc : ∀ q, q <+: d → Obj.isFile (fs q) = false) :
    ensureDir fs d = .ok (fs.mkdirp d) := by
  have h1 : existsSync fs d = false := by simp [existsSync, hd]
  have h2 : (d.inits.any fun q => Obj.isFile (fs q)) = false := by
    rw [List.any_eq_false]
    intro q hq
    rw [hanc q ((List.mem_inits q d).1 hq)]
    simp
  unfold ensureDir
  rw [if_neg (by rw [h1]; simp)]
  unfold mkdirSync
  rw [if_neg (by rw [hd]; simp [Obj.isFile]), if_neg (by rw [h2]; simp)]

theorem FS.mkdirp_apply (fs : FS) (d q : Path) :
    fs.mkdirp d q = if q <+: d then some Obj.dir else fs q := by
  unfold FS.mkdirp
  by_cases hq : q <+: d
  · rw [if_pos hq, if_pos (List.isPrefixOf_iff_prefix.2 hq)]
  · rw [if_neg hq, if_neg (fun h => hq (List.isPrefixOf_iff_prefix.1 h))]

/-- The copy loop into a directory that has nothing yet at the names of the listing:
it completes, places the listing's subtree at each of these names and changes nothing
else. -/
theorem copyLoop_fresh (src : Entries) (base : Path) (fs : FS) (hu : UniqueNames src)
    (hanc : ∀ q, q <+: base → fs q = some Obj.dir)
    (hfree : ∀ n ∈ src.names, ∀ t, fs (base ++ n :: t) = none) :
    ∃ fs2, copyLoop src base fs = ⟨fs2, .ok ()⟩ ∧
      (∀ n ∈ src.names, ∀ t, fs2 (base ++ n :: t) = src.toFS (n :: t)) ∧
      (∀ q, (∀ n ∈ src.names, ∀ t, q ≠ base ++ n :: t) → fs2 q = fs q) := by
  induction src generalizing base fs with
  | nil => exact ⟨fs, rfl, by simp [Entries.names], fun _ _ => rfl⟩
  | file name content rest ih =>
    obtain ⟨hn, hu'⟩ := hu
    have hcopy : copyFromPackage fs (base ++ [name]) content =
        .ok (fs.write (base ++ [name]) content) := by
      apply copyFromPackage_succeeds
      · rw [List.dropLast_concat]; exact hanc base List.prefix_rfl
      · rw [hfree name (by simp [Entries.names]) []]; simp
    obtain ⟨fs2, hc, hin, hout⟩ := ih base (fs.write (base ++ [name]) content) hu'
      (fun q hq => by
        rw [FS.write_ne _ _ (by
          intro e
          have := hq.length_le
          rw [e] at this
          simp at this)]
        exact hanc q hq)
      (fun n hnr t => by
        have hne : n ≠ name := fun e => hn (e ▸ hnr)
        rw [FS.write_ne _ _ (by simp [hne])]
        exact hfree n (by simp [Entries.names, hnr]) t)
    refine ⟨fs2, by simp only [copyLoop, hcopy, hc], fun n hnm t => ?_, fun q hq => ?_⟩
    · by_cases hne : n = name
      · subst hne
        rw [hout _ (fun n' hn' t' => by
          have : n ≠ n' := fun e => hn (e ▸ hn')
          simp [this])]
        by_cases ht : t = []
        · subst ht; simp [Entries.toFS]
        · rw [FS.write_ne _ _ (by simp [ht])]
          simp only [Entries.toFS, if_true, if_neg ht]
          exact hfree n (by simp [Entries.names]) t
      · have hnr : n ∈ rest.names := by
          simp only [Entries.names, List.mem_cons] at hnm
          exact hnm.resolve_left hne
        rw [hin n hnr t]
        simp [Entries.toFS, hne]
    · rw [hout q (fun n hnr t => hq n (by simp [Entries.names, hnr]) t)]
      exact FS.write_ne _ _ (hq name (by simp [Entries.names]) [])
  | dir name children rest ihc ihr =>
    obtain ⟨hn, huc, hur⟩ := hu
    have hfresh : fs (base ++ [name]) = none := hfree name (by simp [Entries.names]) []
    have hens := ensureDir_fresh hfresh (fun q hq => by
      rcases List.prefix_concat_iff.1 hq with h | h
      · rw [h, hfresh]; rfl
      · rw [hanc q h]; rfl)
    have hfs1 := FS.mkdirp_apply fs (base ++ [name])
    obtain ⟨fs2, hc2, hin2, hout2⟩ := ihc (base ++ [name]) (fs.mkdirp (base ++ [name])) huc
      (fun q hq => by rw [hfs1, if_pos hq])
      (fun m _ t => by
        rw [hfs1, if_neg (fun h => by
          have := h.length_le
          simp at this)]
        simpa using hfree name (by simp [Entries.names]) (m :: t))
    have hfs2 : ∀ q, (∀ t, q ≠ base ++ name :: t) → fs2 q = fs q := by
      intro q hq
      rw [hout2 q (fun m _ t => by simpa using hq (m :: t)), hfs1]
      by_cases hpre : q <+: base ++ [name]
      · rw [if_pos hpre]
        rcases List.prefix_concat_iff.1 hpre with h | h
        · exact absurd h (hq [])
        · exact (hanc q h).symm
      · rw [if_neg hpre]
    obtain ⟨fs3, hc3, hin3, hout3⟩ := ihr base fs2 hur
      (fun q hq => by
        rw [hfs2 q (fun t e => by
          have := hq.length_le
          rw [e] at this
          simp at this)]
        exact hanc q hq)
      (fun n hnr t => by
        have hne : n ≠ name := fun e => hn (e ▸ hnr)
        rw [hfs2 _ (fun t' => by simp [hne])]
        exact hfree n (by simp [Entries.names, hnr]) t)
    refine ⟨fs3, by simp only [copyLoop, hens, hc2, hc3], fun n hnm t => ?_, fun q hq => ?_⟩
    · by_cases hne : n = name
      · subst hne
        rw [hout3 _ (fun n' hn' t' => by
          have : n ≠ n' := fun e => hn (e ▸ hn')
          simp [this])]
        cases t with
        | nil =>
          rw [hout2 _ (fun m _ t => by simp), hfs1, if_pos List.prefix_rfl]
          simp [Entries.toFS, toFS_root]
        | cons m t =>
          simp only [Entries.toFS, if_true]
          by_cases hm : m ∈ children.names
          · have := hin2 m hm t
            simpa using this
          · rw [toFS_not_mem children m t hm,
              hout2 _ (fun m' hm' t' => by
                have : m ≠ m' := fun e => hm (e ▸ hm')
                simp [this]), hfs1,
              if_neg (fun h => by
                have := h.length_le
                simp at this)]
            exact hfree n (by simp [Entries.names]) (m :: t)
      · have hnr : n ∈ rest.names := by
          simp only [Entries.names, List.mem_cons] at hnm
          exact hnm.resolve_left hne
        rw [hin3 n hnr t]
        simp [Entries.toFS, hne]
    · rw [hout3 q (fun n hnr t => hq n (by simp [Entries.names, hnr]) t)]
      exact hfs2 q (fun t => hq name (by simp [Entries.names]) t)

theorem rmSync_root (fs : FS) : rmSync fs [] = FS.empty := by
  funext q
  simp [rmSync, FS.empty, List.isPrefixOf]

/-- A well-formed tree without a root has nothing in it. -/
theorem FS.WF.eq_empty {fs : FS} (hwf : FS.WF fs) (hroot : fs [] = none) : fs = FS.empty := by
  funext q
  induction q using List.reverseRecOn with
  | nil => exact hroot
  | append_singleton l a ih =>
    by_contra h
    have := hwf l a h
    rw [ih] at this
    simp [FS.empty] at this

/-- Copying a package tree (unique names) to an absent destination completes and
leaves exactly the package tree. -/
theorem copyDirectory_fresh (src : Entries) (hu : UniqueNames src) :
    copyDirectory src [] FS.empty = ⟨src.toFS, .ok ()⟩ := by
  have hens : ensureDir FS.empty [] = .ok (FS.empty.mkdirp []) :=
    ensureDir_fresh rfl (fun _ _ => rfl)
  have h1 := FS.mkdirp_apply FS.empty []
  obtain ⟨fs2, hc, hin, hout⟩ := copyLoop_fresh src [] (FS.empty.mkdirp []) hu
    (fun q hq => by rw [h1, if_pos hq])
    (fun n _ t => by rw [h1, if_neg (by simp)]; rfl)
  have hfs : fs2 = src.toFS := by
    funext q
    cases q with
    | nil =>
      rw [hout [] (fun n _ t => by simp), h1, if_pos List.prefix_rfl, toFS_root]
    | cons n t =>
      by_cases hn : n ∈ src.names
      · simpa using hin n hn t
      · rw [hout _ (fun n' hn' t' => by
          have : n ≠ n' := fun e => hn (e ▸ hn')
          simp [this]), h1, if_neg (by simp), toFS_not_mem src n t hn]
        rfl
  simp only [copyDirectory, hens, hc, hfs]

/-- With unique names, the path map of the package tree has every entry the walk
steps through: a directory at the path of each directory step, the package content at
the path of each file step. -/
theorem toFS_steps (src : Entries) (base : Path) (rb : String) (hu : UniqueNames src) :
    ∀ s ∈ steps src base rb, ∃ t, s.path = base ++ t ∧
      src.toFS t = (match s with
        | Step.mkdir _ => some Obj.dir
        | Step.visit f => some (Obj.file f.content)) := by
  induction src generalizing base rb with
  | nil => simp [steps]
  | file name content rest ih =>
    intro s hs
    simp only [steps, List.mem_cons] at hs
    rcases hs with rfl | hs
    · exact ⟨[name], rfl, by simp [Entries.toFS]⟩
    · obtain ⟨t, ht, hv⟩ := ih base rb hu.2 s hs
      obtain ⟨n, t', hn, ht'⟩ := steps_path_form rest base rb s hs
      have htt : t = n :: t' := List.append_cancel_left (ht.symm.trans ht')
      have hne : n ≠ name := fun e => hu.1 (e ▸ hn)
      refine ⟨t, ht, ?_⟩
      rw [← hv, htt]
      simp [Entries.toFS, hne]
  | dir name children rest ihc ihr =>
    intro s hs
    simp only [steps, List.mem_cons, List.mem_append] at hs
    rcases hs with rfl | hs | hs
    · exact ⟨[name], rfl, by simp [Entries.toFS, toFS_root]⟩
    · obtain ⟨t, ht, hv⟩ := ihc (base ++ [name]) _ hu.2.1 s hs
      refine ⟨name :: t, by simp [ht], ?_⟩
      rw [← hv]
      simp [Entries.toFS]
    · obtain ⟨t, ht, hv⟩ := ihr base rb hu.2.2 s hs
      obtain ⟨n, t', hn, ht'⟩ := steps_path_form rest base rb s hs
      have htt : t = n :: t' := List.append_cancel_left (ht.symm.trans ht')
      have hne : n ≠ name := fun e => hu.1 (e ▸ hn)
      refine ⟨t, ht, ?_⟩
      rw [← hv, htt]
      simp [Entries.toFS, hne]

/-- C9: for every package tree (a directory tree: unique names in each directory),
`main` in reset mode on an existing destination exits with code 0 and leaves a
destination tree that is exactly the package tree, path by path: the same directories,
the same files with the same content, and nothing else (nothing of the pre-reset
destination survives).  Likewise `copyDirectory` on an absent destination completes and
yields the package tree.  The package tree as a path map (`Entries.toFS`) has every
package file with its content and every package directory. -/
theorem C9_reset_verbatim (src : Entries) (hu : UniqueNames src) :
    (∀ (args : List String) (dest : FS), "--reset" ∈ args → "--help" ∉ args → "-h" ∉ args →
        dest [] ≠ none →
        (main args (some src) dest).fs = src.toFS ∧
          (main args (some src) dest).exitCode = 0) ∧
      (∀ fs : FS, FS.WF fs → fs [] = none →
        copyDirectory src [] fs = ⟨src.toFS, .ok ()⟩) ∧
      (∀ f ∈ files src, src.toFS f.destPath = some (Obj.file f.content)) ∧
      (∀ d ∈ dirs src, src.toFS d = some Obj.dir) := by
  refine ⟨fun args dest hreset hh1 hh2 hex => ?_, fun fs hwf hroot => ?_, fun f hf => ?_,
    fun d hd => ?_⟩
  · have he : existsSync dest [] = true := (existsSync_iff dest []).2 hex
    simp only [main, hh1, hh2, or_self, if_false, he, if_true, hreset, decide_True,
      rmSync_root, copyDirectory_fresh src hu, and_self]
  · rw [hwf.eq_empty hroot]
    exact copyDirectory_fresh src hu
  · obtain ⟨t, ht, hv⟩ := toFS_steps src [] "" hu _ (mem_visited.1 hf)
    simp only [Step.path, List.nil_append] at ht
    rw [ht]
    exact hv
  · obtain ⟨t, ht, hv⟩ := toFS_steps src [] "" hu _ (mem_madeDirs.1 hd)
    simp only [Step.path, List.nil_append] at ht
    rw [ht]
    exact hv

/-- C9 at a concrete reset: the example destination, with its exclusion file and the
user's `secret.json`, becomes the package `manifestSrc`. -/
theorem C9_reset_verbatim_witness :
    ((main ["--reset"] (some manifestSrc) exampleDest).fs = manifestSrc.toFS ∧
        (main ["--reset"] (some manifestSrc) exampleDest).exitCode = 0) ∧
      (main ["--reset"] (some manifestSrc) exampleDest).fs ["config", "file-manifest.json"] =
        some (Obj.file "M") ∧
      (main ["--reset"] (some manifestSrc) exampleDest).fs ["secret.json"] = none ∧
      (main ["--reset"] (some manifestSrc) exampleDest).fs [".codeforge-preserve"] = none :=
  ⟨(C9_reset_verbatim manifestSrc (by decide)).1 ["--reset"] exampleDest (by decide)
      (by decide) (by decide) (by decide),
    by decide, by decide, by decide⟩

/-! ## C10: the preserve-set loader -/

theorem keepLine_iff (l : List Char) :
    keepLine l = true ↔ String.mk l ≠ "" ∧ (String.mk l).data.head? ≠ some '#' := by
  have h1 : String.mk l ≠ "" ↔ l ≠ [] := by
    constructor
    · intro h e; exact h (by rw [e])
    · intro h e; exact h (congrArg String.data e)
  rw [h1]
  cases l with
  | nil => simp [keepLine]
  | cons c cs => simp [keepLine]

theorem mem_customEntries (text s : String) :
    s ∈ customEntries text ↔
      ∃ line ∈ text.data.splitOn '\n',
        String.mk (trim line) = s ∧ s ≠ "" ∧ s.data.head? ≠ some '#' := by
  simp only [customEntries, List.mem_map, List.mem_filter]
  constructor
  · rintro ⟨l, ⟨⟨line, hline, rfl⟩, hk⟩, rfl⟩
    exact ⟨line, hline, rfl, (keepLine_iff _).1 hk⟩
  · rintro ⟨line, hline, rfl, hk⟩
    exact ⟨trim line, ⟨⟨line, hline, rfl⟩, (keepLine_iff _).2 hk⟩, rfl⟩

theorem newSet_default : newSet (DEFAULT_PRESERVE ++ []) = DEFAULT_PRESERVE := by
  decide

/-- C10: `loadPreserveList` reads the destination's `.codeforge-preserve`.  If that path
is a directory the call throws.  Otherwise it returns a set `S` such that `s` is a member
of `S` exactly when `s` is one of the five entries of `DEFAULT_PRESERVE`, or the exclusion
file exists and some line of its text (split on the newline character) trims to `s`,
with `s` non-empty and not starting with `#`; without an exclusion file `S` is exactly
the built-in list; and no member of `S` is empty or starts with `#`. -/
theorem C10_loader (fs : FS) :
    (fs [".codeforge-preserve"] = some Obj.dir → loadPreserveList fs = .error Errno.EISDIR) ∧
      (fs [".codeforge-preserve"] ≠ some Obj.dir →
        ∃ S, loadPreserveList fs = .ok S ∧
          (∀ s, s ∈ S ↔ s ∈ DEFAULT_PRESERVE ∨
            ∃ text, fs [".codeforge-preserve"] = some (Obj.file text) ∧
              ∃ line ∈ text.data.splitOn '\n',
                String.mk (trim line) = s ∧ s ≠ "" ∧ s.data.head? ≠ some '#') ∧
          (fs [".codeforge-preserve"] = none → S = DEFAULT_PRESERVE) ∧
          (∀ s ∈ S, s ≠ "" ∧ s.data.head? ≠ some '#')) := by
  have hdef : ∀ s ∈ DEFAULT_PRESERVE, s ≠ "" ∧ s.data.head? ≠ some '#' := by decide
  refine ⟨fun h => by simp [loadPreserveList, h], fun hnd => ?_⟩
  cases hf : fs [".codeforge-preserve"] with
  | none =>
    refine ⟨DEFAULT_PRESERVE, by
      unfold loadPreserveList
      rw [hf, newSet_default], fun s => ?_,
      fun _ => rfl, hdef⟩
    simp
  | some o =>
    cases o with
    | dir => exact absurd hf hnd
    | file text =>
      refine ⟨newSet (DEFAULT_PRESERVE ++ customEntries text), by simp [loadPreserveList, hf],
        fun s => ?_, fun h => by simp at h, fun s hs => ?_⟩
      · rw [mem_newSet, List.mem_append, mem_customEntries]
        constructor
        · rintro (h | h)
          · exact Or.inl h
          · exact Or.inr ⟨text, rfl, h⟩
        · rintro (h | ⟨t, ht, h⟩)
          · exact Or.inl h
          · injection ht with ht
            injection ht with ht
            subst ht
            exact Or.inr h
      · rw [mem_newSet, List.mem_append, mem_customEntries] at hs
        rcases hs with h | ⟨_, _, _, h⟩
        · exact hdef s h
        · exact h

/-- C10 at the example destination, whose exclusion file holds the one line
`secret.json`: the loader returns the five built-in entries and `secret.json`, and the
characterisation of C10 holds for the returned set. -/
theorem C10_loader_witness :
    loadPreserveList exampleDest = .ok (DEFAULT_PRESERVE ++ ["secret.json"]) ∧
      ∃ S, loadPreserveList exampleDest = .ok S ∧
        (∀ s, s ∈ S ↔ s ∈ DEFAULT_PRESERVE ∨
          ∃ text, exampleDest [".codeforge-preserve"] = some (Obj.file text) ∧
            ∃ line ∈ text.data.splitOn '\n',
              String.mk (trim line) = s ∧ s ≠ "" ∧ s.data.head? ≠ some '#') ∧
        (exampleDest [".codeforge-preserve"] = none → S = DEFAULT_PRESERVE) ∧
        (∀ s ∈ S, s ≠ "" ∧ s.data.head? ≠ some '#') :=
  ⟨by decide, (C10_loader exampleDest).2 (by decide)⟩

/-! ## C12: the example scenario -/

/-- C12: with the package `{a.txt = "X", secret.json = "Y"}` and the destination
`{a.txt = "old", secret.json = "mine", .codeforge-preserve = "secret.json"}`, the update
(`loadPreserveList`, then `syncDirectory`; also through `main --force`) leaves
`a.txt = "X"`, `secret.json = "mine"`, `secret.json.codeforge-new = "Y"` and the exclusion
file unchanged, and returns `updated = 1`, `added = 0`, `preserved = 1`, `backedUp = 0`,
`preservedFiles = ["secret.json"]`. -/
theorem C12_example_scenario :
    loadPreserveList exampleDest = .ok (DEFAULT_PRESERVE ++ ["secret.json"]) ∧
      (update exampleSrc exampleDest).result =
        .ok { updated := 1, added := 0, preserved := 1, backedUp := 0,
              preservedFiles := ["secret.json"] } ∧
      (update exampleSrc exampleDest).fs ["a.txt"] = some (Obj.file "X") ∧
      (update exampleSrc exampleDest).fs ["secret.json"] = some (Obj.file "mine") ∧
      (update exampleSrc exampleDest).fs ["secret.json.codeforge-new"] = some (Obj.file "Y") ∧
      (update exampleSrc exampleDest).fs [".codeforge-preserve"] =
        some (Obj.file "secret.json") ∧
      (update exampleSrc exampleDest).fs [] = some Obj.dir ∧
      (main ["--force"] (some exampleSrc) exampleDest).exitCode = 0 ∧
      (main ["--force"] (some exampleSrc) exampleDest).stats =
        some { updated := 1, added := 0, preserved := 1, backedUp := 0,
               preservedFiles := ["secret.json"] } := by
  decide

/-! ## C13 and C14: mode dispatch -/

/-- C13: for every argument list without a help flag and every package tree, `main` runs
the one operation fixed by (destination exists, `--reset`, `--force`/`-f`): with the
destination absent the fresh install `copyDirectory`, whatever the flags; with the
destination present and `--reset` the wipe `rmSync` followed by `copyDirectory`, also
when `--force` is given; with the destination present, no `--reset` and `--force` or
`-f` the update (`loadPreserveList`, then `syncDirectory`), whose statistics it
surfaces; with the destination present and no flag it refuses: exit code 1 and the
destination as it was. -/
theorem C13_mode_dispatch (args : List String) (src : Entries) (fs : FS)
    (hh1 : "--help" ∉ args) (hh2 : "-h" ∉ args) :
    (fs [] = none →
        main args (some src) fs =
          ⟨(copyDirectory src [] fs).exitCode, (copyDirectory src [] fs).fs, none⟩) ∧
      (fs [] ≠ none → "--reset" ∈ args →
        main args (some src) fs =
          ⟨(copyDirectory src [] (rmSync fs [])).exitCode,
            (copyDirectory src [] (rmSync fs [])).fs, none⟩) ∧
      (fs [] ≠ none → "--reset" ∉ args → ("--force" ∈ args ∨ "-f" ∈ args) →
        main args (some src) fs =
          ⟨(update src fs).exitCode, (update src fs).fs, (update src fs).result.toOption⟩) ∧
      (fs [] ≠ none → "--reset" ∉ args → "--force" ∉ args → "-f" ∉ args →
        main args (some src) fs = ⟨1, fs, none⟩) := by
  have hcopy : ∀ o : Outcome Unit,
      (match o with
        | ⟨fs1, .error _⟩ => (⟨1, fs1, none⟩ : MainResult)
        | ⟨fs1, .ok ()⟩ => ⟨0, fs1, none⟩) = ⟨o.exitCode, o.fs, none⟩ := by
    intro o
    cases o with
    | mk f r => cases r <;> rfl
  have hupd : ∀ o : Outcome Stats,
      (match o with
        | ⟨fs1, .error _⟩ => (⟨1, fs1, none⟩ : MainResult)
        | ⟨fs1, .ok stats⟩ => ⟨0, fs1, some stats⟩) =
        ⟨o.exitCode, o.fs, o.result.toOption⟩ := by
    intro o
    cases o with
    | mk f r => cases r <;> rfl
  refine ⟨fun hno => ?_, fun hex hr => ?_, fun hex hr hf => ?_, fun hex hr hf1 hf2 => ?_⟩
  · have he : existsSync fs [] = false := by simp [existsSync, hno]
    simp only [main, hh1, hh2, or_self, if_false, he, Bool.false_eq_true]
    exact hcopy _
  · have he : existsSync fs [] = true := (existsSync_iff fs []).2 hex
    simp only [main, hh1, hh2, or_self, if_false, he, if_true, hr, decide_True]
    exact hcopy _
  · have he : existsSync fs [] = true := (existsSync_iff fs []).2 hex
    simp only [main, hh1, hh2, or_self, if_false, he, if_true, hr, decide_False,
      Bool.false_eq_true, hf, decide_True]
    exact hupd _
  · have he : existsSync fs [] = true := (existsSync_iff fs []).2 hex
    simp only [main, hh1, hh2, or_self, if_false, he, if_true, hr, decide_False,
      Bool.false_eq_true, hf1, hf2]

/-- C13 at concrete invocations on the example scenario: `--force` runs the update,
`--reset --force` wipes and copies, no flag refuses, and on an absent destination
`--force` is a fresh install. -/
theorem C13_mode_dispatch_witness :
    main ["--force"] (some exampleSrc) exampleDest =
        ⟨(update exampleSrc exampleDest).exitCode, (update exampleSrc exampleDest).fs,
          (update exampleSrc exampleDest).result.toOption⟩ ∧
      main ["--reset", "--force"] (some exampleSrc) exampleDest =
        ⟨(copyDirectory exampleSrc [] (rmSync exampleDest [])).exitCode,
          (copyDirectory exampleSrc [] (rmSync exampleDest [])).fs, none⟩ ∧
      main [] (some exampleSrc) exampleDest = ⟨1, exampleDest, none⟩ ∧
      main ["--force"] (some exampleSrc) FS.empty =
        ⟨(copyDirectory exampleSrc [] FS.empty).exitCode,
          (copyDirectory exampleSrc [] FS.empty).fs, none⟩ :=
  ⟨(C13_mode_dispatch ["--force"] exampleSrc exampleDest (by decide) (by decide)).2.2.1
      (by decide) (by decide) (by decide),
    (C13_mode_dispatch ["--reset", "--force"] exampleSrc exampleDest (by decide)
      (by decide)).2.1 (by decide) (by decide),
    (C13_mode_dispatch [] exampleSrc exampleDest (by decide) (by decide)).2.2.2
      (by decide) (by decide) (by decide) (by decide),
    (C13_mode_dispatch ["--force"] exampleSrc FS.empty (by decide) (by decide)).1 rfl⟩

/-- C14: whatever the arguments and the filesystem, a help flag makes `main` exit with
code 0; without one, a missing package source, or an existing destination with neither
`--force`/`-f` nor `--reset`, makes it exit with code 1; in all three cases the
destination is left exactly as it was, also when `--reset` is among the arguments. -/
theorem C14_non_mutating (args : List String) (pkg : Option Entries) (fs : FS) :
    (("--help" ∈ args ∨ "-h" ∈ args) → main args pkg fs = ⟨0, fs, none⟩) ∧
      (¬ ("--help" ∈ args ∨ "-h" ∈ args) → pkg = none → main args pkg fs = ⟨1, fs, none⟩) ∧
      (¬ ("--help" ∈ args ∨ "-h" ∈ args) → fs [] ≠ none → "--reset" ∉ args →
        "--force" ∉ args → "-f" ∉ args → main args pkg fs = ⟨1, fs, none⟩) := by
  refine ⟨fun hh => ?_, fun hh hp => ?_, fun hh hex hr hf1 hf2 => ?_⟩
  · simp only [main, hh, if_true]
  · subst hp
    simp only [main, hh, if_false]
  · have he : existsSync fs [] = true := (existsSync_iff fs []).2 hex
    cases pkg with
    | none => simp only [main, hh, if_false]
    | some src =>
      simp only [main, hh, if_false, he, if_true, hr, decide_False, Bool.false_eq_true, hf1,
        hf2, or_self]

/-- C14 at concrete invocations: `--reset --help` and `--reset` without a package source
leave the example destination as it is. -/
theorem C14_non_mutating_witness :
    main ["--reset", "--help"] (some exampleSrc) exampleDest = ⟨0, exampleDest, none⟩ ∧
      main ["--reset"] none exampleDest = ⟨1, exampleDest, none⟩ ∧
      main [] (some exampleSrc) exampleDest = ⟨1, exampleDest, none⟩ :=
  ⟨(C14_non_mutating ["--reset", "--help"] (some exampleSrc) exampleDest).1 (by decide),
    (C14_non_mutating ["--reset"] none exampleDest).2.1 (by decide) rfl,
    (C14_non_mutating [] (some exampleSrc) exampleDest).2.2 (by decide) (by decide)
      (by decide) (by decide) (by decide)⟩

/-! ## Induction along a run -/

/-- Induction along a completed run: a property of (steps done, tree, statistics) that
holds at the start and is kept by every completed step, taken at the state the run has
reached, holds at the end. -/
theorem runSteps_rec (S : List String) (L : List Step) (fs0 : FS) (st0 : Stats)
    (P : List Step → FS → Stats → Prop) (h0 : P [] fs0 st0)
    (hstep : ∀ pre s post fs stats fs1 stats1, L = pre ++ s :: post →
      runSteps S pre fs0 st0 = ⟨fs, .ok stats⟩ → P pre fs stats →
      runStep S s fs stats = ⟨fs1, .ok stats1⟩ → P (pre ++ [s]) fs1 stats1)
    (fs2 : FS) (stats2 : Stats) (hrun : runSteps S L fs0 st0 = ⟨fs2, .ok stats2⟩) :
    P L fs2 stats2 := by
  have key : ∀ (post pre : List Step) (fs : FS) (stats : Stats), L = pre ++ post →
      runSteps S pre fs0 st0 = ⟨fs, .ok stats⟩ → P pre fs stats →
      runSteps S post fs stats = ⟨fs2, .ok stats2⟩ → P L fs2 stats2 := by
    intro post
    induction post with
    | nil =>
      intro pre fs stats hL _ hP hr
      simp only [runSteps] at hr
      injection hr with h1 h2
      injection h2 with h2
      subst h1 h2
      rw [hL, List.append_nil]
      exact hP
    | cons s rest ih =>
      intro pre fs stats hL hpre hP hr
      simp only [runSteps] at hr
      cases h : runStep S s fs stats with
      | mk fs1 r =>
        rw [h] at hr
        cases r with
        | error e => simp at hr
        | ok stats1 =>
          refine ih (pre ++ [s]) fs1 stats1 (by rw [hL, List.append_assoc]; rfl) ?_
            (hstep pre s rest fs stats fs1 stats1 hL hpre hP h) hr
          rw [runSteps_append, hpre]
          simp only [runSteps, h]
  exact key L [] fs0 st0 rfl rfl h0 hrun

/-- Induction along a run, completed or not, for a property of the tree. -/
theorem runSteps_fs_rec (S : List String) (L : List Step) (fs0 : FS) (st0 : Stats)
    (Q : FS → Prop) (h0 : Q fs0)
    (hstep : ∀ pre s post fs stats, L = pre ++ s :: post →
      runSteps S pre fs0 st0 = ⟨fs, .ok stats⟩ → Q fs → Q (runStep S s fs stats).fs) :
    Q (runSteps S L fs0 st0).fs := by
  have key : ∀ (post pre : List Step) (fs : FS) (stats : Stats), L = pre ++ post →
      runSteps S pre fs0 st0 = ⟨fs, .ok stats⟩ → Q fs →
      Q (runSteps S post fs stats).fs := by
    intro post
    induction post with
    | nil => intro pre fs stats _ _ hQ; exact hQ
    | cons s rest ih =>
      intro pre fs stats hL hpre hQ
      have h1 := hstep pre s rest fs stats hL hpre hQ
      simp only [runSteps]
      cases h : runStep S s fs stats with
      | mk fs1 r =>
        rw [h] at h1
        cases r with
        | error e => exact h1
        | ok stats1 =>
          refine ih (pre ++ [s]) fs1 stats1 (by rw [hL, List.append_assoc]; rfl) ?_ h1
          rw [runSteps_append, hpre]
          simp only [runSteps, h]
  exact key L [] fs0 st0 rfl rfl h0

/-- A completed visit adds to the statistics what one of the four outcomes adds. -/
theorem walkFile_tally {S : List String} {f : PkgFile} {fs fs1 : FS} {stats stats1 : Stats}
    (h : walkFile S f.content f.destDir f.name f.rel fs stats = ⟨fs1, .ok stats1⟩) :
    ∃ t : Tag, stats1 = stats.tally f.rel t := by
  rcases walkFile_cases S f fs stats with
    ⟨_, _, ⟨e, h'⟩ | ⟨_, h'⟩ | ⟨u, e, _, h'⟩ | ⟨u, _, h'⟩⟩ | ⟨_, _, _, ⟨e, h'⟩ | h'⟩ |
      ⟨_, _, ⟨e, h'⟩ | h'⟩
  · simp [h'] at h
  · simp [h'] at h
  · simp [h'] at h
  · rw [h'] at h
    injection h with _ hs
    injection hs with hs
    exact ⟨Tag.BackedUp, hs.symm⟩
  · simp [h'] at h
  · rw [h'] at h
    injection h with _ hs
    injection hs with hs
    exact ⟨Tag.Preserved, hs.symm⟩
  · simp [h'] at h
  · rw [h'] at h
    injection h with _ hs
    injection hs with hs
    by_cases hn : fs f.destPath = none
    · rw [if_pos hn] at hs
      exact ⟨Tag.Added, hs.symm⟩
    · rw [if_neg hn] at hs
      exact ⟨Tag.Overwritten, hs.symm⟩

/-! ## C19: the counting invariant -/

/-- C19: the statistics returned by a completed `syncDirectory` satisfy
`updated + added + preserved =` the number of non-directory entries of the whole
package tree, and `backedUp ≤ updated`. -/
theorem C19_counting (src : Entries) (dest : FS) (S : List String) (fs2 : FS)
    (stats : Stats) (hrun : syncDirectory src dest S = ⟨fs2, .ok stats⟩) :
    stats.updated + stats.added + stats.preserved = (files src).length ∧
      stats.backedUp ≤ stats.updated := by
  rw [syncDirectory_eq_runSteps] at hrun
  have := runSteps_rec S _ dest Stats.zero
    (fun pre _ st => st.updated + st.added + st.preserved = (visited pre).length ∧
      st.backedUp ≤ st.updated)
    (by simp [Stats.zero, visited]) ?_ fs2 stats hrun
  · simpa [visited, files] using this
  · intro pre s post fs st fs1 st1 _ _ hP hs
    cases s with
    | mkdir d =>
      rw [(runStep_mkdir_ok hs).2]
      simpa [visited_append, visited] using hP
    | visit f =>
      simp only [runStep] at hs
      obtain ⟨t, ht⟩ := walkFile_tally hs
      subst ht
      obtain ⟨h1, h2⟩ := hP
      cases t <;> simp [Stats.tally, visited_append, visited] <;> omega

/-- C19 at the update of `manifestSrc` over an empty destination and then once more:
three files are counted in each run, as `0 + 3 + 0` and as `2 + 0 + 1`, and the one
back-up of the second run is also counted as updated. -/
theorem C19_counting_witness :
    (files manifestSrc).length = 3 ∧
      (2 + 0 + 1 = (files manifestSrc).length ∧ 1 ≤ 2) :=
  ⟨by decide,
    C19_counting manifestSrc (update manifestSrc emptyDirDest).fs
      (DEFAULT_PRESERVE ++ []) _ ⟨2, 1, 0, 1, ["config/file-manifest.json"]⟩
      (Outcome.eq_of_result (by decide))⟩

/-! ## C16: the back-up rule applies at the top level only -/

theorem relativePath_ne_empty (rb : String) {n : String} (hn : n ≠ "") :
    relativePath rb n ≠ "" := by
  unfold relativePath
  split
  · exact hn
  · intro h
    have := congrArg (fun s => s.data.length) h
    simp [String.data_append] at this

theorem relativePath_slash {rb : String} (n : String) (hrb : rb ≠ "") :
    '/' ∈ (relativePath rb n).data := by
  unfold relativePath
  rw [if_neg hrb]
  simp [String.data_append]

/-- Below a directory with a non-empty relative path every relative path has a `/`. -/
theorem steps_rel_sub (src : Entries) (base : Path) (rb : String) (hv : ValidNames src)
    (hrb : rb ≠ "") : ∀ f, Step.visit f ∈ steps src base rb → '/' ∈ f.rel.data := by
  induction src generalizing base rb with
  | nil => simp [steps]
  | file name content rest ih =>
    intro f hf
    simp only [steps, List.mem_cons] at hf
    rcases hf with h | h
    · injection h with h
      subst h
      exact relativePath_slash name hrb
    · exact ih base rb hv.2 hrb f h
  | dir name children rest ihc ihr =>
    intro f hf
    simp only [steps, List.mem_cons, List.mem_append] at hf
    rcases hf with h | h | h
    · cases h
    · exact ihc _ _ hv.2.1 (relativePath_ne_empty rb hv.1.1) f h
    · exact ihr base rb hv.2.2 hrb f h

/-- With valid names, the relative path of a file in a subdirectory has a `/`. -/
theorem steps_rel_nested (src : Entries) (base : Path) (hv : ValidNames src) :
    ∀ f, Step.visit f ∈ steps src base "" → f.destDir ≠ base → '/' ∈ f.rel.data := by
  induction src generalizing base with
  | nil => simp [steps]
  | file name content rest ih =>
    intro f hf hd
    simp only [steps, List.mem_cons] at hf
    rcases hf with h | h
    · injection h with h
      subst h
      exact absurd rfl hd
    · exact ih base hv.2 f h hd
  | dir name children rest _ ihr =>
    intro f hf hd
    simp only [steps, List.mem_cons, List.mem_append] at hf
    rcases hf with h | h | h
    · cases h
    · exact steps_rel_sub children _ _ hv.2.1 (relativePath_ne_empty "" hv.1.1) f h
    · exact ihr base hv.2.2 f h hd

/-- With valid names, a package file whose relative path is `devcontainer.json` is the
top-level file of that name. -/
theorem rel_devcontainer_top {src : Entries} (hv : ValidNames src) {f : PkgFile}
    (hf : f ∈ files src) (hr : f.rel = "devcontainer.json") :
    f.destPath = ["devcontainer.json"] := by
  have hd : f.destDir = [] := by
    by_contra hne
    have := steps_rel_nested src [] hv f (mem_visited.1 hf) hne
    rw [hr] at this
    revert this
    decide
  have hn := steps_top_level src [] "" f (mem_visited.1 hf) hd
  rw [hr] at hn
  have hn' : f.name = "devcontainer.json" := by
    rw [hn]; simp [relativePath]
  simp [PkgFile.destPath, hd, hn']

theorem length_le_one_of_nodup_const {α : Type} {l : List α} {a : α} (hnd : l.Nodup)
    (hall : ∀ x ∈ l, x = a) : l.length ≤ 1 := by
  cases l with
  | nil => simp
  | cons x t =>
    cases t with
    | nil => simp
    | cons y t' =>
      have hx := hall x (by simp)
      have hy := hall y (by simp)
      rw [List.nodup_cons] at hnd
      exact absurd (by rw [hx, hy]; simp) hnd.1

/-- C16: in a package tree with valid (non-empty, slash-free) and unique names, a file
in a subdirectory (in particular one named `devcontainer.json`) never has the relative
path `devcontainer.json`; the per-file policy never writes its `.bak` side-car and never
increments `backedUp` for it: it is handled by the preserve rule or by the default
overwrite/create rule.  Consequently every completed run returns `backedUp ≤ 1`. -/
theorem C16_top_level_only (src : Entries) (S : List String) (hv : ValidNames src)
    (hu : UniqueNames src) :
    (∀ f ∈ files src, f.destDir ≠ [] →
      f.rel ≠ "devcontainer.json" ∧
      ∀ (fs : FS) (stats : Stats),
        (walkFile S f.content f.destDir f.name f.rel fs stats).fs f.bakPath = fs f.bakPath ∧
        ∀ fs1 stats1, walkFile S f.content f.destDir f.name f.rel fs stats =
            ⟨fs1, .ok stats1⟩ →
          stats1.backedUp = stats.backedUp ∧
          (stats1 = stats.tally f.rel Tag.Preserved ∨ stats1 = stats.tally f.rel Tag.Added ∨
            stats1 = stats.tally f.rel Tag.Overwritten)) ∧
      (∀ (dest fs2 : FS) (stats : Stats), syncDirectory src dest S = ⟨fs2, .ok stats⟩ →
        stats.backedUp ≤ 1) := by
  refine ⟨fun f hf hd => ?_, fun dest fs2 stats hrun => ?_⟩
  · have hrel : f.rel ≠ "devcontainer.json" := by
      intro hr
      have := steps_rel_nested src [] hv f (mem_visited.1 hf) hd
      rw [hr] at this
      revert this
      decide
    refine ⟨hrel, fun fs stats => ⟨?_, fun fs1 stats1 hw => ?_⟩⟩
    · apply walkFile_frame
      simp only [Step.writes, not_or, not_and]
      exact ⟨f.bakPath_ne_destPath, fun _ h => f.bakPath_ne_newPath f h,
        fun hr _ => hrel hr⟩
    · rcases walkFile_cases S f fs stats with
        ⟨hr, _⟩ | ⟨_, _, _, ⟨e, h'⟩ | h'⟩ | ⟨_, _, ⟨e, h'⟩ | h'⟩
      · exact absurd hr hrel
      · simp [h'] at hw
      · rw [h'] at hw
        injection hw with _ hs
        injection hs with hs
        subst hs
        exact ⟨rfl, Or.inl rfl⟩
      · simp [h'] at hw
      · rw [h'] at hw
        injection hw with _ hs
        injection hs with hs
        subst hs
        by_cases hn : fs f.destPath = none
        · rw [if_pos hn]; exact ⟨rfl, Or.inr (Or.inl rfl)⟩
        · rw [if_neg hn]; exact ⟨rfl, Or.inr (Or.inr rfl)⟩
  · rw [syncDirectory_eq_runSteps] at hrun
    have hcount := runSteps_rec S _ dest Stats.zero
      (fun pre _ st => st.backedUp ≤
        ((visited pre).filter (fun f => decide (f.rel = "devcontainer.json"))).length)
      (by simp [Stats.zero, visited]) ?_ fs2 stats hrun
    · refine le_trans hcount ?_
      have hvis : visited (Step.mkdir [] :: steps src [] "") = files src := rfl
      rw [hvis]
      have hnd : (((files src).filter
          (fun f => decide (f.rel = "devcontainer.json"))).map PkgFile.destPath).Nodup :=
        (files_destPath_nodup hu).sublist (List.Sublist.map _ (List.filter_sublist _))
      have := length_le_one_of_nodup_const hnd (a := ["devcontainer.json"]) (by
        intro x hx
        obtain ⟨f, hf, rfl⟩ := List.mem_map.1 hx
        rw [List.mem_filter] at hf
        exact rel_devcontainer_top hv hf.1 (by simpa using hf.2))
      simpa using this
    · intro pre s post fs st fs1 st1 _ _ hP hs
      cases s with
      | mkdir d =>
        rw [(runStep_mkdir_ok hs).2]
        simpa [visited_append, visited] using hP
      | visit f =>
        simp only [runStep] at hs
        simp only [visited_append, visited, List.filter_append, List.length_append]
        rcases walkFile_cases S f fs st with
          ⟨hr, _, ⟨e, h'⟩ | ⟨_, h'⟩ | ⟨u, e, _, h'⟩ | ⟨u, _, h'⟩⟩ | ⟨_, _, _, ⟨e, h'⟩ | h'⟩ |
            ⟨_, _, ⟨e, h'⟩ | h'⟩
        · simp [h'] at hs
        · simp [h'] at hs
        · simp [h'] at hs
        · rw [h'] at hs
          injection hs with _ hs
          injection hs with hs
          subst hs
          simp only [List.filter_cons, hr, decide_True, if_true, List.filter_nil,
            List.length_singleton]
          omega
        · simp [h'] at hs
        · rw [h'] at hs
          injection hs with _ hs
          injection hs with hs
          subst hs
          exact le_trans hP (Nat.le_add_right _ _)
        · simp [h'] at hs
        · rw [h'] at hs
          injection hs with _ hs
          injection hs with hs
          subst hs
          have : (if fs f.destPath = none then { st with added := st.added + 1 }
              else { st with updated := st.updated + 1 } : Stats).backedUp = st.backedUp := by
            split <;> rfl
          rw [this]
          exact le_trans hP (Nat.le_add_right _ _)

/-- C16 at a package with `devcontainer.json` at the top level and in `sub`, both
already at the destination: one back-up, and `sub/devcontainer.json` is overwritten
without a `.bak`. -/
theorem C16_top_level_only_witness :
    (syncDirectory nestedContainerSrc nestedContainerDest DEFAULT_PRESERVE).result =
        .ok ⟨2, 0, 0, 1, []⟩ ∧
      (syncDirectory nestedContainerSrc nestedContainerDest DEFAULT_PRESERVE).fs
        ["sub", "devcontainer.json.bak"] = none ∧
      (1 : Nat) ≤ 1 ∧
      "sub/devcontainer.json" ≠ "devcontainer.json" :=
  have h := C16_top_level_only nestedContainerSrc DEFAULT_PRESERVE (by decide) (by decide)
  ⟨by decide, by decide,
    h.2 nestedContainerDest _ ⟨2, 0, 0, 1, []⟩ (Outcome.eq_of_result (by decide)),
    (h.1 ⟨["sub"], "devcontainer.json", "sub/devcontainer.json", "N"⟩ (by decide)
      (by decide)).1⟩

/-! ## C11: membership in the preserve set -/

theorem tally_injective (stats : Stats) (rel : String) {t u : Tag}
    (h : stats.tally rel t = stats.tally rel u) : t = u := by
  have h1 := congrArg Stats.updated h
  have h2 := congrArg Stats.added h
  have h3 := congrArg Stats.preserved h
  have h4 := congrArg Stats.backedUp h
  cases t <;> cases u <;> simp [Stats.tally] at h1 h2 h3 h4 ⊢

/-- The members of a loaded preserve set: the built-in entries and the custom entries
of the exclusion file. -/
theorem mem_loaded {fs : FS} {S : List String} (h : loadPreserveList fs = .ok S) (s : String) :
    s ∈ S ↔ s ∈ DEFAULT_PRESERVE ∨
      ∃ text, fs [".codeforge-preserve"] = some (Obj.file text) ∧ s ∈ customEntries text := by
  unfold loadPreserveList at h
  split at h
  · rename_i hf
    injection h with h
    subst h
    rw [mem_newSet]
    simp [hf]
  · rename_i text hf
    injection h with h
    subst h
    rw [mem_newSet, List.mem_append]
    constructor
    · rintro (h | h)
      · exact Or.inl h
      · exact Or.inr ⟨text, hf, h⟩
    · rintro (h | ⟨t, ht, h⟩)
      · exact Or.inl h
      · rw [hf] at ht
        injection ht with ht
        injection ht with ht
        subst ht
        exact Or.inr h
  · cases h

/-- C11, as stated, fails: the exclusion-file line `config\custom.json` does not make
the walk preserve the existing `config/custom.json`.  The entry is kept with its
backslash, the relative path of the file is built with `/`, the two strings differ, and
the file is overwritten with the package version; nothing is staged. -/
theorem C11_counterexample :
    loadPreserveList backslashDest = .ok (DEFAULT_PRESERVE ++ ["config\\custom.json"]) ∧
      (files customSrc).map PkgFile.rel = ["config/custom.json"] ∧
      (update customSrc backslashDest).result = .ok ⟨1, 0, 0, 0, []⟩ ∧
      (update customSrc backslashDest).fs ["config", "custom.json"] = some (Obj.file "P") ∧
      (update customSrc backslashDest).fs ["config", "custom.json.codeforge-new"] = none := by
  decide

/-- C11 (amended): membership is exact string equality, without any normalisation of
separators.  For a preserve set `S` loaded from a destination and a completed visit of
a package file, the file is treated as preserved exactly when its relative path (built
by the walk with `/`) is, character for character, one of the built-in entries or the
trimmed text of a line of the exclusion file that is neither empty nor a comment, the
file exists at the destination when visited, and it is not `devcontainer.json`; being
treated as preserved means that the package version is staged at
`destPath + ".codeforge-new"` and nothing else is written. -/
theorem C11_exact_membership (fs : FS) (S : List String) (f : PkgFile) (fs0 fs1 : FS)
    (stats stats1 : Stats) (hS : loadPreserveList fs = .ok S)
    (hw : walkFile S f.content f.destDir f.name f.rel fs0 stats = ⟨fs1, .ok stats1⟩) :
    (stats1 = stats.tally f.rel Tag.Preserved ↔
        (f.rel ∈ DEFAULT_PRESERVE ∨
          ∃ text, fs [".codeforge-preserve"] = some (Obj.file text) ∧
            ∃ line ∈ text.data.splitOn '\n',
              String.mk (trim line) = f.rel ∧ f.rel ≠ "" ∧ f.rel.data.head? ≠ some '#') ∧
        fs0 f.destPath ≠ none ∧ f.rel ≠ "devcontainer.json") ∧
      (stats1 = stats.tally f.rel Tag.Preserved → fs1 = fs0.write f.newPath f.content) := by
  have hmem : f.rel ∈ S ↔ (f.rel ∈ DEFAULT_PRESERVE ∨
      ∃ text, fs [".codeforge-preserve"] = some (Obj.file text) ∧
        ∃ line ∈ text.data.splitOn '\n',
          String.mk (trim line) = f.rel ∧ f.rel ≠ "" ∧ f.rel.data.head? ≠ some '#') := by
    rw [mem_loaded hS]
    simp only [mem_customEntries]
  rw [← hmem]
  rcases walkFile_cases S f fs0 stats with
    ⟨hr, hex, ⟨e, h⟩ | ⟨_, h⟩ | ⟨u, e, _, h⟩ | ⟨u, _, h⟩⟩ | ⟨hA, hr, hex, ⟨e, h⟩ | h⟩ |
      ⟨hA, hB, ⟨e, h⟩ | h⟩
  · simp [h] at hw
  · simp [h] at hw
  · simp [h] at hw
  · rw [h] at hw
    injection hw with _ hs
    injection hs with hs
    have hne : stats1 ≠ stats.tally f.rel Tag.Preserved := by
      intro heq
      have := tally_injective stats f.rel (t := Tag.BackedUp) (u := Tag.Preserved)
        (hs.trans heq)
      cases this
    exact ⟨⟨fun h1 => absurd h1 hne, fun h1 => absurd hr h1.2.2⟩, fun h1 => absurd h1 hne⟩
  · simp [h] at hw
  · rw [h] at hw
    injection hw with hfs hs
    injection hs with hs
    exact ⟨⟨fun _ => ⟨hr, hex, fun heq => hA ⟨heq, hex⟩⟩, fun _ => hs.symm⟩,
      fun _ => hfs.symm⟩
  · simp [h] at hw
  · rw [h] at hw
    injection hw with _ hs
    injection hs with hs
    have hne : stats1 ≠ stats.tally f.rel Tag.Preserved := by
      intro heq
      by_cases hn : fs0 f.destPath = none
      · rw [if_pos hn] at hs
        have := tally_injective stats f.rel (t := Tag.Added) (u := Tag.Preserved)
          (hs.trans heq)
        cases this
      · rw [if_neg hn] at hs
        have := tally_injective stats f.rel (t := Tag.Overwritten) (u := Tag.Preserved)
          (hs.trans heq)
        cases this
    exact ⟨⟨fun h1 => absurd h1 hne, fun h1 => absurd ⟨h1.1, h1.2.1⟩ hB⟩,
      fun h1 => absurd h1 hne⟩

/-- C11 (amended) at the example scenario: `secret.json` equals the line of the
exclusion file character for character, exists and is not `devcontainer.json`, and is
treated as preserved. -/
theorem C11_exact_membership_witness :
    ((⟨0, 1, 0, 0, ["secret.json"]⟩ : Stats) = Stats.zero.tally "secret.json" Tag.Preserved ↔
        ("secret.json" ∈ DEFAULT_PRESERVE ∨
          ∃ text, exampleDest [".codeforge-preserve"] = some (Obj.file text) ∧
            ∃ line ∈ text.data.splitOn '\n',
              String.mk (trim line) = "secret.json" ∧ "secret.json" ≠ "" ∧
                "secret.json".data.head? ≠ some '#') ∧
        exampleDest ["secret.json"] ≠ none ∧ "secret.json" ≠ "devcontainer.json") ∧
      ((⟨0, 1, 0, 0, ["secret.json"]⟩ : Stats) = Stats.zero.tally "secret.json" Tag.Preserved →
        (walkFile (DEFAULT_PRESERVE ++ ["secret.json"]) "Y" [] "secret.json" "secret.json"
            exampleDest Stats.zero).fs =
          exampleDest.write ["secret.json.codeforge-new"] "Y") :=
  C11_exact_membership exampleDest (DEFAULT_PRESERVE ++ ["secret.json"])
    ⟨[], "secret.json", "secret.json", "Y"⟩ exampleDest _ Stats.zero
    ⟨0, 1, 0, 0, ["secret.json"]⟩ (by decide) (Outcome.eq_of_result (by decide))

/-! ## C18: the statistics do not depend on contents -/

theorem FS.shape_ofList (l : List (Path × Obj)) :
    (FS.ofList l).shape = FS.ofList (l.map fun x => (x.1, x.2.shape)) := by
  funext q
  induction l with
  | nil => rfl
  | cons x t ih =>
    simp only [FS.shape, FS.ofList, List.lookup, List.map_cons] at ih ⊢
    cases h : q == x.1 with
    | true => rfl
    | false => exact ih

theorem existsSync_shape (fs : FS) (p : Path) : existsSync fs.shape p = existsSync fs p := by
  simp [existsSync, FS.shape]

theorem isFile_shape (fs : FS) (q : Path) : Obj.isFile (fs.shape q) = Obj.isFile (fs q) := by
  unfold FS.shape
  cases h : fs q with
  | none => rfl
  | some o => cases o <;> rfl

theorem FS.shape_write (fs : FS) (p : Path) (c : String) :
    (fs.write p c).shape = fs.shape.write p "" := by
  funext q
  unfold FS.shape FS.write
  split <;> rfl

theorem FS.shape_mkdirp (fs : FS) (p : Path) : (fs.mkdirp p).shape = fs.shape.mkdirp p := by
  funext q
  unfold FS.shape FS.mkdirp
  split <;> rfl

theorem mkdirSync_shape (fs : FS) (p : Path) :
    mkdirSync fs.shape p = (mkdirSync fs p).map FS.shape := by
  unfold mkdirSync
  simp only [isFile_shape]
  split
  · rfl
  · split
    · rfl
    · simp [Except.map, FS.shape_mkdirp]

theorem ensureDir_shape (fs : FS) (p : Path) :
    ensureDir fs.shape p = (ensureDir fs p).map FS.shape := by
  unfold ensureDir
  rw [existsSync_shape]
  split
  · rfl
  · exact mkdirSync_shape fs p

theorem copyFromPackage_shape (fs : FS) (p : Path) (c : String) :
    copyFromPackage fs.shape p "" = (copyFromPackage fs p c).map FS.shape := by
  unfold copyFromPackage
  have h1 : fs.shape p.dropLast = (fs p.dropLast).map Obj.shape := rfl
  have h2 : fs.shape p = (fs p).map Obj.shape := rfl
  rw [h1, h2]
  cases hd : fs p.dropLast with
  | none => rfl
  | some o =>
    cases o with
    | file x => rfl
    | dir =>
      cases hp : fs p with
      | none => simp [Except.map, FS.shape_write, Obj.shape]
      | some o2 =>
        cases o2 with
        | file y => simp [Except.map, FS.shape_write, Obj.shape]
        | dir => rfl

theorem FS.shape_remove (fs : FS) (p : Path) : (fs.remove p).shape = fs.shape.remove p := by
  funext q
  unfold FS.shape FS.remove
  split <;> rfl

theorem copyFileSync_shape (fs : FS) (a b : Path) :
    copyFileSync fs.shape a b =
      ⟨(copyFileSync fs a b).fs.shape, (copyFileSync fs a b).result⟩ := by
  unfold copyFileSync
  have h1 : fs.shape a = (fs a).map Obj.shape := rfl
  have h2 : fs.shape b.dropLast = (fs b.dropLast).map Obj.shape := rfl
  have h3 : fs.shape b = (fs b).map Obj.shape := rfl
  rw [h1]
  cases ha : fs a with
  | none => rfl
  | some o =>
    cases o with
    | dir =>
      simp only [Option.map, Obj.shape]
      rw [h2]
      cases hd : fs b.dropLast with
      | none => rfl
      | some o1 =>
        cases o1 with
        | file x => rfl
        | dir =>
          simp only [Option.map, Obj.shape]
          rw [h3]
          cases hb : fs b with
          | none => simp [FS.shape_remove]
          | some o2 =>
            cases o2 with
            | file y => simp [FS.shape_remove, Obj.shape]
            | dir => rfl
    | file c =>
      simp only [Option.map, Obj.shape]
      rw [copyFromPackage_shape fs b c]
      cases h : copyFromPackage fs b c with
      | error e => rfl
      | ok fs1 => rfl

/-- The per-file policy on trees without contents: the same statistics or the same
error, and the tree it leaves is the one the policy leaves with contents, forgotten. -/
theorem walkFile_shape (S : List String) (c : String) (d : Path) (n r : String) (fs : FS)
    (stats : Stats) :
    walkFile S "" d n r fs.shape stats =
      ⟨(walkFile S c d n r fs stats).fs.shape, (walkFile S c d n r fs stats).result⟩ := by
  unfold walkFile
  simp only [existsSync_shape]
  split
  · rw [copyFileSync_shape]
    cases h0 : copyFileSync fs (d ++ [n]) (d ++ [n ++ ".bak"]) with
    | mk fs1 r0 =>
      cases r0 with
      | error e => rfl
      | ok x =>
        cases x
        simp only
        rw [copyFromPackage_shape fs1 (d ++ [n]) c]
        cases h1 : copyFromPackage fs1 (d ++ [n]) c with
        | error e => rfl
        | ok fs2 => rfl
  · split
    · rw [copyFromPackage_shape fs _ c]
      cases h1 : copyFromPackage fs (d ++ [n ++ ".codeforge-new"]) c with
      | error e => rfl
      | ok fs1 => rfl
    · rw [copyFromPackage_shape fs _ c]
      cases h1 : copyFromPackage fs (d ++ [n]) c with
      | error e => rfl
      | ok fs1 =>
        simp only [Except.map]
        split <;> rfl

theorem walkLoop_shape (S : List String) (src : Entries) (d : Path) (r : String) (fs : FS)
    (stats : Stats) :
    walkLoop S src.shape d r fs.shape stats =
      ⟨(walkLoop S src d r fs stats).fs.shape, (walkLoop S src d r fs stats).result⟩ := by
  induction src generalizing d r fs stats with
  | nil => rfl
  | file name content rest ih =>
    simp only [Entries.shape, walkLoop]
    rw [walkFile_shape S content]
    cases h : walkFile S content d name (relativePath r name) fs stats with
    | mk fs1 res =>
      cases res with
      | error e => rfl
      | ok stats1 => exact ih d r fs1 stats1
  | dir name children rest ihc ihr =>
    simp only [Entries.shape, walkLoop]
    rw [ensureDir_shape]
    cases h : ensureDir fs (d ++ [name]) with
    | error e => rfl
    | ok fs1 =>
      simp only [Except.map]
      rw [ihc]
      cases h2 : walkLoop S children (d ++ [name]) (relativePath r name) fs1 stats with
      | mk fs2 res =>
        cases res with
        | error e => rfl
        | ok stats2 => exact ihr d r fs2 stats2

theorem syncDirectory_shape (src : Entries) (fs : FS) (S : List String) :
    syncDirectory src.shape fs.shape S =
      ⟨(syncDirectory src fs S).fs.shape, (syncDirectory src fs S).result⟩ := by
  simp only [syncDirectory, walk]
  rw [ensureDir_shape]
  cases h : ensureDir fs [] with
  | error e => rfl
  | ok fs1 => exact walkLoop_shape S src [] "" fs1 Stats.zero

/-- C18: for every preserve set, two runs of `syncDirectory` on package trees with the
same directory and file paths (listed in the same order) and destination trees with the
same directory and file paths end alike whatever the contents are: both return the same
statistics (`updated`, `added`, `preserved`, `backedUp`, `preservedFiles`) or both throw
the same error, and they leave trees with the same paths.  In particular a destination
file that already equals the package version, under the default rule, is written again
and counted in `updated`. -/
theorem C18_not_content_aware (src1 src2 : Entries) (dest1 dest2 : FS) (S : List String)
    (hsrc : src1.shape = src2.shape) (hdest : dest1.shape = dest2.shape) :
    (syncDirectory src1 dest1 S).result = (syncDirectory src2 dest2 S).result ∧
      (syncDirectory src1 dest1 S).fs.shape = (syncDirectory src2 dest2 S).fs.shape ∧
      (∀ (f : PkgFile) (fs : FS) (stats : Stats), f.rel ∉ S → f.rel ≠ "devcontainer.json" →
        fs f.destPath = some (Obj.file f.content) → fs f.destDir = some Obj.dir →
        walkFile S f.content f.destDir f.name f.rel fs stats =
          ⟨fs.write f.destPath f.content,
            .ok { stats with updated := stats.updated + 1 }⟩) := by
  have h1 := syncDirectory_shape src1 dest1 S
  have h2 := syncDirectory_shape src2 dest2 S
  rw [hsrc, hdest, h2] at h1
  injection h1 with hfs hres
  refine ⟨hres.symm, hfs.symm, fun f fs stats hS hdc hfile hdir => ?_⟩
  have hex : fs f.destPath ≠ none := by rw [hfile]; simp
  have hcopy : copyFromPackage fs f.destPath f.content = .ok (fs.write f.destPath f.content) :=
    copyFromPackage_succeeds f.content
      (by simpa [PkgFile.destPath] using hdir) (by rw [hfile]; simp)
  rcases walkFile_cases S f fs stats with ⟨hr, _⟩ | ⟨_, hr, _⟩ | ⟨_, _, ⟨e, h⟩ | h⟩
  · exact absurd hr hdc
  · exact absurd hr hS
  · exfalso
    unfold walkFile at h
    rw [if_neg (fun hc => hdc hc.1), if_neg (fun hc => hS hc.1)] at h
    simp only [PkgFile.destPath] at hcopy
    rw [hcopy] at h
    simp only at h
    split at h <;> simp at h
  · rw [h, if_neg hex]

/-- C18 at the example scenario and a second pair of trees of the same shape with other
contents (there `a.txt` already equals the package version): both runs return
`updated = 1`, `preserved = 1`. -/
theorem C18_not_content_aware_witness :
    (syncDirectory exampleSrc exampleDest (DEFAULT_PRESERVE ++ ["secret.json"])).result =
        .ok ⟨1, 1, 0, 0, ["secret.json"]⟩ ∧
      (syncDirectory exampleSrc exampleDest (DEFAULT_PRESERVE ++ ["secret.json"])).result =
        (syncDirectory exampleSrc2 exampleDest2 (DEFAULT_PRESERVE ++ ["secret.json"])).result :=
  ⟨by decide,
    (C18_not_content_aware exampleSrc exampleSrc2 exampleDest exampleDest2
      (DEFAULT_PRESERVE ++ ["secret.json"]) (by decide)
      (by
        unfold exampleDest exampleDest2
        rw [FS.shape_ofList, FS.shape_ofList]
        rfl)).1⟩

/-! ## Relative paths determine destination paths -/

theorem relOf_data (rb : String) (t : Path) (hrb : rb ≠ "") :
    (relOf rb t).data = rb.data ++ slashed t := by
  induction t generalizing rb with
  | nil => simp [relOf, slashed]
  | cons n t ih =>
    have hne : relativePath rb n ≠ "" := by
      unfold relativePath
      rw [if_neg hrb]
      intro h
      have := congrArg (fun s => s.data.length) h
      simp [String.data_append] at this
    have := ih (relativePath rb n) hne
    simp only [relOf, List.foldl_cons] at this ⊢
    rw [this]
    simp [relativePath, hrb, String.data_append, slashed]

theorem relOf_cons_data (n : String) (t : Path) (hn : n ≠ "") :
    (relOf "" (n :: t)).data = n.data ++ slashed t := by
  have h : relOf "" (n :: t) = relOf n t := by
    simp [relOf, relativePath]
  rw [h, relOf_data n t hn]

theorem split_at_slash (a b r1 r2 : List Char) (ha : '/' ∉ a) (hb : '/' ∉ b)
    (h1 : r1 = [] ∨ ∃ r, r1 = '/' :: r) (h2 : r2 = [] ∨ ∃ r, r2 = '/' :: r)
    (h : a ++ r1 = b ++ r2) : a = b ∧ r1 = r2 := by
  induction a generalizing b with
  | nil =>
    cases b with
    | nil => exact ⟨rfl, by simpa using h⟩
    | cons y b' =>
      exfalso
      simp only [List.nil_append, List.cons_append] at h
      rcases h1 with h1 | ⟨r, h1⟩
      · rw [h1] at h; cases h
      · rw [h1] at h
        injection h with hy _
        exact hb (by rw [← hy]; simp)
  | cons x a' ih =>
    cases b with
    | nil =>
      exfalso
      simp only [List.nil_append, List.cons_append] at h
      rcases h2 with h2 | ⟨r, h2⟩
      · rw [h2] at h; cases h
      · rw [h2] at h
        injection h with hx _
        exact ha (by rw [hx]; simp)
    | cons y b' =>
      simp only [List.cons_append, List.cons.injEq] at h
      obtain ⟨hxy, h⟩ := h
      have := ih b' (fun hm => ha (List.mem_cons_of_mem _ hm))
        (fun hm => hb (List.mem_cons_of_mem _ hm)) h
      exact ⟨by rw [hxy, this.1], this.2⟩

theorem slashed_shape (t : Path) : slashed t = [] ∨ ∃ r, slashed t = '/' :: r := by
  cases t with
  | nil => left; rfl
  | cons n t => right; exact ⟨n.data ++ slashed t, by simp [slashed]⟩

theorem slashed_injective (t1 t2 : Path) (h1 : ∀ n ∈ t1, '/' ∉ n.data)
    (h2 : ∀ n ∈ t2, '/' ∉ n.data) (h : slashed t1 = slashed t2) : t1 = t2 := by
  induction t1 generalizing t2 with
  | nil =>
    cases t2 with
    | nil => rfl
    | cons m t2 => simp [slashed] at h
  | cons n t1 ih =>
    cases t2 with
    | nil => simp [slashed] at h
    | cons m t2 =>
      have h' : n.data ++ slashed t1 = m.data ++ slashed t2 := by
        simpa [slashed] using h
      obtain ⟨e1, e2⟩ := split_at_slash _ _ _ _ (h1 n (by simp)) (h2 m (by simp))
        (slashed_shape t1) (slashed_shape t2) h'
      rw [String.ext e1, ih t2 (fun x hx => h1 x (List.mem_cons_of_mem _ hx))
        (fun x hx => h2 x (List.mem_cons_of_mem _ hx)) e2]

/-- With valid names, components are recovered from the relative path. -/
theorem relOf_injective (t1 t2 : Path) (h1 : ∀ n ∈ t1, ValidName n)
    (h2 : ∀ n ∈ t2, ValidName n) (hne1 : t1 ≠ []) (hne2 : t2 ≠ [])
    (h : relOf "" t1 = relOf "" t2) : t1 = t2 := by
  cases t1 with
  | nil => exact absurd rfl hne1
  | cons n t1 =>
    cases t2 with
    | nil => exact absurd rfl hne2
    | cons m t2 =>
      have hd := congrArg String.data h
      rw [relOf_cons_data n t1 (h1 n (by simp)).1, relOf_cons_data m t2 (h2 m (by simp)).1] at hd
      obtain ⟨e1, e2⟩ := split_at_slash _ _ _ _ (h1 n (by simp)).2 (h2 m (by simp)).2
        (slashed_shape t1) (slashed_shape t2) hd
      rw [String.ext e1, slashed_injective t1 t2
        (fun x hx => (h1 x (List.mem_cons_of_mem _ hx)).2)
        (fun x hx => (h2 x (List.mem_cons_of_mem _ hx)).2) e2]

/-- The relative path of a visited file is the one built from the components of its
destination path below the directory the loop runs in. -/
theorem steps_rel (src : Entries) (base : Path) (rb : String) (hv : ValidNames src) :
    ∀ f, Step.visit f ∈ steps src base rb →
      ∃ t, f.destPath = base ++ t ∧ f.rel = relOf rb t ∧ t ≠ [] ∧ ∀ n ∈ t, ValidName n := by
  induction src generalizing base rb with
  | nil => simp [steps]
  | file name content rest ih =>
    intro f hf
    simp only [steps, List.mem_cons] at hf
    rcases hf with h | h
    · injection h with h
      subst h
      exact ⟨[name], rfl, rfl, by simp, by simpa using hv.1⟩
    · exact ih base rb hv.2 f h
  | dir name children rest ihc ihr =>
    intro f hf
    simp only [steps, List.mem_cons, List.mem_append] at hf
    rcases hf with h | h | h
    · cases h
    · obtain ⟨t, h1, h2, _, h4⟩ := ihc (base ++ [name]) _ hv.2.1 f h
      refine ⟨name :: t, by simp [h1], by simpa [relOf] using h2, by simp, ?_⟩
      intro n hn
      rcases List.mem_cons.1 hn with rfl | hn
      · exact hv.1
      · exact h4 n hn
    · exact ihr base rb hv.2.2 f h

/-- With valid names, two package files with the same relative path have the same
destination path. -/
theorem files_rel_injective {src : Entries} (hv : ValidNames src) {f g : PkgFile}
    (hf : f ∈ files src) (hg : g ∈ files src) (h : f.rel = g.rel) :
    f.destPath = g.destPath := by
  obtain ⟨t1, a1, b1, c1, d1⟩ := steps_rel src [] "" hv f (mem_visited.1 hf)
  obtain ⟨t2, a2, b2, c2, d2⟩ := steps_rel src [] "" hv g (mem_visited.1 hg)
  rw [a1, a2, relOf_injective t1 t2 d1 d2 c1 c2 (by rw [← b1, ← b2, h])]

/-! ## C15: the list of preserved files -/

theorem not_atSideCar {src : Entries} {S : List String} {f : PkgFile}
    (h : ¬ AtSideCar src S f) :
    ∀ g ∈ files src, (g.rel ∈ S → g.newPath ≠ f.destPath) ∧
      (g.rel = "devcontainer.json" → g.bakPath ≠ f.destPath) :=
  fun g hg => ⟨fun hr he => h ⟨g, hg, Or.inl ⟨hr, he⟩⟩,
    fun hr he => h ⟨g, hg, Or.inr ⟨hr, he⟩⟩⟩

/-- When the walk reaches a package file whose path is no side-car path of the run, the
file is at the destination exactly as it was before the run. -/
theorem visit_state {src : Entries} {dest fs : FS} {S : List String} {stats : Stats}
    (hu : UniqueNames src) {pre post : List Step} {f : PkgFile}
    (hsplit : Step.mkdir [] :: steps src [] "" = pre ++ Step.visit f :: post)
    (hpre : runSteps S pre dest Stats.zero = ⟨fs, .ok stats⟩)
    (hclear : ¬ AtSideCar src S f) : fs f.destPath = dest f.destPath := by
  have hd := others_spare_destPath (S := S) hu hsplit (not_atSideCar hclear)
  have := runSteps_untouched S pre dest Stats.zero f.destPath
    (fun s hs => hd s (List.mem_append_left _ hs))
  rw [hpre] at this
  exact this

/-- C15, as stated, fails: `devcontainer.json.bak` is listed in `preservedFiles` although
it did not exist at the destination before the run; the back-up of `devcontainer.json`
created it before the walk reached the package file of that name. -/
theorem C15_counterexample :
    loadPreserveList listedBakDest = .ok (DEFAULT_PRESERVE ++ ["devcontainer.json.bak"]) ∧
      listedBakDest ["devcontainer.json.bak"] = none ∧
      (update shipsBakSrc listedBakDest).result =
        .ok ⟨1, 1, 0, 1, ["devcontainer.json.bak"]⟩ ∧
      (update shipsBakSrc listedBakDest).fs ["devcontainer.json.bak.codeforge-new"] =
        some (Obj.file "Q") := by
  decide

/-- C15 (amended): let the package be a directory tree with valid and unique names in
which no file of the preserve set sits at a side-car path of the run.  After a completed
`syncDirectory`, `preservedFiles` lists, in the order of the walk, the relative paths of
exactly the package files that are in the preserve set, are not `devcontainer.json` and
existed at the destination before the run; each is listed once; `preserved` is the
length of the list; and when the walk visits a package file it stages
`destPath + ".codeforge-new"` (and writes nothing else) if the file is listed, and leaves
that path as it is if the file is not listed. -/
theorem C15_preserved_list (src : Entries) (dest : FS) (S : List String) (fs2 : FS)
    (stats : Stats) (hu : UniqueNames src) (hv : ValidNames src)
    (hclear : ∀ f ∈ files src, f.rel ∈ S → ¬ AtSideCar src S f)
    (hrun : syncDirectory src dest S = ⟨fs2, .ok stats⟩) :
    stats.preservedFiles = ((files src).filter fun f =>
        decide (f.rel ∈ S ∧ f.rel ≠ "devcontainer.json" ∧ dest f.destPath ≠ none)).map
        PkgFile.rel ∧
      (∀ p, p ∈ stats.preservedFiles ↔
        ∃ f ∈ files src, f.rel = p ∧ p ∈ S ∧ p ≠ "devcontainer.json" ∧
          dest f.destPath ≠ none) ∧
      stats.preservedFiles.Nodup ∧
      stats.preserved = stats.preservedFiles.length ∧
      (∀ f ∈ files src, ∀ fs0 stats0 fs1 stats1, Visit src dest S f fs0 stats0 fs1 stats1 →
        (f.rel ∈ stats.preservedFiles → fs1 = fs0.write f.newPath f.content) ∧
        (f.rel ∉ stats.preservedFiles → fs1 f.newPath = fs0 f.newPath)) := by
  have hrun' := hrun
  rw [syncDirectory_eq_runSteps] at hrun'
  have hvis : visited (Step.mkdir [] :: steps src [] "") = files src := rfl
  -- the list, by induction along the run
  have hlist := runSteps_rec S _ dest Stats.zero
    (fun pre _ st =>
      st.preservedFiles = ((visited pre).filter fun f =>
        decide (f.rel ∈ S ∧ f.rel ≠ "devcontainer.json" ∧ dest f.destPath ≠ none)).map
        PkgFile.rel ∧ st.preserved = st.preservedFiles.length)
    (by simp [Stats.zero, visited]) ?_ fs2 stats hrun'
  · dsimp only at hlist
    rw [hvis] at hlist
    obtain ⟨hl, hp⟩ := hlist
    have hmem : ∀ p, p ∈ stats.preservedFiles ↔
        ∃ f ∈ files src, f.rel = p ∧ p ∈ S ∧ p ≠ "devcontainer.json" ∧
          dest f.destPath ≠ none := by
      intro p
      rw [hl]
      simp only [List.mem_map, List.mem_filter, decide_eq_true_eq]
      constructor
      · rintro ⟨f, ⟨hf, h1, h2, h3⟩, rfl⟩
        exact ⟨f, hf, rfl, h1, h2, h3⟩
      · rintro ⟨f, hf, rfl, h1, h2, h3⟩
        exact ⟨f, ⟨hf, h1, h2, h3⟩, rfl⟩
    have hnd : stats.preservedFiles.Nodup := by
      rw [hl]
      have hfn : (files src).Nodup := List.Nodup.of_map _ (files_destPath_nodup hu)
      refine List.Nodup.map_on ?_ (hfn.filter _)
      intro x hx y hy hxy
      have hx' := (List.mem_filter.1 hx).1
      have hy' := (List.mem_filter.1 hy).1
      exact List.inj_on_of_nodup_map (files_destPath_nodup hu) hx' hy'
        (files_rel_injective hv hx' hy' hxy)
    refine ⟨hl, hmem, hnd, hp, ?_⟩
    intro f hf fs0 stats0 fs1 stats1 ⟨pre, post, hsplit, hpre, hw⟩
    have hstate : f.rel ∈ S → fs0 f.destPath = dest f.destPath := fun hr =>
      visit_state hu hsplit hpre (hclear f hf hr)
    have hin : f.rel ∈ stats.preservedFiles ↔
        f.rel ∈ S ∧ f.rel ≠ "devcontainer.json" ∧ dest f.destPath ≠ none := by
      rw [hmem]
      constructor
      · rintro ⟨g, hg, hrel, h1, h2, h3⟩
        have := files_rel_injective hv hg hf hrel
        exact ⟨h1, h2, this ▸ h3⟩
      · rintro ⟨h1, h2, h3⟩
        exact ⟨f, hf, rfl, h1, h2, h3⟩
    rcases walkFile_cases S f fs0 stats0 with
      ⟨hr, _, ⟨e, h⟩ | ⟨_, h⟩ | ⟨u, e, _, h⟩ | ⟨u, _, h⟩⟩ | ⟨hA, hr, hex, ⟨e, h⟩ | h⟩ |
        ⟨hA, hB, ⟨e, h⟩ | h⟩
    · simp [h] at hw
    · simp [h] at hw
    · simp [h] at hw
    · rw [h] at hw
      injection hw with hfs _
      refine ⟨fun hi => absurd hr (hin.1 hi).2.1, fun _ => ?_⟩
      rw [← hfs, FS.write_ne _ _ f.newPath_ne_destPath,
        FS.write_ne _ _ (f.bakPath_ne_newPath f).symm]
    · simp [h] at hw
    · rw [h] at hw
      injection hw with hfs _
      refine ⟨fun _ => hfs.symm, fun hni => ?_⟩
      exact absurd (hin.2 ⟨hr, fun heq => hA ⟨heq, hex⟩, hstate hr ▸ hex⟩) hni
    · simp [h] at hw
    · rw [h] at hw
      injection hw with hfs _
      refine ⟨fun hi => ?_, fun _ => ?_⟩
      · obtain ⟨h1, _, h3⟩ := hin.1 hi
        exact absurd ⟨h1, (hstate h1).symm ▸ h3⟩ hB
      · rw [← hfs, FS.write_ne _ _ f.newPath_ne_destPath]
  · intro pre s post fs st fs1 st1 hsplit hpre hP hs
    cases s with
    | mkdir d =>
      rw [(runStep_mkdir_ok hs).2]
      simpa [visited_append, visited] using hP
    | visit f =>
      have hf : f ∈ files src := by
        rw [← hvis, hsplit]
        exact mem_visited.2 (by simp)
      have hstate : f.rel ∈ S → fs f.destPath = dest f.destPath := fun hr =>
        visit_state hu hsplit hpre (hclear f hf hr)
      obtain ⟨hP1, hP2⟩ := hP
      simp only [runStep] at hs
      simp only [visited_append, visited, List.filter_append, List.map_append]
      rcases walkFile_cases S f fs st with
        ⟨hr, _, ⟨e, h⟩ | ⟨_, h⟩ | ⟨u, e, _, h⟩ | ⟨u, _, h⟩⟩ | ⟨hA, hr, hex, ⟨e, h⟩ | h⟩ |
          ⟨hA, hB, ⟨e, h⟩ | h⟩
      · simp [h] at hs
      · simp [h] at hs
      · simp [h] at hs
      · rw [h] at hs
        injection hs with _ hs
        injection hs with hs
        subst hs
        simp [hr, hP1, hP2]
      · simp [h] at hs
      · rw [h] at hs
        injection hs with _ hs
        injection hs with hs
        subst hs
        have hdc : f.rel ≠ "devcontainer.json" := fun heq => hA ⟨heq, hex⟩
        have hd : dest f.destPath ≠ none := hstate hr ▸ hex
        simp [hr, hdc, hd, hP1, hP2]
      · simp [h] at hs
      · rw [h] at hs
        injection hs with _ hs
        injection hs with hs
        have hnot : ¬ (f.rel ∈ S ∧ f.rel ≠ "devcontainer.json" ∧ dest f.destPath ≠ none) :=
          fun hc => hB ⟨hc.1, (hstate hc.1).symm ▸ hc.2.2⟩
        have e1 : st1.preservedFiles = st.preservedFiles := by
          rw [← hs]; split <;> rfl
        have e2 : st1.preserved = st.preserved := by
          rw [← hs]; split <;> rfl
        rw [e1, e2]
        simp [hnot, hP1, hP2]

/-- C15 (amended) at the example scenario: exactly `secret.json` is listed, once. -/
theorem C15_preserved_list_witness :
    (syncDirectory exampleSrc exampleDest (DEFAULT_PRESERVE ++ ["secret.json"])).result =
        .ok ⟨1, 1, 0, 0, ["secret.json"]⟩ ∧
      (⟨1, 1, 0, 0, ["secret.json"]⟩ : Stats).preservedFiles =
        ((files exampleSrc).filter fun f =>
          decide (f.rel ∈ DEFAULT_PRESERVE ++ ["secret.json"] ∧
            f.rel ≠ "devcontainer.json" ∧ exampleDest f.destPath ≠ none)).map PkgFile.rel ∧
      (⟨1, 1, 0, 0, ["secret.json"]⟩ : Stats).preservedFiles.Nodup ∧
      (⟨1, 1, 0, 0, ["secret.json"]⟩ : Stats).preserved =
        (⟨1, 1, 0, 0, ["secret.json"]⟩ : Stats).preservedFiles.length :=
  have h := C15_preserved_list exampleSrc exampleDest (DEFAULT_PRESERVE ++ ["secret.json"]) _
    ⟨1, 1, 0, 0, ["secret.json"]⟩ (by decide) (by decide) (by decide)
    (Outcome.eq_of_result (by decide))
  ⟨by decide, h.1, h.2.2.1, h.2.2.2.1⟩

/-! ## C20: the write set -/

/-- The path of `devcontainer.json` is no side-car path. -/
theorem devcontainer_not_atSideCar (src : Entries) (S : List String) {f : PkgFile}
    (hf : f.destPath = ["devcontainer.json"]) : ¬ AtSideCar src S f := by
  rintro ⟨g, _, ⟨_, h⟩ | ⟨_, h⟩⟩
  · rw [hf] at h
    exact new_ne_devcontainer g.name (@snoc_inj g.destDir [] _ _ h).2
  · rw [hf] at h
    exact bak_ne_devcontainer g.name (@snoc_inj g.destDir [] _ _ h).2

/-- A run removes nothing, with one exception: it stops at the back-up of a
`devcontainer.json` that is a directory when the walk visits it, with `EISDIR` and the
`.bak` path unlinked. -/
theorem runSteps_removes (S : List String) (L : List Step) (fs : FS) (st : Stats) (q : Path)
    (hex : fs q ≠ none) (hgone : (runSteps S L fs st).fs q = none) :
    ∃ pre f post fs1 st1, L = pre ++ Step.visit f :: post ∧
      runSteps S pre fs st = ⟨fs1, .ok st1⟩ ∧ f.rel = "devcontainer.json" ∧
      fs1 f.destPath = some Obj.dir ∧ q = f.bakPath ∧
      (runSteps S L fs st).result = .error .EISDIR := by
  induction L generalizing fs st with
  | nil => exact absurd hgone hex
  | cons s rest ih =>
    by_cases hk : (runStep S s fs st).fs q = none
    · obtain ⟨f, hs, hr, hd, hq, hres⟩ := runStep_removes S s fs st q hex hk
      refine ⟨[], f, rest, fs, st, by rw [hs]; rfl, rfl, hr, hd, hq, ?_⟩
      simp only [runSteps]
      cases h : runStep S s fs st with
      | mk fs1 r =>
        rw [h] at hres
        simp only at hres
        subst hres
        rfl
    · simp only [runSteps] at hgone ⊢
      cases h : runStep S s fs st with
      | mk fs1 r =>
        rw [h] at hgone hk
        cases r with
        | error e => exact absurd hgone hk
        | ok st1 =>
          obtain ⟨pre, f, post, fs2, st2, hL, hpre, hr, hd, hq, hres⟩ :=
            ih fs1 st1 hk hgone
          refine ⟨s :: pre, f, post, fs2, st2, by rw [hL]; rfl, ?_, hr, hd, hq, hres⟩
          simp only [runSteps, h]
          exact hpre

/-- C20, as stated, fails, in two ways.  First, the run creates
`devcontainer.json.bak.codeforge-new`, which is not the path of a package file, not
`devcontainer.json.bak`, and not `p + ".codeforge-new"` for a package file `p` of the
preserve set that existed at the destination: `devcontainer.json.bak` is in the preserve
set but did not exist before the run (the back-up of `devcontainer.json` created it
during the run).  Second, a run can remove a file: when `devcontainer.json` is a
directory at the destination, the back-up throws `EISDIR` and the earlier
`devcontainer.json.bak` is gone. -/
theorem C20_counterexample :
    (listedBakDest ["devcontainer.json.bak.codeforge-new"] = none ∧
      (syncDirectory shipsBakSrc listedBakDest
          (DEFAULT_PRESERVE ++ ["devcontainer.json.bak"])).fs
        ["devcontainer.json.bak.codeforge-new"] = some (Obj.file "Q") ∧
      (∀ f ∈ files shipsBakSrc, f.destPath ≠ ["devcontainer.json.bak.codeforge-new"]) ∧
      (∀ f ∈ files shipsBakSrc, f.rel ∈ DEFAULT_PRESERVE ++ ["devcontainer.json.bak"] →
        listedBakDest f.destPath ≠ none →
        f.newPath ≠ ["devcontainer.json.bak.codeforge-new"]) ∧
      ["devcontainer.json.bak.codeforge-new"] ≠ ["devcontainer.json.bak"]) ∧
    (dirContainerDest ["devcontainer.json.bak"] = some (Obj.file "first backup") ∧
      (syncDirectory containerSrc dirContainerDest DEFAULT_PRESERVE).result =
        .error .EISDIR ∧
      (syncDirectory containerSrc dirContainerDest DEFAULT_PRESERVE).fs
        ["devcontainer.json.bak"] = none) := by
  decide

/-- C20 (amended): for a package tree with valid and unique names, whatever the
destination and the preserve set, and whether the run completes or throws, a destination
path that is not as before after `syncDirectory` is (i) the path of a package file, or
(ii) `p + ".codeforge-new"` for a package file `p` of the preserve set that existed at
the destination before the run or sits itself at a side-car path of the run, or
(iii) top-level `devcontainer.json.bak` when `devcontainer.json` is in the package and
existed at the destination, or (iv) the destination root or the path of a package
directory, where nothing existed and a directory was created.  Every other path is
exactly as before.  Something that existed before the run is gone after it in one case
only: it is top-level `devcontainer.json.bak`, `devcontainer.json` is in the package and
was a directory at the destination, and the run threw `EISDIR`.  A run that completes
removes nothing. -/
theorem C20_write_set (src : Entries) (dest : FS) (S : List String)
    (hu : UniqueNames src) (hv : ValidNames src) :
    (∀ q, (syncDirectory src dest S).fs q ≠ dest q →
      (∃ f ∈ files src, q = f.destPath) ∨
      (∃ f ∈ files src, f.rel ∈ S ∧ (dest f.destPath ≠ none ∨ AtSideCar src S f) ∧
        q = f.newPath) ∨
      (q = ["devcontainer.json.bak"] ∧
        (∃ f ∈ files src, f.destPath = ["devcontainer.json"]) ∧
        dest ["devcontainer.json"] ≠ none) ∨
      ((q = [] ∨ q ∈ dirs src) ∧ dest q = none ∧
        (syncDirectory src dest S).fs q = some Obj.dir)) ∧
      (∀ q, dest q ≠ none → (syncDirectory src dest S).fs q = none →
        q = ["devcontainer.json.bak"] ∧
        (∃ f ∈ files src, f.destPath = ["devcontainer.json"]) ∧
        dest ["devcontainer.json"] = some Obj.dir ∧
        (syncDirectory src dest S).result = .error .EISDIR) ∧
      (∀ fs2 stats, syncDirectory src dest S = ⟨fs2, .ok stats⟩ →
        ∀ q, dest q ≠ none → fs2 q ≠ none) := by
  have hvis : visited (Step.mkdir [] :: steps src [] "") = files src := rfl
  have hbakTop : ∀ f : PkgFile, f.destPath = ["devcontainer.json"] →
      f.bakPath = ["devcontainer.json.bak"] := by
    intro f htop
    obtain ⟨hd0, hn0⟩ := @snoc_inj f.destDir [] _ _ htop
    simp [PkgFile.bakPath, hd0, hn0]
  refine ⟨fun q hq => ?_, fun q hq hgone => ?_, fun fs2 stats hrun q hq => ?_⟩
  · by_cases h1 : ∃ f ∈ files src, q = f.destPath
    · exact Or.inl h1
    by_cases h2 : ∃ f ∈ files src, f.rel ∈ S ∧
        (dest f.destPath ≠ none ∨ AtSideCar src S f) ∧ q = f.newPath
    · exact Or.inr (Or.inl h2)
    by_cases h3 : q = ["devcontainer.json.bak"] ∧
        (∃ f ∈ files src, f.destPath = ["devcontainer.json"]) ∧
        dest ["devcontainer.json"] ≠ none
    · exact Or.inr (Or.inr (Or.inl h3))
    refine Or.inr (Or.inr (Or.inr ?_))
    have key := runSteps_fs_rec S (Step.mkdir [] :: steps src [] "") dest Stats.zero
      (fun fs => fs q = dest q ∨
        ((q = [] ∨ q ∈ dirs src) ∧ dest q = none ∧ fs q = some Obj.dir))
      (Or.inl rfl) ?_
    · rw [← syncDirectory_eq_runSteps] at key
      rcases key with h | h
      · exact absurd h hq
      · exact h
    · intro pre s post fs st hsplit hpre hQ
      have hs : s ∈ Step.mkdir [] :: steps src [] "" := by rw [hsplit]; simp
      cases s with
      | mkdir d =>
        simp only [runStep]
        cases he : ensureDir fs d with
        | error e => exact hQ
        | ok fs1 =>
          obtain ⟨_, hout, hch, _⟩ := ensureDir_ok he
          rcases hch q with h | ⟨hn, hd⟩
          · simp only [h]; exact hQ
          · right
            have hpre' : q <+: d := by
              by_contra hnp
              rw [hout q hnp, hn] at hd
              cases hd
            refine ⟨?_, ?_, hd⟩
            · by_cases hq0 : q = []
              · exact Or.inl hq0
              · right
                rcases List.mem_cons.1 hs with h | h
                · injection h with h
                  subst h
                  exact absurd (List.prefix_nil.1 hpre') hq0
                · exact mem_dirs_of_prefix (mem_madeDirs.2 h) hpre' hq0
            · rcases hQ with h | ⟨_, h, _⟩
              · rw [← h, hn]
              · exact h
      | visit f =>
        have hf : f ∈ files src := by
          rw [← hvis]; exact mem_visited.2 hs
        have hqd : q ≠ f.destPath := fun e => h1 ⟨f, hf, e⟩
        have hqn : f.rel ∈ S → fs f.destPath ≠ none → q ≠ f.newPath := by
          intro hr hex e
          apply h2
          refine ⟨f, hf, hr, ?_, e⟩
          by_cases hsc : AtSideCar src S f
          · exact Or.inr hsc
          · left
            rw [← visit_state hu hsplit hpre hsc]
            exact hex
        have hqb : f.rel = "devcontainer.json" → fs f.destPath ≠ none → q ≠ f.bakPath := by
          intro hr hex e
          apply h3
          have htop := rel_devcontainer_top hv hf hr
          have hst := visit_state hu hsplit hpre (devcontainer_not_atSideCar src S htop)
          refine ⟨?_, ⟨f, hf, htop⟩, ?_⟩
          · rw [e]
            exact hbakTop f htop
          · rw [← htop, ← hst]
            exact hex
        have hsame : (runStep S (Step.visit f) fs st).fs q = fs q := by
          simp only [runStep]
          rcases walkFile_cases S f fs st with
            ⟨hr, hex, ⟨e, h⟩ | ⟨_, h⟩ | ⟨u, e, _, h⟩ | ⟨u, _, h⟩⟩ |
              ⟨_, hr, hex, ⟨e, h⟩ | h⟩ | ⟨_, _, ⟨e, h⟩ | h⟩
          · rw [h]
          · rw [h]; exact FS.remove_ne _ (hqb hr hex)
          · rw [h]; exact FS.write_ne _ _ (hqb hr hex)
          · rw [h]; simp only
            rw [FS.write_ne _ _ hqd, FS.write_ne _ _ (hqb hr hex)]
          · rw [h]
          · rw [h]; exact FS.write_ne _ _ (hqn hr hex)
          · rw [h]
          · rw [h]; exact FS.write_ne _ _ hqd
        simp only [hsame]
        exact hQ
  · rw [syncDirectory_eq_runSteps] at hgone ⊢
    obtain ⟨pre, f, post, fs1, st1, hsplit, hpre, hr, hd, hqb, hres⟩ :=
      runSteps_removes S _ dest Stats.zero q hq hgone
    have hf : f ∈ files src := by
      rw [← hvis, hsplit]
      exact mem_visited.2 (by simp)
    have htop := rel_devcontainer_top hv hf hr
    have hst := visit_state hu hsplit hpre (devcontainer_not_atSideCar src S htop)
    refine ⟨?_, ⟨f, hf, htop⟩, ?_, hres⟩
    · rw [hqb]
      exact hbakTop f htop
    · rw [← htop, ← hst]
      exact hd
  · rw [syncDirectory_eq_runSteps] at hrun
    exact runSteps_keeps S _ dest Stats.zero q hq hrun

/-- C20 (amended) at the example scenario: the exclusion file, outside the write set, is
as before, the package version of `secret.json` is staged, and the files of the
destination are all still there. -/
theorem C20_write_set_witness :
    (syncDirectory exampleSrc exampleDest (DEFAULT_PRESERVE ++ ["secret.json"])).fs
        [".codeforge-preserve"] = exampleDest [".codeforge-preserve"] ∧
      (syncDirectory exampleSrc exampleDest (DEFAULT_PRESERVE ++ ["secret.json"])).fs
        ["secret.json.codeforge-new"] = some (Obj.file "Y") ∧
      (∀ fs2 stats,
        syncDirectory exampleSrc exampleDest (DEFAULT_PRESERVE ++ ["secret.json"]) =
          ⟨fs2, .ok stats⟩ →
        ∀ q, exampleDest q ≠ none → fs2 q ≠ none) :=
  ⟨by decide, by decide,
    (C20_write_set exampleSrc exampleDest (DEFAULT_PRESERVE ++ ["secret.json"]) (by decide)
      (by decide)).2.2⟩

/-! ## C17: directories before their contents -/

/-- In the loop over a listing, the directory a file is written in is the directory the
loop runs in or was made sure to exist by an earlier step. -/
theorem steps_parent_before (src : Entries) (base : Path) (rb : String) :
    ∀ (pre post : List Step) (f : PkgFile), steps src base rb = pre ++ Step.visit f :: post →
      f.destDir = base ∨ Step.mkdir f.destDir ∈ pre := by
  induction src generalizing base rb with
  | nil =>
    intro pre post f h
    simp [steps] at h
  | file name content rest ih =>
    intro pre post f h
    simp only [steps] at h
    cases pre with
    | nil =>
      simp only [List.nil_append, List.cons.injEq, Step.visit.injEq] at h
      left
      rw [← h.1]
    | cons s pre' =>
      simp only [List.cons_append, List.cons.injEq] at h
      rcases ih base rb pre' post f h.2 with h1 | h1
      · exact Or.inl h1
      · exact Or.inr (List.mem_cons_of_mem _ h1)
  | dir name children rest ihc ihr =>
    intro pre post f h
    simp only [steps] at h
    cases pre with
    | nil => simp at h
    | cons s pre' =>
      simp only [List.cons_append, List.cons.injEq] at h
      obtain ⟨hs, h⟩ := h
      rcases List.append_eq_append_iff.1 h with ⟨a', h1, h2⟩ | ⟨c', h1, h2⟩
      · rcases ihr base rb a' post f h2 with h3 | h3
        · exact Or.inl h3
        · right
          rw [h1]
          exact List.mem_cons_of_mem _ (List.mem_append_right _ h3)
      · cases c' with
        | nil =>
          rcases ihr base rb [] post f (by simpa using h2.symm) with h3 | h3
          · exact Or.inl h3
          · simp at h3
        | cons x c'' =>
          simp only [List.cons_append, List.cons.injEq] at h2
          rw [← h2.1] at h1
          rcases ihc (base ++ [name]) _ pre' c'' f h1 with h3 | h3
          · right
            rw [h3, ← hs]
            exact List.mem_cons_self _ _
          · exact Or.inr (List.mem_cons_of_mem _ h3)

/-- The directory call completes when no ancestor of the directory, nor the directory
itself, is a regular file; the directory exists afterwards and only missing ancestors
were created. -/
theorem ensureDir_succeeds {fs : FS} {d : Path}
    (h : ∀ q, q <+: d → Obj.isFile (fs q) = false) :
    ∃ fs1, ensureDir fs d = .ok fs1 ∧ fs1 d = some Obj.dir ∧
      ∀ q, fs1 q = fs q ∨ (q <+: d ∧ fs1 q = some Obj.dir) := by
  unfold ensureDir
  by_cases hex : existsSync fs d = true
  · rw [if_pos hex]
    refine ⟨fs, rfl, ?_, fun q => Or.inl rfl⟩
    have h1 := h d (List.prefix_refl d)
    have h2 := (existsSync_iff fs d).1 hex
    cases hfd : fs d with
    | none => exact absurd hfd h2
    | some o =>
      cases o with
      | dir => rfl
      | file c => rw [hfd] at h1; simp [Obj.isFile] at h1
  · rw [if_neg hex]
    unfold mkdirSync
    rw [if_neg (by rw [h d (List.prefix_refl d)]; simp)]
    have hany : ¬ (d.inits.any fun q => Obj.isFile (fs q)) = true := by
      simp only [List.any_eq_true, not_exists, not_and, Bool.not_eq_true]
      intro q hq
      exact h q ((List.mem_inits q d).1 hq)
    rw [if_neg hany]
    refine ⟨fs.mkdirp d, rfl, ?_, fun q => ?_⟩
    · rw [FS.mkdirp_apply, if_pos (List.prefix_refl d)]
    · rw [FS.mkdirp_apply]
      by_cases hq : q <+: d
      · rw [if_pos hq]; exact Or.inr ⟨hq, rfl⟩
      · rw [if_neg hq]; exact Or.inl rfl

theorem PkgFile.destDir_ne_child (f : PkgFile) (n : String) : f.destDir ≠ f.destDir ++ [n] := by
  intro h
  have := congrArg List.length h
  simp at this

/-- The per-file policy completes when the directory of the file exists and none of the
paths it writes is a directory; what it changes are paths of its write set, and it
leaves regular files there. -/
theorem walkFile_succeeds (S : List String) (f : PkgFile) (fs : FS) (stats : Stats)
    (hdir : fs f.destDir = some Obj.dir)
    (hw : ∀ q, Step.writes S (Step.visit f) q → fs q ≠ some Obj.dir) :
    ∃ fs1 stats1, walkFile S f.content f.destDir f.name f.rel fs stats = ⟨fs1, .ok stats1⟩ ∧
      ∀ q, fs1 q = fs q ∨ (Step.writes S (Step.visit f) q ∧ Obj.isFile (fs1 q) = true) := by
  have hd : fs f.destPath ≠ some Obj.dir := hw _ (Or.inl rfl)
  have hdrop : ∀ n : String, (f.destDir ++ [n]).dropLast = f.destDir := fun n => by simp
  have hcopy : ∀ (g : FS) (n c : String), g f.destDir = some Obj.dir →
      g (f.destDir ++ [n]) ≠ some Obj.dir →
      copyFromPackage g (f.destDir ++ [n]) c = .ok (g.write (f.destDir ++ [n]) c) := by
    intro g n c h1 h2
    exact copyFromPackage_succeeds c (by rw [hdrop]; exact h1) h2
  have hsucc : ∃ fs1 stats1,
      walkFile S f.content f.destDir f.name f.rel fs stats = ⟨fs1, .ok stats1⟩ := by
    unfold walkFile
    simp only [existsSync_iff]
    by_cases hA : f.rel = "devcontainer.json" ∧ fs (f.destDir ++ [f.name]) ≠ none
    · rw [if_pos hA]
      have hb : fs f.bakPath ≠ some Obj.dir := hw _ (Or.inr (Or.inr ⟨hA.1, rfl⟩))
      cases hfd : fs (f.destDir ++ [f.name]) with
      | none => exact absurd hfd hA.2
      | some o =>
        cases o with
        | dir => exact absurd hfd hd
        | file u =>
          have h1 : copyFileSync fs (f.destDir ++ [f.name]) (f.destDir ++ [f.name ++ ".bak"]) =
              ⟨fs.write (f.destDir ++ [f.name ++ ".bak"]) u, .ok ()⟩ := by
            unfold copyFileSync
            rw [hfd]
            simp only
            rw [hcopy fs _ u hdir hb]
          have h2 : copyFromPackage (fs.write (f.destDir ++ [f.name ++ ".bak"]) u)
              (f.destDir ++ [f.name]) f.content =
              .ok ((fs.write (f.destDir ++ [f.name ++ ".bak"]) u).write
                (f.destDir ++ [f.name]) f.content) := by
            apply hcopy
            · rw [FS.write_ne _ _ (f.destDir_ne_child _)]
              exact hdir
            · have hne : f.destDir ++ [f.name] ≠ f.destDir ++ [f.name ++ ".bak"] :=
                Ne.symm f.bakPath_ne_destPath
              rw [FS.write_ne _ _ hne]
              exact hd
          rw [h1]
          simp only
          rw [h2]
          exact ⟨_, _, rfl⟩
    · rw [if_neg hA]
      by_cases hB : f.rel ∈ S ∧ fs (f.destDir ++ [f.name]) ≠ none
      · rw [if_pos hB]
        have hn : fs f.newPath ≠ some Obj.dir := hw _ (Or.inr (Or.inl ⟨hB.1, rfl⟩))
        rw [hcopy fs _ f.content hdir hn]
        exact ⟨_, _, rfl⟩
      · rw [if_neg hB]
        rw [hcopy fs _ f.content hdir hd]
        dsimp only
        split <;> exact ⟨_, _, rfl⟩
  obtain ⟨fs1, stats1, hrun⟩ := hsucc
  refine ⟨fs1, stats1, hrun, fun q => ?_⟩
  have hfile : ∀ (g : FS) (p : Path) (c : String), Obj.isFile (g.write p c p) = true := by
    intro g p c
    simp [FS.write, Obj.isFile]
  rcases walkFile_cases S f fs stats with
    ⟨hr, hex, ⟨e, h⟩ | ⟨_, h⟩ | ⟨u, e, _, h⟩ | ⟨u, _, h⟩⟩ | ⟨_, hr, hex, ⟨e, h⟩ | h⟩ |
      ⟨_, _, ⟨e, h⟩ | h⟩
  · rw [h] at hrun; simp at hrun
  · rw [h] at hrun; simp at hrun
  · rw [h] at hrun; simp at hrun
  · rw [h] at hrun
    injection hrun with h1 _
    subst h1
    by_cases hq1 : q = f.destPath
    · right
      subst hq1
      exact ⟨Or.inl rfl, hfile _ _ _⟩
    · rw [FS.write_ne _ _ hq1]
      by_cases hq2 : q = f.bakPath
      · right
        subst hq2
        exact ⟨Or.inr (Or.inr ⟨hr, rfl⟩), hfile _ _ _⟩
      · left
        exact FS.write_ne _ _ hq2
  · rw [h] at hrun; simp at hrun
  · rw [h] at hrun
    injection hrun with h1 _
    subst h1
    by_cases hq1 : q = f.newPath
    · right
      subst hq1
      exact ⟨Or.inr (Or.inl ⟨hr, rfl⟩), hfile _ _ _⟩
    · left
      exact FS.write_ne _ _ hq1
  · rw [h] at hrun; simp at hrun
  · rw [h] at hrun
    injection hrun with h1 _
    subst h1
    by_cases hq1 : q = f.destPath
    · right
      subst hq1
      exact ⟨Or.inl rfl, hfile _ _ _⟩
    · left
      exact FS.write_ne _ _ hq1

/-- A run completes when every step completes from a state that satisfies an invariant
of the steps run so far, and re-establishes it. -/
theorem runSteps_complete (S : List String) (L : List Step) (fs0 : FS) (st0 : Stats)
    (I : List Step → FS → Prop) (h0 : I [] fs0)
    (hstep : ∀ pre s post fs stats, L = pre ++ s :: post → I pre fs →
      ∃ fs1 stats1, runStep S s fs stats = ⟨fs1, .ok stats1⟩ ∧ I (pre ++ [s]) fs1) :
    ∃ fs2 stats2, runSteps S L fs0 st0 = ⟨fs2, .ok stats2⟩ ∧ I L fs2 := by
  have key : ∀ (post pre : List Step) (fs : FS) (stats : Stats), L = pre ++ post →
      I pre fs → ∃ fs2 stats2, runSteps S post fs stats = ⟨fs2, .ok stats2⟩ ∧ I L fs2 := by
    intro post
    induction post with
    | nil =>
      intro pre fs stats hL hI
      refine ⟨fs, stats, rfl, ?_⟩
      rw [hL, List.append_nil]
      exact hI
    | cons s rest ih =>
      intro pre fs stats hL hI
      obtain ⟨fs1, stats1, h1, hI1⟩ := hstep pre s rest fs stats hL hI
      obtain ⟨fs2, stats2, h2, hI2⟩ :=
        ih (pre ++ [s]) fs1 stats1 (by rw [hL, List.append_assoc]; rfl) hI1
      refine ⟨fs2, stats2, ?_, hI2⟩
      simp only [runSteps, h1]
      exact h2
  exact key L [] fs0 st0 rfl h0

/-- One step of the walk from a state in which no package directory is a regular file,
no path of a write set is a directory and the directories of the earlier steps exist:
the step completes and leaves such a state. -/
theorem sync_step_ok {src : Entries} {S : List String}
    (hW : ∀ f ∈ files src, ∀ q, Step.writes S (Step.visit f) q → q ≠ [] ∧ q ∉ dirs src)
    {pre post : List Step} {s : Step}
    (hsplit : Step.mkdir [] :: steps src [] "" = pre ++ s :: post) (fs : FS) (stats : Stats)
    (hK : ∀ d, d = [] ∨ d ∈ dirs src → Obj.isFile (fs d) = false)
    (hM : ∀ f ∈ files src, ∀ q, Step.writes S (Step.visit f) q → fs q ≠ some Obj.dir)
    (hJ : ∀ d ∈ madeDirs pre, fs d = some Obj.dir) :
    ∃ fs1 stats1, runStep S s fs stats = ⟨fs1, .ok stats1⟩ ∧
      (∀ d, d = [] ∨ d ∈ dirs src → Obj.isFile (fs1 d) = false) ∧
      (∀ f ∈ files src, ∀ q, Step.writes S (Step.visit f) q → fs1 q ≠ some Obj.dir) ∧
      (∀ d ∈ madeDirs (pre ++ [s]), fs1 d = some Obj.dir) := by
  have hall : ∀ t, t ∈ pre ++ s :: post → t ∈ Step.mkdir [] :: steps src [] "" := by
    intro t ht
    rw [hsplit]
    exact ht
  have hmade : ∀ d, Step.mkdir d ∈ pre ++ s :: post → d = [] ∨ d ∈ dirs src := by
    intro d hd
    rcases List.mem_cons.1 (hall _ hd) with h | h
    · injection h with h
      exact Or.inl h
    · exact Or.inr (mem_madeDirs.2 h)
  have hnotfile : ∀ o : Option Obj, o = some Obj.dir → Obj.isFile o = false := by
    intro o ho
    rw [ho]
    rfl
  have hnotdir : ∀ o : Option Obj, Obj.isFile o = true → o ≠ some Obj.dir := by
    intro o ho h
    rw [h] at ho
    cases ho
  cases s with
  | mkdir d =>
    have hd : d = [] ∨ d ∈ dirs src := hmade d (by simp)
    have hpref : ∀ q, q <+: d → q = [] ∨ q ∈ dirs src := by
      intro q hq
      by_cases hq0 : q = []
      · exact Or.inl hq0
      · right
        rcases hd with h | h
        · subst h
          exact absurd (List.prefix_nil.1 hq) hq0
        · exact mem_dirs_of_prefix h hq hq0
    obtain ⟨fs1, he, hd1, hch⟩ := ensureDir_succeeds (fun q hq => hK q (hpref q hq))
    refine ⟨fs1, stats, by simp only [runStep, he], ?_, ?_, ?_⟩
    · intro x hx
      rcases hch x with h | ⟨_, h⟩
      · rw [h]; exact hK x hx
      · exact hnotfile _ h
    · intro f hf q hq
      rcases hch q with h | ⟨h, _⟩
      · rw [h]; exact hM f hf q hq
      · exfalso
        rcases hpref q h with h0 | h0
        · exact (hW f hf q hq).1 h0
        · exact (hW f hf q hq).2 h0
    · intro x hx
      rw [madeDirs_append] at hx
      rcases List.mem_append.1 hx with h | h
      · rcases hch x with h1 | ⟨_, h1⟩
        · rw [h1]; exact hJ x h
        · exact h1
      · simp only [madeDirs, List.mem_singleton] at h
        rw [h]
        exact hd1
  | visit f =>
    have hf : f ∈ files src := by
      rcases List.mem_cons.1 (hall (Step.visit f) (by simp)) with h | h
      · cases h
      · exact mem_visited.2 h
    have hparent : f.destDir ∈ madeDirs pre := by
      cases pre with
      | nil =>
        simp only [List.nil_append, List.cons.injEq] at hsplit
        cases hsplit.1
      | cons t pre' =>
        simp only [List.cons_append, List.cons.injEq] at hsplit
        obtain ⟨ht, hrest⟩ := hsplit
        rcases steps_parent_before src [] "" pre' post f hrest with h | h
        · rw [h, ← ht]
          simp [madeDirs]
        · exact mem_madeDirs.2 (List.mem_cons_of_mem _ h)
    obtain ⟨fs1, stats1, hrun, hch⟩ :=
      walkFile_succeeds S f fs stats (hJ _ hparent) (hM f hf)
    refine ⟨fs1, stats1, by simpa only [runStep] using hrun, ?_, ?_, ?_⟩
    · intro x hx
      rcases hch x with h | ⟨h, _⟩
      · rw [h]; exact hK x hx
      · exfalso
        rcases hx with h0 | h0
        · exact (hW f hf x h).1 h0
        · exact (hW f hf x h).2 h0
    · intro g hg q hq
      rcases hch q with h | ⟨_, h⟩
      · rw [h]; exact hM g hg q hq
      · exact hnotdir _ h
    · intro x hx
      rw [madeDirs_append] at hx
      simp only [madeDirs, List.append_nil] at hx
      rcases hch x with h | ⟨h, _⟩
      · rw [h]; exact hJ x hx
      · exfalso
        rcases hmade x (List.mem_append_left _ (mem_madeDirs.1 hx)) with h0 | h0
        · exact (hW f hf x h).1 h0
        · exact (hW f hf x h).2 h0

/-- C17, as stated, fails: no path is a directory on one side and a regular file on the
other, yet the run throws `ENOTDIR` at the file `y`: the package version of
`.codeforge-preserve` was staged as the regular file `.codeforge-preserve.codeforge-new`,
the package directory of that name was then found to exist and not created, and the
write beneath it has no parent directory.  The package directory does not exist as a
directory after the run. -/
theorem C17_counterexample :
    Obj.isFile (stagedDirDest []) = false ∧
      (∀ d ∈ dirs stagedDirSrc, Obj.isFile (stagedDirDest d) = false) ∧
      (∀ f ∈ files stagedDirSrc, stagedDirDest f.destPath ≠ some Obj.dir) ∧
      UniqueNames stagedDirSrc ∧
      loadPreserveList stagedDirDest = .ok DEFAULT_PRESERVE ∧
      (syncDirectory stagedDirSrc stagedDirDest DEFAULT_PRESERVE).result = .error .ENOTDIR ∧
      [".codeforge-preserve.codeforge-new"] ∈ dirs stagedDirSrc ∧
      (syncDirectory stagedDirSrc stagedDirDest DEFAULT_PRESERVE).fs
        [".codeforge-preserve.codeforge-new"] = some (Obj.file "P") := by
  decide

/-- C17 (amended): let the package be a directory tree with unique names, let no path be
a directory on one side and a regular file on the other (the destination root is no
regular file, no package directory is a regular file at the destination, no package
file is a directory there), and let the side-car paths of the run
(`destPath + ".codeforge-new"` of the package files of the preserve set, `destPath +
".bak"` of the package's `devcontainer.json`) be neither package directories nor
directories at the destination.  Then `syncDirectory` completes; afterwards the
destination root and every directory of the package tree, empty ones included, exist as
directories; and whenever the walk applies the policy to a package file, the directory
the file is written in exists at that moment. -/
theorem C17_directories_first (src : Entries) (dest : FS) (S : List String)
    (hu : UniqueNames src)
    (hroot : Obj.isFile (dest []) = false)
    (hdirs : ∀ d ∈ dirs src, Obj.isFile (dest d) = false)
    (hfiles : ∀ f ∈ files src, dest f.destPath ≠ some Obj.dir)
    (hnew : ∀ f ∈ files src, f.rel ∈ S →
      f.newPath ∉ dirs src ∧ dest f.newPath ≠ some Obj.dir)
    (hbak : ∀ f ∈ files src, f.rel = "devcontainer.json" →
      f.bakPath ∉ dirs src ∧ dest f.bakPath ≠ some Obj.dir) :
    ∃ fs2 stats, syncDirectory src dest S = ⟨fs2, .ok stats⟩ ∧
      fs2 [] = some Obj.dir ∧ (∀ d ∈ dirs src, fs2 d = some Obj.dir) ∧
      (∀ f fs0 stats0 fs1 stats1, Visit src dest S f fs0 stats0 fs1 stats1 →
        fs0 f.destDir = some Obj.dir) := by
  have hnil : ∀ (p : Path) (n : String), p ++ [n] ≠ [] := by
    intro p n h
    simp at h
  have hW : ∀ f ∈ files src, ∀ q, Step.writes S (Step.visit f) q → q ≠ [] ∧ q ∉ dirs src := by
    rintro f hf q (h | ⟨hr, h⟩ | ⟨hr, h⟩)
    · rw [h]; exact ⟨hnil _ _, file_not_dir hu hf⟩
    · rw [h]; exact ⟨hnil _ _, (hnew f hf hr).1⟩
    · rw [h]; exact ⟨hnil _ _, (hbak f hf hr).1⟩
  have hI0 : (∀ d, d = [] ∨ d ∈ dirs src → Obj.isFile (dest d) = false) ∧
      (∀ f ∈ files src, ∀ q, Step.writes S (Step.visit f) q → dest q ≠ some Obj.dir) ∧
      (∀ d ∈ madeDirs [], dest d = some Obj.dir) := by
    refine ⟨?_, ?_, ?_⟩
    · rintro d (h | h)
      · rw [h]; exact hroot
      · exact hdirs d h
    · rintro f hf q (h | ⟨hr, h⟩ | ⟨hr, h⟩)
      · rw [h]; exact hfiles f hf
      · rw [h]; exact (hnew f hf hr).2
      · rw [h]; exact (hbak f hf hr).2
    · intro d hd
      simp [madeDirs] at hd
  -- the invariant holds along every prefix of the walk
  have hprefix : ∀ pre rest, Step.mkdir [] :: steps src [] "" = pre ++ rest →
      ∃ fs2 stats2, runSteps S pre dest Stats.zero = ⟨fs2, .ok stats2⟩ ∧
        ((∀ d, d = [] ∨ d ∈ dirs src → Obj.isFile (fs2 d) = false) ∧
          (∀ f ∈ files src, ∀ q, Step.writes S (Step.visit f) q → fs2 q ≠ some Obj.dir) ∧
          (∀ d ∈ madeDirs pre, fs2 d = some Obj.dir)) := by
    intro pre rest hL
    refine runSteps_complete S pre dest Stats.zero
      (fun l fs => (∀ d, d = [] ∨ d ∈ dirs src → Obj.isFile (fs d) = false) ∧
        (∀ f ∈ files src, ∀ q, Step.writes S (Step.visit f) q → fs q ≠ some Obj.dir) ∧
        (∀ d ∈ madeDirs l, fs d = some Obj.dir)) hI0 ?_
    intro p s post fs stats hp hI
    have hsplit : Step.mkdir [] :: steps src [] "" = p ++ s :: (post ++ rest) := by
      rw [hL, hp]
      simp
    exact sync_step_ok hW hsplit fs stats hI.1 hI.2.1 hI.2.2
  obtain ⟨fs2, stats2, hrun, _, _, hJ⟩ :=
    hprefix (Step.mkdir [] :: steps src [] "") [] (List.append_nil _).symm
  refine ⟨fs2, stats2, by rw [syncDirectory_eq_runSteps]; exact hrun, ?_, ?_, ?_⟩
  · exact hJ [] (by simp [madeDirs])
  · intro d hd
    exact hJ d (by simp only [madeDirs]; exact List.mem_cons_of_mem _ hd)
  · rintro f fs0 stats0 fs1 stats1 ⟨pre, post, hsplit, hpre, _⟩
    obtain ⟨fs0', stats0', hrun0, _, _, hJ0⟩ := hprefix pre (Step.visit f :: post) hsplit
    rw [hpre] at hrun0
    injection hrun0 with h1 _
    subst h1
    apply hJ0
    cases pre with
    | nil =>
      simp only [List.nil_append, List.cons.injEq] at hsplit
      cases hsplit.1
    | cons t pre' =>
      simp only [List.cons_append, List.cons.injEq] at hsplit
      obtain ⟨ht, hrest⟩ := hsplit
      rcases steps_parent_before src [] "" pre' post f hrest with h | h
      · rw [h, ← ht]
        simp [madeDirs]
      · exact mem_madeDirs.2 (List.mem_cons_of_mem _ h)

/-- C17 (amended) on a package with a file two directories deep and an empty directory,
installed over an empty destination directory: the run completes and leaves the three
package directories. -/
theorem C17_directories_first_witness :
    ∃ fs2 stats, syncDirectory deepSrc emptyDirDest DEFAULT_PRESERVE = ⟨fs2, .ok stats⟩ ∧
      fs2 [] = some Obj.dir ∧ (∀ d ∈ dirs deepSrc, fs2 d = some Obj.dir) ∧
      (∀ f fs0 stats0 fs1 stats1,
        Visit deepSrc emptyDirDest DEFAULT_PRESERVE f fs0 stats0 fs1 stats1 →
        fs0 f.destDir = some Obj.dir) :=
  C17_directories_first deepSrc emptyDirDest DEFAULT_PRESERVE (by decide) (by decide)
    (by decide) (by decide) (by decide) (by decide)

end CodeForge
